import Mathlib

/-!
Chemical formula parser: a shallow embedding of `Stack.c`, `periodicTable.c`
and `ParseFormula.c`.

Conventions of the embedding.

* A C string is the list of its characters before the terminating NUL
  (`CString`); `strlen` is its length and `charAt buffer i` is `buffer[i]`,
  which is the NUL at index `strlen buffer`.
* `EXIT_SUCCESS` and `EXIT_FAILURE` are the integers 0 and 1.
* Allocation failure and `fopen` failure are outside the model, so `push`
  always succeeds.
* The functions of `ParseFormula.c` are given twice. The definitions of the
  section `ParseFormula.c` take the 1024 byte scratch arrays to be large enough
  and `int` values to be unbounded. The definitions of the namespace `Machine`
  follow the same code with both limits: a write past the end of an array is
  the outcome `overrun`, after which the behaviour of the program is undefined,
  and `int` arithmetic wraps modulo 2^32.
* The table functions of `periodicTable.c` carry the size of every name buffer.
* Functions that mutate their arguments return the new values next to the
  status.
-/

namespace ParseFormula

/-! ## Basic types -/

abbrev EXIT_SUCCESS : Int := 0

abbrev EXIT_FAILURE : Int := 1

/-- A C string: its characters up to, not including, the terminating NUL. -/
abbrev CString := List Char

/-- The C library `strlen`. -/
def strlen (s : CString) : Nat := s.length

/-- The NUL character that terminates every C string. -/
def NUL : Char := Char.ofNat 0

/-- Reading `buffer[i]`; index `strlen buffer` holds the terminator. -/
def charAt (buffer : CString) (i : Nat) : Char := buffer.getD i NUL

/-- The test `c >= 'A' && c <= 'Z'`. -/
def isUpperCase (c : Char) : Bool := decide ('A' ≤ c) && decide (c ≤ 'Z')

/-- The test `c >= 'a' && c <= 'z'`. -/
def isLowerCase (c : Char) : Bool := decide ('a' ≤ c) && decide (c ≤ 'z')

/-- The test `(c - '0') >= 0 && (c - '0') <= 9`, which is also `isdigit(c)`. -/
def isDigitChar (c : Char) : Bool := decide ('0' ≤ c) && decide (c ≤ '9')

/-- The value `c - '0'` of a digit character. -/
def digitValue (c : Char) : Nat := c.toNat - ('0').toNat

/-- The one-character string `"("` pushed as group marker. -/
def openMarker : CString := ['(']

/-- What code that writes into arrays of fixed size does: it goes on with a
value, or it writes past the end of an array, after which the behaviour of the
program is undefined. -/
inductive Outcome (α : Type) where
  | returns (value : α)
  | overrun
deriving DecidableEq, Repr

/-- The outcome with a function applied to the value. -/
def Outcome.map {α β : Type} (f : α → β) : Outcome α → Outcome β
  | .returns value => .returns (f value)
  | .overrun => .overrun

/-- The size of the arrays declared `char name[1024]`. -/
def arraySize : Nat := 1024

/-! ## Stack.c -/

/-- The linked list of `Node`s from the top down, and the `size` counter. -/
structure Stack where
  top : List CString
  size : Nat
deriving DecidableEq, Repr

/-- The stack `initStack` allocates: `top = NULL`, `size = 0`. -/
def initStack : Stack := ⟨[], 0⟩

/-- Links a copy of `value` in front of `top` and increments `size`. -/
def push (s : Stack) (value : CString) : Stack :=
  ⟨value :: s.top, s.size + 1⟩

/-- Returns status, stack and the `retval` buffer. With `size == 0` it fails and
touches nothing; otherwise it copies the top node's data to `retval`, unlinks
the node and decrements `size`. (A null `top` with a non-zero `size` does not
arise from `initStack`, `push` and `pop`; the model fails there too.) -/
def pop (s : Stack) (retval : CString) : Int × Stack × CString :=
  if s.size = 0 then (EXIT_FAILURE, s, retval)
  else
    match s.top with
    | [] => (EXIT_FAILURE, s, retval)
    | data :: next => (EXIT_SUCCESS, ⟨next, s.size - 1⟩, data)

/-- The loop `while (s->size > 0) { pop(s, retval); printf("%s has been popped\n", retval); }`
of the test `main` of Stack.c, on the stack with fields `size` and `top`.
Returns status, stack and the strings reported, in the order they are popped. -/
def popLoop : Nat → List CString → List CString → Int × Stack × List CString
  | 0, top, popped => (EXIT_SUCCESS, ⟨top, 0⟩, popped)
  | size + 1, top, popped =>
    match pop ⟨top, size + 1⟩ [] with
    | (status, stack1, retval) =>
      if status = EXIT_FAILURE then (EXIT_FAILURE, stack1, popped)
      else popLoop size stack1.top (popped ++ [retval])

/-- Pushing the strings of a list one after the other, as the `for` loop of the
test `main` of Stack.c does with "A" to "F". -/
def pushAll (s : Stack) (values : List CString) : Stack :=
  values.foldl push s

/-- The stacks the program can hold: the one `initStack` makes, and those a
`push` or a successful `pop` makes from such a stack. -/
inductive Stack.Reachable : Stack → Prop
  | init : Stack.Reachable initStack
  | push (s : Stack) (value : CString) : Stack.Reachable s → Stack.Reachable (push s value)
  | pop (s : Stack) (retval : CString) : Stack.Reachable s →
      (pop s retval).1 = EXIT_SUCCESS → Stack.Reachable (pop s retval).2.1

/-! ## periodicTable.c -/

structure Molecule where
  periodicNum : Int
  name : CString
deriving DecidableEq, Repr

/-- The entries `array[0] .. array[size - 1]` of the table. -/
abbrev PeriodicTable := List Molecule

/-- Linear scan with `strcmp(table->array[i].name, molecule) == 0`. -/
def isMolecule (molecule : CString) : PeriodicTable → Int
  | [] => EXIT_FAILURE
  | m :: rest => if m.name = molecule then EXIT_SUCCESS else isMolecule molecule rest

/-- Linear scan returning `periodicNum` of the first entry whose name compares
equal, 0 when there is none. -/
def findMoleculeNumber (molecule : CString) : PeriodicTable → Int
  | [] => 0
  | m :: rest =>
    if molecule = m.name then m.periodicNum else findMoleculeNumber molecule rest

/-- An entry of the array as it lies in memory: the pair, and the number of
bytes allocated for the name. -/
structure Slot where
  periodicNum : Int
  name : CString
  capacity : Nat
deriving DecidableEq, Repr

/-- The pair a slot holds. -/
def Slot.molecule (slot : Slot) : Molecule := ⟨slot.periodicNum, slot.name⟩

/-- The entry `createMolecule` stores: the name goes to a buffer of
`strlen(buffer) + 1` bytes. -/
def createMolecule (buffer : CString) (number : Int) : Slot :=
  ⟨number, buffer, strlen buffer + 1⟩

/-- Reading `table->array[j]`. -/
def entryAt (array : List Slot) (j : Nat) : Slot := array.getD j ⟨0, [], 0⟩

/-- The statements `array[k].periodicNum = value; strcpy(array[k].name, name);`:
the copy writes `strlen(name) + 1` bytes into the buffer of slot `k`, which keeps
the size it was allocated with. -/
def storeAt (array : List Slot) (k : Nat) (value : Int) (name : CString) :
    Outcome (List Slot) :=
  if strlen name < (entryAt array k).capacity then
    .returns (array.set k ⟨value, name, (entryAt array k).capacity⟩)
  else .overrun

/-- The `while` loop of `insertionSort`, with `k = j + 1` the slot that is free:
as long as `j >= 0` and `array[j].periodicNum > value`, entry `j` is copied to
slot `j + 1`, number and name; then `value` and `name` go to slot `j + 1`. -/
def insertLoop (value : Int) (name : CString) : Nat → List Slot → Outcome (List Slot)
  | 0, array => storeAt array 0 value name
  | k + 1, array =>
    if (entryAt array k).periodicNum > value then
      match storeAt array (k + 1) (entryAt array k).periodicNum (entryAt array k).name with
      | .overrun => .overrun
      | .returns array1 => insertLoop value name k array1
    else storeAt array (k + 1) value name

/-- The `for` loop of `insertionSort` with `remaining` passes to go at index `i`.
Every pass first copies the name of entry `i` to the local `char name[1024]`. -/
def insertionSortLoop : Nat → Nat → List Slot → Outcome (List Slot)
  | 0, _, array => .returns array
  | remaining + 1, i, array =>
    if arraySize ≤ strlen (entryAt array i).name then .overrun
    else
      match insertLoop (entryAt array i).periodicNum (entryAt array i).name i array with
      | .overrun => .overrun
      | .returns array1 => insertionSortLoop remaining (i + 1) array1

/-- The array after `insertionSort`: the loop runs for `i` from 1 to `size - 1`. -/
def insertionSort (array : List Slot) : Outcome (List Slot) :=
  insertionSortLoop (array.length - 1) 1 array

/-- The return value of `fscanf` at the end of the input. -/
def EOF : Int := -1

/-- What one pass of the reading loop of `getTable` gets from
`fscanf(fp2, "%s", buffer)` and `fscanf(fp2, "%d", &number)`: the two return
values and the contents of `buffer` and `number` after the calls. -/
structure Scan where
  f1 : Int
  buffer : CString
  f2 : Int
  number : Int
deriving DecidableEq, Repr

/-- The reading loop of `getTable` over the passes it makes until `feof`. A word
of 1024 or more characters does not fit `char buffer[1024]`. Otherwise the loop
leaves at the first pass that meets the end of the input, returns `NULL`
(`none`) at the first pass in which a conversion fails, and stores the other
pairs in `array[0]`, `array[1]`, ... through `createMolecule`. -/
def readLoop : List Scan → List Slot → Outcome (Option (List Slot))
  | [], entries => .returns (some entries)
  | scan :: rest, entries =>
    if arraySize ≤ strlen scan.buffer then .overrun
    else if scan.f1 = EOF ∨ scan.f2 = EOF then .returns (some entries)
    else if scan.f1 = 0 ∨ scan.f2 = 0 then .returns none
    else readLoop rest (entries ++ [createMolecule scan.buffer scan.number])

/-- What `getTable` returns: a table, `NULL`, or nothing that is defined. -/
inductive Loaded
  | table (t : PeriodicTable)
  | null
  | undefined
deriving DecidableEq, Repr

/-- The function `getTable` on a file that could be opened: `size` is the number
of lines the first pass over the file counts, `scans` is what the second pass
reads. The array is allocated with `size` slots; when the pairs read are fewer,
`insertionSort` reads slots never written, and when they are more,
`createMolecule` writes past the array: both are undefined, as is a write past
a buffer. -/
def getTable (size : Nat) (scans : List Scan) : Loaded :=
  match readLoop scans [] with
  | .overrun => .undefined
  | .returns none => .null
  | .returns (some entries) =>
    if entries.length = size then
      match insertionSort entries with
      | .overrun => .undefined
      | .returns array => .table (array.map Slot.molecule)
    else .undefined

/-! ## ParseFormula.c

In this section the arrays `molecule`, `retval`, `buffer2` and `hold` are taken
to be large enough and `int` values to be unbounded. The namespace `Machine`
further down gives the same functions with the arrays of 1024 bytes and with
`int` arithmetic modulo 2^32. -/

/-- The loop of `findNumber` over the characters from `buffer[*index]` on; the
empty list is the terminator, which is not a digit. Returns `num` and `*index`. -/
def findNumberLoop : List Char → Nat → Nat → Nat × Nat
  | [], index, num => (num, index)
  | c :: rest, index, num =>
    if isDigitChar c then findNumberLoop rest (index + 1) (num * 10 + digitValue c)
    else (num, index)

/-- Returns the number read and the updated `*index`. -/
def findNumber (buffer : CString) (index : Nat) : Nat × Nat :=
  findNumberLoop (buffer.drop index) index 0

/-- The loop `while (buffer[i] >= 'a' && buffer[i] <= 'z')` of the symbol
reader over the characters from `buffer[i]` on: appends to `molecule` and
advances `i`. -/
def symbolLoop : List Char → Nat → CString → CString × Nat
  | [], i, molecule => (molecule, i)
  | c :: rest, i, molecule =>
    if isLowerCase c then symbolLoop rest (i + 1) (molecule ++ [c]) else (molecule, i)

/-- Lines 379-395 of `openMoleculeType`: the symbol that starts at `buffer[i]`
and the index of its last character. -/
def readSymbol (buffer : CString) (i : Nat) : CString × Nat :=
  if isLowerCase (charAt buffer (i + 1)) then
    let r := symbolLoop (buffer.drop (i + 1)) (i + 1) [charAt buffer i]
    (r.1, r.2 - 1)
  else ([charAt buffer i], i)

/-- Lines 553-569 of `getMoleculeNumber`: as `readSymbol`, with the extra
bound test on `i + 1`. -/
def readSymbolBounded (buffer : CString) (i : Nat) : CString × Nat :=
  if i + 1 < strlen buffer ∧ isLowerCase (charAt buffer (i + 1)) then
    let r := symbolLoop (buffer.drop (i + 1)) (i + 1) [charAt buffer i]
    (r.1, r.2 - 1)
  else ([charAt buffer i], i)

/-- Lines 421-431: the multiplier of a group closed at `buffer[i]` and the index
of the last character consumed. -/
def closeTimes (buffer : CString) (i : Nat) : Nat × Nat :=
  if i + 1 < strlen buffer ∧ isDigitChar (charAt buffer (i + 1)) then
    let r := findNumber buffer (i + 1)
    (r.1, r.2 - 1)
  else (1, i)

/-- Lines 463-472: the multiplier that starts at the digit `buffer[i]` and the
index of the last character consumed. -/
def digitTimes (buffer : CString) (i : Nat) : Nat × Nat :=
  if i + 1 < strlen buffer ∧ isDigitChar (charAt buffer (i + 1)) then
    let r := findNumber buffer i
    (r.1, r.2 - 1)
  else (digitValue (charAt buffer i), i)

/-- The loop `for (count = 0; count < times; count++) push(stack, value)`. -/
def pushTimes : Nat → Stack → CString → Stack
  | 0, stack, _ => stack
  | times + 1, stack, value => pushTimes times (push stack value) value

/-- The loop `while (strcmp(retval, "(") != 0)` of the group closure, on the
stack with fields `size` and `top`; every pass pops once, so the recursion
follows `size`. Returns status, stack and `buffer2`. -/
def closeLoop : Nat → List CString → CString → CString → Int × Stack × CString
  | 0, top, retval, buffer2 =>
    if retval = openMarker then (EXIT_SUCCESS, ⟨top, 0⟩, buffer2)
    else (EXIT_FAILURE, ⟨top, 0⟩, retval ++ buffer2)
  | size + 1, top, retval, buffer2 =>
    if retval = openMarker then (EXIT_SUCCESS, ⟨top, size + 1⟩, buffer2)
    else
      match pop ⟨top, size + 1⟩ (retval ++ buffer2) with
      | (status, stack1, retval1) =>
        if status = EXIT_FAILURE then (EXIT_FAILURE, stack1, retval ++ buffer2)
        else closeLoop size stack1.top retval1 (retval ++ buffer2)

/-- Lines 432-451: pops the group content down to the marker. Returns status,
stack and `buffer2`, the concatenated content. -/
def closeGroup (stack : Stack) : Int × Stack × CString :=
  match pop stack [] with
  | (status1, stack1, retval1) =>
    if status1 = EXIT_FAILURE then (EXIT_FAILURE, stack1, [])
    else
      match pop stack1 retval1 with
      | (status2, stack2, retval2) =>
        if status2 = EXIT_FAILURE then (EXIT_FAILURE, stack2, retval1)
        else closeLoop stack2.size stack2.top retval2 retval1

/-- The `return` statement by which `openMoleculeType` leaves. -/
inductive Exit
  | done
  | unknownSymbol
  | closePop
  | multiplierPop
  | lowercase
deriving DecidableEq, Repr

/-- The value returned at each `return` statement. -/
def Exit.status : Exit → Int
  | .done => EXIT_SUCCESS
  | _ => EXIT_FAILURE

/-- The `for` loop of `openMoleculeType` from index `i`. Every pass takes one
unit of fuel; `none` means the fuel ran out before the loop ended. -/
def openMoleculeTypeLoop (buffer : CString) (table : PeriodicTable) :
    Nat → Nat → Stack → Option (Exit × Stack)
  | 0, i, stack => if i < strlen buffer then none else some (.done, stack)
  | fuel + 1, i, stack =>
    if i < strlen buffer then
      if isUpperCase (charAt buffer i) then
        if isMolecule (readSymbol buffer i).1 table = EXIT_SUCCESS then
          openMoleculeTypeLoop buffer table fuel ((readSymbol buffer i).2 + 1)
            (push stack (readSymbol buffer i).1)
        else some (.unknownSymbol, stack)
      else if charAt buffer i = '(' then
        openMoleculeTypeLoop buffer table fuel (i + 1) (push stack openMarker)
      else if charAt buffer i = ')' then
        match closeGroup stack with
        | (status, stack1, buffer2) =>
          if status = EXIT_FAILURE then some (.closePop, stack1)
          else
            openMoleculeTypeLoop buffer table fuel ((closeTimes buffer i).2 + 1)
              (pushTimes (closeTimes buffer i).1 stack1 buffer2)
      else if isDigitChar (charAt buffer i) then
        match pop stack [] with
        | (status, stack1, retval) =>
          if status = EXIT_FAILURE then some (.multiplierPop, stack1)
          else
            openMoleculeTypeLoop buffer table fuel ((digitTimes buffer i).2 + 1)
              (pushTimes (digitTimes buffer i).1 stack1 retval)
      else if isLowerCase (charAt buffer i) then some (.lowercase, stack)
      else openMoleculeTypeLoop buffer table fuel (i + 1) stack
    else some (.done, stack)

/-- The run of `openMoleculeType` with the `return` statement taken; the fuel
`strlen buffer` is enough because every pass advances the index. -/
def openMoleculeTypeExit (buffer : CString) (stack : Stack) (table : PeriodicTable) :
    Option (Exit × Stack) :=
  openMoleculeTypeLoop buffer table (strlen buffer) 0 stack

/-- Returns the status and the stack as the call leaves it. -/
def openMoleculeType (buffer : CString) (stack : Stack) (table : PeriodicTable) :
    Option (Int × Stack) :=
  (openMoleculeTypeExit buffer stack table).map fun r => (r.1.status, r.2)

/-- The `for` loop of `checkValidity` with `remaining` passes to go at index `i`. -/
def checkValidityLoop (buffer : CString) : Nat → Nat → Stack → Int
  | 0, _, stack => if stack.size > 0 then EXIT_FAILURE else EXIT_SUCCESS
  | remaining + 1, i, stack =>
    if charAt buffer i = ')' then
      if (if charAt buffer i = '(' then push stack openMarker else stack).size = 0 then
        EXIT_FAILURE
      else
        match pop (if charAt buffer i = '(' then push stack openMarker else stack) [] with
        | (status, stack1, retval) =>
          if status = EXIT_FAILURE then EXIT_FAILURE
          else if retval = [')'] then EXIT_FAILURE
          else checkValidityLoop buffer remaining (i + 1) stack1
    else
      checkValidityLoop buffer remaining (i + 1)
        (if charAt buffer i = '(' then push stack openMarker else stack)

/-- The loop bound `strlen(buffer) - 1` is computed in `size_t`. On the empty
string it wraps to `SIZE_MAX` and the scan runs past the terminator, which is
undefined: `none`. On every other string the bound is the index of the last
character. -/
def checkValidity (buffer : CString) : Option Int :=
  if strlen buffer = 0 then none
  else some (checkValidityLoop buffer (strlen buffer - 1) 0 initStack)

/-- The loop `while (stack->size > 0) { pop(stack, retval); push(extraStack, retval); }`
on the stack with fields `size` and `top`. Returns status, stack and `extraStack`. -/
def drainLoop : Nat → List CString → Stack → Int × Stack × Stack
  | 0, top, extraStack => (EXIT_SUCCESS, ⟨top, 0⟩, extraStack)
  | size + 1, top, extraStack =>
    match pop ⟨top, size + 1⟩ [] with
    | (status, stack1, retval) =>
      if status = EXIT_FAILURE then (EXIT_FAILURE, stack1, extraStack)
      else drainLoop size stack1.top (push extraStack retval)

/-- The loop `while (extraStack->size > 0) { pop(extraStack, retval); fprintf(outFile, "%s", retval); }`.
Returns status, `extraStack` and the text written. -/
def writeLoop : Nat → List CString → CString → Int × Stack × CString
  | 0, top, out => (EXIT_SUCCESS, ⟨top, 0⟩, out)
  | size + 1, top, out =>
    match pop ⟨top, size + 1⟩ [] with
    | (status, stack1, retval) =>
      if status = EXIT_FAILURE then (EXIT_FAILURE, stack1, out)
      else writeLoop size stack1.top (out ++ retval)

/-- Returns the status, the stack as the call leaves it and the text appended
to the output file. -/
def printStack (stack : Stack) : Int × Stack × CString :=
  match drainLoop stack.size stack.top initStack with
  | (status1, stack1, extraStack) =>
    if status1 = EXIT_FAILURE then (EXIT_FAILURE, stack1, [])
    else
      match writeLoop extraStack.size extraStack.top [] with
      | (status2, _, out) =>
        if status2 = EXIT_FAILURE then (EXIT_FAILURE, stack1, out)
        else (EXIT_SUCCESS, stack1, out ++ ['\n'])

/-- The `for` loop of `getMoleculeNumber` from index `i`; `none` means the fuel
ran out before the loop ended. -/
def getMoleculeNumberLoop (buffer : CString) (table : PeriodicTable) :
    Nat → Nat → Int → Option Int
  | 0, i, number => if i < strlen buffer then none else some number
  | fuel + 1, i, number =>
    if i < strlen buffer then
      if isUpperCase (charAt buffer i) then
        getMoleculeNumberLoop buffer table fuel ((readSymbolBounded buffer i).2 + 1)
          (number + findMoleculeNumber (readSymbolBounded buffer i).1 table)
      else getMoleculeNumberLoop buffer table fuel (i + 1) number
    else some number

/-- The fuel `strlen buffer` is enough because every pass advances the index. -/
def getMoleculeNumber (buffer : CString) (table : PeriodicTable) : Option Int :=
  getMoleculeNumberLoop buffer table (strlen buffer) 0 0

/-- The loop `while (extraStack->size > 0) { pop(extraStack, retval); moleculeNumber += getMoleculeNumber(retval, table); }`.
Returns status, `extraStack` and `moleculeNumber`. -/
def sumLoop (table : PeriodicTable) : Nat → List CString → Int → Option (Int × Stack × Int)
  | 0, top, moleculeNumber => some (EXIT_SUCCESS, ⟨top, 0⟩, moleculeNumber)
  | size + 1, top, moleculeNumber =>
    match pop ⟨top, size + 1⟩ [] with
    | (status, stack1, retval) =>
      if status = EXIT_FAILURE then some (EXIT_FAILURE, stack1, moleculeNumber)
      else
        match getMoleculeNumber retval table with
        | none => none
        | some n => sumLoop table size stack1.top (moleculeNumber + n)

/-- Returns the status, the stack as the call leaves it and the number written
to the output file (nothing is written on failure). -/
def printMoleculeNumber (stack : Stack) (table : PeriodicTable) :
    Option (Int × Stack × Option Int) :=
  match drainLoop stack.size stack.top initStack with
  | (status1, stack1, extraStack) =>
    if status1 = EXIT_FAILURE then some (EXIT_FAILURE, stack1, none)
    else
      match sumLoop table extraStack.size extraStack.top 0 with
      | none => none
      | some (status2, _, moleculeNumber) =>
        if status2 = EXIT_FAILURE then some (EXIT_FAILURE, stack1, none)
        else some (EXIT_SUCCESS, stack1, some moleculeNumber)

/-- The loop of `vTable` and of `vTableForOthers` over the lines `fgets`
delivers. Returns `valid` and the numbers of the lines found unbalanced (which
`vTable` prints); `none` when a call of `checkValidity` is undefined. -/
def validityLoop : List CString → Nat → Int → List Nat → Option (Int × List Nat)
  | [], _, valid, reported => some (valid, reported)
  | buffer :: rest, line, valid, reported =>
    match checkValidity buffer with
    | none => none
    | some status =>
      if status = EXIT_FAILURE then validityLoop rest (line + 1) 0 (reported ++ [line])
      else validityLoop rest (line + 1) valid reported

/-- The function `vTable` on the lines of a file that could be opened. Returns
the status, the line numbers printed as not balanced, and whether the message
that all formulas are balanced is printed. -/
def vTable (lines : List CString) : Option (Int × List Nat × Bool) :=
  match validityLoop lines 1 1 [] with
  | none => none
  | some (valid, reported) => some (EXIT_SUCCESS, reported, decide (valid = 1))

/-- The function `vTableForOthers` on the lines of a file that could be opened. -/
def vTableForOthers (lines : List CString) : Option Int :=
  match validityLoop lines 1 1 [] with
  | none => none
  | some (valid, _) => if valid = 1 then some EXIT_SUCCESS else some EXIT_FAILURE

/-! ## ParseFormula.c within the limits of the machine

The same functions with the two limits that the definitions above leave out: the
arrays `molecule`, `retval`, `buffer2` and `hold` hold 1024 bytes, and `int`
arithmetic wraps modulo 2^32. -/

namespace Machine

/-- The value an `int` holds after an arithmetic operation whose exact result is
`x`: 32 bits, two's complement. -/
def wrapInt (x : Int) : Int := (x + 2147483648) % 4294967296 - 2147483648

/-- The function `pop` called with one of the 1024 byte arrays as `retval`: the
`strcpy` of the top node's data writes past the array when the data and its
terminator do not fit. -/
def pop (s : Stack) (retval : CString) : Outcome (Int × Stack × CString) :=
  if s.size = 0 then .returns (EXIT_FAILURE, s, retval)
  else
    match s.top with
    | [] => .returns (EXIT_FAILURE, s, retval)
    | data :: next =>
      if strlen data < arraySize then .returns (EXIT_SUCCESS, ⟨next, s.size - 1⟩, data)
      else .overrun

/-- The loop of `findNumber` with `num` an `int`. -/
def findNumberLoop : List Char → Nat → Int → Int × Nat
  | [], index, num => (num, index)
  | c :: rest, index, num =>
    if isDigitChar c then
      findNumberLoop rest (index + 1) (wrapInt (num * 10 + (digitValue c : Int)))
    else (num, index)

/-- Returns the number read and the updated `*index`. -/
def findNumber (buffer : CString) (index : Nat) : Int × Nat :=
  findNumberLoop (buffer.drop index) index 0

/-- Lines 421-431: the multiplier of a group closed at `buffer[i]` and the index
of the last character consumed. -/
def closeTimes (buffer : CString) (i : Nat) : Int × Nat :=
  if i + 1 < strlen buffer ∧ isDigitChar (charAt buffer (i + 1)) then
    let r := findNumber buffer (i + 1)
    (r.1, r.2 - 1)
  else (1, i)

/-- Lines 463-472: the multiplier that starts at the digit `buffer[i]` and the
index of the last character consumed. -/
def digitTimes (buffer : CString) (i : Nat) : Int × Nat :=
  if i + 1 < strlen buffer ∧ isDigitChar (charAt buffer (i + 1)) then
    let r := findNumber buffer i
    (r.1, r.2 - 1)
  else ((digitValue (charAt buffer i) : Int), i)

/-- The loop `for (count = 0; count < times; count++) push(stack, value)` with
`times` an `int`: no pass when `times` is not positive. -/
def pushTimes (times : Int) (stack : Stack) (value : CString) : Stack :=
  ParseFormula.pushTimes times.toNat stack value

/-- The loop `while (strcmp(retval, "(") != 0)` of the group closure, on the
stack with fields `size` and `top`. Every pass appends `hold`, the copy of
`buffer2`, to `retval` with `strcat`, which writes past `retval` when the two
strings and the terminator do not fit; then it copies the result to `buffer2`
and pops. Returns status, stack and `buffer2`. -/
def closeLoop : Nat → List CString → CString → CString → Outcome (Int × Stack × CString)
  | 0, top, retval, buffer2 =>
    if retval = openMarker then .returns (EXIT_SUCCESS, ⟨top, 0⟩, buffer2)
    else if arraySize ≤ strlen retval + strlen buffer2 then .overrun
    else .returns (EXIT_FAILURE, ⟨top, 0⟩, retval ++ buffer2)
  | size + 1, top, retval, buffer2 =>
    if retval = openMarker then .returns (EXIT_SUCCESS, ⟨top, size + 1⟩, buffer2)
    else if arraySize ≤ strlen retval + strlen buffer2 then .overrun
    else
      match pop ⟨top, size + 1⟩ (retval ++ buffer2) with
      | .overrun => .overrun
      | .returns (status, stack1, retval1) =>
        if status = EXIT_FAILURE then .returns (EXIT_FAILURE, stack1, retval ++ buffer2)
        else closeLoop size stack1.top retval1 (retval ++ buffer2)

/-- Lines 432-451: pops the group content down to the marker. Returns status,
stack and `buffer2`, the concatenated content. -/
def closeGroup (stack : Stack) : Outcome (Int × Stack × CString) :=
  match pop stack [] with
  | .overrun => .overrun
  | .returns (status1, stack1, retval1) =>
    if status1 = EXIT_FAILURE then .returns (EXIT_FAILURE, stack1, [])
    else
      match pop stack1 retval1 with
      | .overrun => .overrun
      | .returns (status2, stack2, retval2) =>
        if status2 = EXIT_FAILURE then .returns (EXIT_FAILURE, stack2, retval1)
        else closeLoop stack2.size stack2.top retval2 retval1

/-- The body of the `for` loop of `openMoleculeType` at index `i`: the pass
writes past an array, or the call returns (left), or the loop goes on with the
index of the next pass and the stack (right). A symbol of 1024 or more
characters does not fit `molecule` with its terminator. -/
def loopPass (buffer : CString) (table : PeriodicTable) (i : Nat) (stack : Stack) :
    Outcome ((Exit × Stack) ⊕ (Nat × Stack)) :=
  if isUpperCase (charAt buffer i) then
    if arraySize ≤ strlen (readSymbol buffer i).1 then .overrun
    else if isMolecule (readSymbol buffer i).1 table = EXIT_SUCCESS then
      .returns (.inr ((readSymbol buffer i).2 + 1, push stack (readSymbol buffer i).1))
    else .returns (.inl (.unknownSymbol, stack))
  else if charAt buffer i = '(' then .returns (.inr (i + 1, push stack openMarker))
  else if charAt buffer i = ')' then
    match closeGroup stack with
    | .overrun => .overrun
    | .returns (status, stack1, buffer2) =>
      if status = EXIT_FAILURE then .returns (.inl (.closePop, stack1))
      else
        .returns (.inr ((closeTimes buffer i).2 + 1,
          pushTimes (closeTimes buffer i).1 stack1 buffer2))
  else if isDigitChar (charAt buffer i) then
    match pop stack [] with
    | .overrun => .overrun
    | .returns (status, stack1, retval) =>
      if status = EXIT_FAILURE then .returns (.inl (.multiplierPop, stack1))
      else
        .returns (.inr ((digitTimes buffer i).2 + 1,
          pushTimes (digitTimes buffer i).1 stack1 retval))
  else if isLowerCase (charAt buffer i) then .returns (.inl (.lowercase, stack))
  else .returns (.inr (i + 1, stack))

/-- The `for` loop of `openMoleculeType` from index `i`. Every pass takes one
unit of fuel; `none` means the fuel ran out before the loop ended. -/
def openMoleculeTypeLoop (buffer : CString) (table : PeriodicTable) :
    Nat → Nat → Stack → Option (Outcome (Exit × Stack))
  | 0, i, stack => if i < strlen buffer then none else some (.returns (.done, stack))
  | fuel + 1, i, stack =>
    if i < strlen buffer then
      match loopPass buffer table i stack with
      | .overrun => some .overrun
      | .returns (.inl r) => some (.returns r)
      | .returns (.inr (j, stack1)) => openMoleculeTypeLoop buffer table fuel j stack1
    else some (.returns (.done, stack))

/-- The run of `openMoleculeType` with the `return` statement taken; the fuel
`strlen buffer` is enough because every pass advances the index. -/
def openMoleculeTypeExit (buffer : CString) (stack : Stack) (table : PeriodicTable) :
    Option (Outcome (Exit × Stack)) :=
  openMoleculeTypeLoop buffer table (strlen buffer) 0 stack

/-- The status returned and the stack as the call leaves it, or the overrun. -/
def openMoleculeType (buffer : CString) (stack : Stack) (table : PeriodicTable) :
    Option (Outcome (Int × Stack)) :=
  (openMoleculeTypeExit buffer stack table).map (Outcome.map fun r => (r.1.status, r.2))

/-- The index and the stack at the head of every pass of the loop of
`openMoleculeType` that is reached from index `i`, in order. -/
def scanTrace (buffer : CString) (table : PeriodicTable) : Nat → Nat → Stack → List (Nat × Stack)
  | 0, i, stack => [(i, stack)]
  | fuel + 1, i, stack =>
    (i, stack) ::
      (if i < strlen buffer then
        match loopPass buffer table i stack with
        | .returns (.inr (j, t)) => scanTrace buffer table fuel j t
        | _ => []
      else [])

/-- The loop `while (stack->size > 0) { pop(stack, retval); push(extraStack, retval); }`
with `char retval[1024]`. Returns status, stack and `extraStack`. -/
def drainLoop : Nat → List CString → Stack → Outcome (Int × Stack × Stack)
  | 0, top, extraStack => .returns (EXIT_SUCCESS, ⟨top, 0⟩, extraStack)
  | size + 1, top, extraStack =>
    match pop ⟨top, size + 1⟩ [] with
    | .overrun => .overrun
    | .returns (status, stack1, retval) =>
      if status = EXIT_FAILURE then .returns (EXIT_FAILURE, stack1, extraStack)
      else drainLoop size stack1.top (push extraStack retval)

/-- The loop `while (extraStack->size > 0) { pop(extraStack, retval); fprintf(outFile, "%s", retval); }`.
Returns status, `extraStack` and the text written. -/
def writeLoop : Nat → List CString → CString → Outcome (Int × Stack × CString)
  | 0, top, out => .returns (EXIT_SUCCESS, ⟨top, 0⟩, out)
  | size + 1, top, out =>
    match pop ⟨top, size + 1⟩ [] with
    | .overrun => .overrun
    | .returns (status, stack1, retval) =>
      if status = EXIT_FAILURE then .returns (EXIT_FAILURE, stack1, out)
      else writeLoop size stack1.top (out ++ retval)

/-- Returns the status, the stack as the call leaves it and the text appended
to the output file. -/
def printStack (stack : Stack) : Outcome (Int × Stack × CString) :=
  match drainLoop stack.size stack.top initStack with
  | .overrun => .overrun
  | .returns (status1, stack1, extraStack) =>
    if status1 = EXIT_FAILURE then .returns (EXIT_FAILURE, stack1, [])
    else
      match writeLoop extraStack.size extraStack.top [] with
      | .overrun => .overrun
      | .returns (status2, _, out) =>
        if status2 = EXIT_FAILURE then .returns (EXIT_FAILURE, stack1, out)
        else .returns (EXIT_SUCCESS, stack1, out ++ ['\n'])

/-- The `for` loop of `getMoleculeNumber` from index `i`, with `char molecule[1024]`
and `number` an `int`; `none` means the fuel ran out before the loop ended. -/
def getMoleculeNumberLoop (buffer : CString) (table : PeriodicTable) :
    Nat → Nat → Int → Option (Outcome Int)
  | 0, i, number => if i < strlen buffer then none else some (.returns number)
  | fuel + 1, i, number =>
    if i < strlen buffer then
      if isUpperCase (charAt buffer i) then
        if arraySize ≤ strlen (readSymbolBounded buffer i).1 then some .overrun
        else
          getMoleculeNumberLoop buffer table fuel ((readSymbolBounded buffer i).2 + 1)
            (wrapInt (number + findMoleculeNumber (readSymbolBounded buffer i).1 table))
      else getMoleculeNumberLoop buffer table fuel (i + 1) number
    else some (.returns number)

/-- The fuel `strlen buffer` is enough because every pass advances the index. -/
def getMoleculeNumber (buffer : CString) (table : PeriodicTable) : Option (Outcome Int) :=
  getMoleculeNumberLoop buffer table (strlen buffer) 0 0

/-- The loop `while (extraStack->size > 0) { pop(extraStack, retval); moleculeNumber += getMoleculeNumber(retval, table); }`.
Returns status, `extraStack` and `moleculeNumber`. -/
def sumLoop (table : PeriodicTable) :
    Nat → List CString → Int → Option (Outcome (Int × Stack × Int))
  | 0, top, moleculeNumber => some (.returns (EXIT_SUCCESS, ⟨top, 0⟩, moleculeNumber))
  | size + 1, top, moleculeNumber =>
    match pop ⟨top, size + 1⟩ [] with
    | .overrun => some .overrun
    | .returns (status, stack1, retval) =>
      if status = EXIT_FAILURE then some (.returns (EXIT_FAILURE, stack1, moleculeNumber))
      else
        match getMoleculeNumber retval table with
        | none => none
        | some .overrun => some .overrun
        | some (.returns n) => sumLoop table size stack1.top (wrapInt (moleculeNumber + n))

/-- Returns the status, the stack as the call leaves it and the number written
to the output file (nothing is written on failure). -/
def printMoleculeNumber (stack : Stack) (table : PeriodicTable) :
    Option (Outcome (Int × Stack × Option Int)) :=
  match drainLoop stack.size stack.top initStack with
  | .overrun => some .overrun
  | .returns (status1, stack1, extraStack) =>
    if status1 = EXIT_FAILURE then some (.returns (EXIT_FAILURE, stack1, none))
    else
      match sumLoop table extraStack.size extraStack.top 0 with
      | none => none
      | some .overrun => some .overrun
      | some (.returns (status2, _, moleculeNumber)) =>
        if status2 = EXIT_FAILURE then some (.returns (EXIT_FAILURE, stack1, none))
        else some (.returns (EXIT_SUCCESS, stack1, some moleculeNumber))

end Machine

/-! ## Reference notions the properties are stated with -/

/-- The stack that holds the entries `l`, top first, with the matching `size`. -/
def Stack.ofList (l : List CString) : Stack := ⟨l, l.length⟩

/-- The table `H 1`, `O 8`, `Mg 12`. -/
def tableHOMg : PeriodicTable :=
  [⟨1, ['H']⟩, ⟨8, ['O']⟩, ⟨12, ['M', 'g']⟩]

/-- A table with the elements of the sample formulas: H, C, N, O, Mg, S, K. -/
def tableSample : PeriodicTable :=
  [⟨1, ['H']⟩, ⟨6, ['C']⟩, ⟨7, ['N']⟩, ⟨8, ['O']⟩, ⟨12, ['M', 'g']⟩, ⟨16, ['S']⟩,
    ⟨19, ['K']⟩]

/-- The characters of a string literal. -/
abbrev str (s : String) : CString := s.toList

/-- A formula line as a sequence of items. An item is a symbol or a
parenthesised sequence of items, each with the digits of its multiplier (no
digits when the multiplier is missing). -/
inductive Formula
  | nil : Formula
  | sym (name : CString) (mult : List Char) (rest : Formula) : Formula
  | group (body : Formula) (mult : List Char) (rest : Formula) : Formula
deriving DecidableEq, Repr

/-- The value of a decimal numeral. -/
def decimalValue (digits : List Char) : Nat :=
  digits.foldl (fun n c => n * 10 + digitValue c) 0

/-- The number of copies a multiplier asks for; a missing multiplier counts as 1. -/
def timesOf (mult : List Char) : Nat :=
  if mult = [] then 1 else decimalValue mult

/-- The text of a formula. -/
def Formula.render : Formula → CString
  | .nil => []
  | .sym name mult rest => name ++ mult ++ rest.render
  | .group body mult rest => ['('] ++ body.render ++ [')'] ++ mult ++ rest.render

/-- The reference expansion: a symbol with multiplier n is written n times, a
group with multiplier n is the expansion of its items written n times. -/
def Formula.expand : Formula → CString
  | .nil => []
  | .sym name mult rest => (List.replicate (timesOf mult) name).flatten ++ rest.expand
  | .group body mult rest =>
    (List.replicate (timesOf mult) body.expand).flatten ++ rest.expand

/-- The arithmetic proton count: a symbol counts its atomic number times its
multiplier, a group the sum of its items times its multiplier. -/
def Formula.protons (table : PeriodicTable) : Formula → Int
  | .nil => 0
  | .sym name mult rest =>
    findMoleculeNumber name table * (timesOf mult : Int) + rest.protons table
  | .group body mult rest =>
    body.protons table * (timesOf mult : Int) + rest.protons table

/-- One uppercase letter followed by zero or more lowercase letters. -/
def isSymbolName : CString → Bool
  | [] => false
  | c :: lows => isUpperCase c && lows.all isLowerCase

/-- A run of digits that is missing or has a value of at least 1. -/
def isMultiplier (mult : List Char) : Bool :=
  mult.all isDigitChar && decide (1 ≤ timesOf mult)

/-- Whether some entry of the table carries the symbol `name`. -/
def inTable (table : PeriodicTable) (name : CString) : Bool :=
  table.any fun m => decide (m.name = name)

/-- A formula is well formed over a table when its symbols are symbols of the
table, its groups are not empty and its multipliers are at least 1. -/
def Formula.wellFormed (table : PeriodicTable) : Formula → Bool
  | .nil => true
  | .sym name mult rest =>
    isSymbolName name && inTable table name &&
      isMultiplier mult && rest.wellFormed table
  | .group body mult rest =>
    decide (body ≠ .nil) && body.wellFormed table && isMultiplier mult &&
      rest.wellFormed table

/-- The stack entries a formula leaves, in the order they are pushed (bottom
to top): one per copy of a symbol, one per copy of a group. -/
def Formula.entries : Formula → List CString
  | .nil => []
  | .sym name mult rest => List.replicate (timesOf mult) name ++ rest.entries
  | .group body mult rest => List.replicate (timesOf mult) body.expand ++ rest.entries

/-- The number of passes the loop of `openMoleculeType` makes over a formula. -/
def Formula.passes : Formula → Nat
  | .nil => 0
  | .sym _ mult rest => (if mult = [] then 1 else 2) + rest.passes
  | .group body _ rest => 2 + body.passes + rest.passes

/-- The number of atoms of the expanded formula. -/
def Formula.atoms : Formula → Nat
  | .nil => 0
  | .sym _ mult rest => timesOf mult + rest.atoms
  | .group body mult rest => timesOf mult * body.atoms + rest.atoms

/-- The body of the `for` loop of `openMoleculeType` at index `i`, as a function:
either the call returns (left) or the loop goes on with the index of the next
pass and the stack (right). -/
def loopPass (buffer : CString) (table : PeriodicTable) (i : Nat) (stack : Stack) :
    (Exit × Stack) ⊕ (Nat × Stack) :=
  if isUpperCase (charAt buffer i) then
    if isMolecule (readSymbol buffer i).1 table = EXIT_SUCCESS then
      .inr ((readSymbol buffer i).2 + 1, push stack (readSymbol buffer i).1)
    else .inl (.unknownSymbol, stack)
  else if charAt buffer i = '(' then .inr (i + 1, push stack openMarker)
  else if charAt buffer i = ')' then
    if (closeGroup stack).1 = EXIT_FAILURE then .inl (.closePop, (closeGroup stack).2.1)
    else
      .inr ((closeTimes buffer i).2 + 1,
        pushTimes (closeTimes buffer i).1 (closeGroup stack).2.1 (closeGroup stack).2.2)
  else if isDigitChar (charAt buffer i) then
    if (pop stack []).1 = EXIT_FAILURE then .inl (.multiplierPop, (pop stack []).2.1)
    else
      .inr ((digitTimes buffer i).2 + 1,
        pushTimes (digitTimes buffer i).1 (pop stack []).2.1 (pop stack []).2.2)
  else if isLowerCase (charAt buffer i) then .inl (.lowercase, stack)
  else .inr (i + 1, stack)

/-- The index and the stack at the head of every pass of the loop of
`openMoleculeType` that is reached from index `i`, in order: the points of the
scan after each pass that has not returned. -/
def scanTrace (buffer : CString) (table : PeriodicTable) : Nat → Nat → Stack → List (Nat × Stack)
  | 0, i, stack => [(i, stack)]
  | fuel + 1, i, stack =>
    (i, stack) ::
      (if i < strlen buffer then
        match loopPass buffer table i stack with
        | .inl _ => []
        | .inr (j, t) => scanTrace buffer table fuel j t
      else [])

/-- The nesting depth of the part of a line scanned so far: the groups opened
and not yet closed. -/
def nestingDepth (scanned : List Char) : Nat :=
  scanned.count '(' - scanned.count ')'

/-- The atoms of the expanded formula, one symbol per atom occurrence, in order. -/
def Formula.atomList : Formula → List CString
  | .nil => []
  | .sym name mult rest => List.replicate (timesOf mult) name ++ rest.atomList
  | .group body mult rest =>
    (List.replicate (timesOf mult) body.atomList).flatten ++ rest.atomList

/-- The atoms of the expanded formula grouped by stack entry: one chunk per copy
of a top-level symbol or group. -/
def Formula.chunks : Formula → List (List CString)
  | .nil => []
  | .sym name mult rest => List.replicate (timesOf mult) [name] ++ rest.chunks
  | .group body mult rest => List.replicate (timesOf mult) body.atomList ++ rest.chunks

/-- A formula without groups. -/
def Formula.flat : Formula → Bool
  | .nil => true
  | .sym _ _ rest => rest.flat
  | .group _ _ _ => false

/-- The sum `getMoleculeNumber` forms, position by position: every uppercase
letter contributes the atomic number of the symbol made of the letter and the
lowercase letters that follow it. -/
def symbolSum (table : PeriodicTable) : List Char → Int
  | [] => 0
  | c :: t =>
    (if isUpperCase c then findMoleculeNumber (c :: t.takeWhile isLowerCase) table else 0)
      + symbolSum table t

/-- The passes a definitions source with one pair per line gives the reading
loop of `getTable`: both conversions succeed on every pair. -/
def sourceScans (pairs : List Molecule) : List Scan :=
  pairs.map fun m => ⟨1, m.name, 1, m.periodicNum⟩

/-- The formula `Mg(OH)2`. -/
def formulaMgOH2 : Formula :=
  .sym ['M', 'g'] [] (.group (.sym ['O'] [] (.sym ['H'] [] .nil)) ['2'] .nil)

/-- Whether the first character of `l` exists and satisfies `p`. -/
def startsWith (p : Char → Bool) : List Char → Bool
  | [] => false
  | c :: _ => p c

/-- An uppercase or lowercase letter. -/
def isLetter (c : Char) : Bool := isUpperCase c || isLowerCase c

/-- A stack entry that holds atoms: letters only, the first one uppercase. -/
def atomEntry (e : CString) : Bool := startsWith isUpperCase e && e.all isLetter

/-- A line is proper when every '(' is directly followed by an uppercase letter
or another '(' and every maximal run of digits has a value of at least 1, so
that no multiplier and no group closure meets the group marker on top of the
stack. -/
def Proper (buffer : CString) : Prop :=
  (∀ j, j < strlen buffer → charAt buffer j = '(' →
    isUpperCase (charAt buffer (j + 1)) = true ∨ charAt buffer (j + 1) = '(') ∧
  (∀ j, j < strlen buffer → isDigitChar (charAt buffer j) = true →
    (j = 0 ∨ isDigitChar (charAt buffer (j - 1)) = false) →
    1 ≤ decimalValue ((buffer.drop j).takeWhile isDigitChar))

/-- What holds of the index and the stack before every pass over a proper
line: the entries are markers or atom entries, the markers count the groups
opened and not yet closed, a marker is on top only right after its '(' , and a
digit at the index starts a run of digits. -/
def ScanInv (buffer : CString) (i : Nat) (s : Stack) : Prop :=
  s.size = s.top.length ∧
  (∀ e ∈ s.top, e = openMarker ∨ atomEntry e = true) ∧
  (buffer.take i).count '(' = (buffer.take i).count ')' + s.top.count openMarker ∧
  (s.top.head? = some openMarker → 1 ≤ i ∧ charAt buffer (i - 1) = '(') ∧
  (isDigitChar (charAt buffer i) = true →
    i = 0 ∨ isDigitChar (charAt buffer (i - 1)) = false)

/-- The validator seen as a depth counter over the characters it examines:
`(` raises the depth, `)` fails at depth 0 and lowers it otherwise, and the
depth has to be 0 at the end. -/
def depthScan : Nat → List Char → Int
  | d, [] => if d > 0 then EXIT_FAILURE else EXIT_SUCCESS
  | d, c :: t =>
    if c = ')' then (if d = 0 then EXIT_FAILURE else depthScan (d - 1) t)
    else if c = '(' then depthScan (d + 1) t
    else depthScan d t

/-- Whether a character is a parenthesis. -/
def isParen (c : Char) : Bool := decide (c = '(') || decide (c = ')')

/-- Balanced parentheses: no prefix holds more ')' than '(' and the whole
line holds as many '(' as ')'. -/
def Balanced (line : CString) : Prop :=
  (∀ k, (line.take k).count ')' ≤ (line.take k).count '(') ∧
    line.count '(' = line.count ')'

/-- Every run of digits of the line, read from any of its positions, has a
value that an `int` holds. -/
def IntRange (buffer : CString) : Prop :=
  ∀ k, k < strlen buffer → decimalValue ((buffer.drop k).takeWhile isDigitChar) < 2147483648

/-- A formula fits the machine when every symbol and the expanded content of
every group are shorter than 1024 characters and every multiplier is below
2^31. -/
def Formula.fits : Formula → Bool
  | .nil => true
  | .sym name mult rest =>
    decide (strlen name < arraySize) && decide (timesOf mult < 2147483648) && rest.fits
  | .group body mult rest =>
    body.fits && decide (strlen body.expand < arraySize) &&
      decide (timesOf mult < 2147483648) && rest.fits

/-! ## Characters -/

theorem char_le_iff (a b : Char) : a ≤ b ↔ a.toNat ≤ b.toNat := by
  show (a.val ≤ b.val) ↔ _
  rw [UInt32.le_def]
  simp [Char.toNat, UInt32.toNat]
  rfl

theorem char_eq_iff (a b : Char) : a = b ↔ a.toNat = b.toNat := by
  constructor
  · intro h; rw [h]
  · intro h
    apply Char.ext
    apply UInt32.ext
    exact h

theorem isUpperCase_iff (c : Char) : isUpperCase c = true ↔ 65 ≤ c.toNat ∧ c.toNat ≤ 90 := by
  simp [isUpperCase, char_le_iff]

theorem isLowerCase_iff (c : Char) : isLowerCase c = true ↔ 97 ≤ c.toNat ∧ c.toNat ≤ 122 := by
  simp [isLowerCase, char_le_iff]

theorem isDigitChar_iff (c : Char) : isDigitChar c = true ↔ 48 ≤ c.toNat ∧ c.toNat ≤ 57 := by
  simp [isDigitChar, char_le_iff]

theorem eq_open_iff (c : Char) : c = '(' ↔ c.toNat = 40 := by
  rw [char_eq_iff]; rfl

theorem eq_close_iff (c : Char) : c = ')' ↔ c.toNat = 41 := by
  rw [char_eq_iff]; rfl

theorem NUL_toNat : NUL.toNat = 0 := rfl

/-! ## Buffers -/

theorem charAt_eq_headD (buffer : CString) (i : Nat) :
    charAt buffer i = (buffer.drop i).headD NUL := by
  induction buffer generalizing i with
  | nil => simp [charAt]
  | cons a t ih =>
    cases i with
    | zero => simp [charAt]
    | succ j => simp [charAt]

theorem drop_cons_lt {buffer : CString} {i : Nat} {c : Char} {rest : List Char}
    (h : buffer.drop i = c :: rest) : i < strlen buffer := by
  by_contra hlt
  have : buffer.drop i = [] := List.drop_eq_nil_of_le (by unfold strlen at hlt; omega)
  rw [this] at h
  cases h

theorem drop_cons_charAt {buffer : CString} {i : Nat} {c : Char} {rest : List Char}
    (h : buffer.drop i = c :: rest) : charAt buffer i = c := by
  rw [charAt_eq_headD, h]; rfl

theorem drop_cons_succ {buffer : CString} {i : Nat} {c : Char} {rest : List Char}
    (h : buffer.drop i = c :: rest) : buffer.drop (i + 1) = rest := by
  have := List.drop_drop 1 i buffer
  rw [← this, h]; rfl

theorem drop_append_add {buffer : CString} {i : Nat} {x y : List Char}
    (h : buffer.drop i = x ++ y) : buffer.drop (i + x.length) = y := by
  have := List.drop_drop x.length i buffer
  rw [← this, h, List.drop_left]

theorem charAt_succ_of_drop {buffer : CString} {i : Nat} {c : Char} {rest : List Char}
    (h : buffer.drop i = c :: rest) : charAt buffer (i + 1) = rest.headD NUL := by
  rw [charAt_eq_headD, drop_cons_succ h]

theorem succ_lt_strlen_of_drop {buffer : CString} {i : Nat} {c d : Char} {rest : List Char}
    (h : buffer.drop i = c :: d :: rest) : i + 1 < strlen buffer :=
  drop_cons_lt (drop_cons_succ h)

theorem startsWith_false_headD {p : Char → Bool} {l : List Char} (hN : p NUL = false)
    (h : startsWith p l = false) : p (l.headD NUL) = false := by
  cases l with
  | nil => simpa using hN
  | cons a t => simpa [startsWith] using h

theorem isDigitChar_NUL : isDigitChar NUL = false := by decide

theorem isLowerCase_NUL : isLowerCase NUL = false := by decide

/-! ## Stacks -/

@[simp] theorem push_ofList (l : List CString) (v : CString) :
    push (Stack.ofList l) v = Stack.ofList (v :: l) := rfl

@[simp] theorem pop_ofList_cons (l : List CString) (v r : CString) :
    pop (Stack.ofList (v :: l)) r = (EXIT_SUCCESS, Stack.ofList l, v) := by
  simp [pop, Stack.ofList]

@[simp] theorem pop_ofList_nil (r : CString) :
    pop (Stack.ofList []) r = (EXIT_FAILURE, Stack.ofList [], r) := by
  simp [pop, Stack.ofList]

@[simp] theorem ofList_size (l : List CString) : (Stack.ofList l).size = l.length := rfl

@[simp] theorem ofList_top (l : List CString) : (Stack.ofList l).top = l := rfl

theorem initStack_eq : initStack = Stack.ofList [] := rfl

theorem pushTimes_ofList (n : Nat) (l : List CString) (v : CString) :
    pushTimes n (Stack.ofList l) v = Stack.ofList (List.replicate n v ++ l) := by
  induction n generalizing l with
  | zero => simp [pushTimes]
  | succ k ih =>
    rw [pushTimes, push_ofList, ih, List.replicate_succ]
    congr 1
    rw [show v :: l = [v] ++ l from rfl, ← List.append_assoc, ← List.replicate_succ',
      List.replicate_succ]

/-! ## The inner loops -/

theorem findNumberLoop_run (ds rest : List Char) (index num : Nat)
    (hd : ∀ c ∈ ds, isDigitChar c = true) (hr : startsWith isDigitChar rest = false) :
    findNumberLoop (ds ++ rest) index num
      = (ds.foldl (fun n c => n * 10 + digitValue c) num, index + ds.length) := by
  induction ds generalizing index num with
  | nil =>
    cases rest with
    | nil => simp [findNumberLoop]
    | cons a t =>
      have : isDigitChar a = false := by simpa [startsWith] using hr
      simp [findNumberLoop, this]
  | cons d ds ih =>
    have hd1 : isDigitChar d = true := hd d (by simp)
    have := ih (index + 1) (num * 10 + digitValue d) (fun c hc => hd c (by simp [hc]))
    simp [findNumberLoop, hd1, this]
    omega

theorem symbolLoop_run (lows rest : List Char) (i : Nat) (molecule : CString)
    (hl : ∀ c ∈ lows, isLowerCase c = true) (hr : startsWith isLowerCase rest = false) :
    symbolLoop (lows ++ rest) i molecule = (molecule ++ lows, i + lows.length) := by
  induction lows generalizing i molecule with
  | nil =>
    cases rest with
    | nil => simp [symbolLoop]
    | cons a t =>
      have : isLowerCase a = false := by simpa [startsWith] using hr
      simp [symbolLoop, this]
  | cons d lows ih =>
    have hd1 : isLowerCase d = true := hl d (by simp)
    have := ih (i + 1) (molecule ++ [d]) (fun c hc => hl c (by simp [hc]))
    simp [symbolLoop, hd1, this]
    omega

/-! ## Single passes of the loop of `openMoleculeType` -/

theorem readSymbol_run {buffer : CString} {i : Nat} {c : Char} {lows rest : List Char}
    (h : buffer.drop i = (c :: lows) ++ rest) (hl : ∀ x ∈ lows, isLowerCase x = true)
    (hr : startsWith isLowerCase rest = false) :
    readSymbol buffer i = (c :: lows, i + lows.length) := by
  have h1 : buffer.drop i = c :: (lows ++ rest) := by simpa using h
  have hc := drop_cons_charAt h1
  have hs := drop_cons_succ h1
  have hn := charAt_succ_of_drop h1
  unfold readSymbol
  cases lows with
  | nil =>
    have : isLowerCase (charAt buffer (i + 1)) = false := by
      rw [hn]; exact startsWith_false_headD isLowerCase_NUL (by simpa using hr)
    simp [this, hc]
  | cons l1 ls =>
    have : isLowerCase (charAt buffer (i + 1)) = true := by
      rw [hn]; exact hl l1 (by simp)
    rw [if_pos this, hs, symbolLoop_run (l1 :: ls) rest (i + 1) [charAt buffer i] hl hr, hc]
    simp
    omega

theorem closeTimes_run {buffer : CString} {i : Nat} {mult rest : List Char}
    (h : buffer.drop i = ')' :: (mult ++ rest)) (hd : ∀ x ∈ mult, isDigitChar x = true)
    (hr : startsWith isDigitChar rest = false) :
    closeTimes buffer i = (timesOf mult, i + mult.length) := by
  have hs := drop_cons_succ h
  have hn := charAt_succ_of_drop h
  unfold closeTimes
  cases mult with
  | nil =>
    have : isDigitChar (charAt buffer (i + 1)) = false := by
      rw [hn]; exact startsWith_false_headD isDigitChar_NUL (by simpa using hr)
    simp [this, timesOf]
  | cons d ds =>
    have h1 : isDigitChar (charAt buffer (i + 1)) = true := by
      rw [hn]; exact hd d (by simp)
    have h2 : i + 1 < strlen buffer := drop_cons_lt hs
    rw [if_pos ⟨h2, h1⟩]
    unfold findNumber
    rw [hs, findNumberLoop_run (d :: ds) rest (i + 1) 0 hd hr]
    simp [timesOf, decimalValue]
    omega

theorem digitTimes_run {buffer : CString} {i : Nat} {d : Char} {ds rest : List Char}
    (h : buffer.drop i = (d :: ds) ++ rest) (hd : ∀ x ∈ d :: ds, isDigitChar x = true)
    (hr : startsWith isDigitChar rest = false) :
    digitTimes buffer i = (decimalValue (d :: ds), i + ds.length) := by
  have h1 : buffer.drop i = d :: (ds ++ rest) := by simpa using h
  have hc := drop_cons_charAt h1
  have hs := drop_cons_succ h1
  have hn := charAt_succ_of_drop h1
  unfold digitTimes
  cases ds with
  | nil =>
    have : isDigitChar (charAt buffer (i + 1)) = false := by
      rw [hn]; exact startsWith_false_headD isDigitChar_NUL (by simpa using hr)
    simp [this, hc, decimalValue]
  | cons d2 ds2 =>
    have h2 : isDigitChar (charAt buffer (i + 1)) = true := by
      rw [hn]; exact hd d2 (by simp)
    have h3 : i + 1 < strlen buffer := drop_cons_lt hs
    rw [if_pos ⟨h3, h2⟩]
    unfold findNumber
    rw [h, findNumberLoop_run (d :: d2 :: ds2) rest i 0 hd hr]
    simp [decimalValue]

theorem loop_end {buffer : CString} (table : PeriodicTable) (fuel : Nat) {i : Nat}
    (stack : Stack) (h : strlen buffer ≤ i) :
    openMoleculeTypeLoop buffer table fuel i stack = some (.done, stack) := by
  have : ¬ i < strlen buffer := by omega
  cases fuel <;> simp [openMoleculeTypeLoop, this]

theorem step_symbol {buffer : CString} (table : PeriodicTable) (fuel : Nat) {i : Nat}
    (stack : Stack) {c : Char} {lows rest : List Char}
    (h : buffer.drop i = (c :: lows) ++ rest) (hu : isUpperCase c = true)
    (hl : ∀ x ∈ lows, isLowerCase x = true) (hr : startsWith isLowerCase rest = false) :
    openMoleculeTypeLoop buffer table (fuel + 1) i stack =
      if isMolecule (c :: lows) table = EXIT_SUCCESS then
        openMoleculeTypeLoop buffer table fuel (i + (c :: lows).length) (push stack (c :: lows))
      else some (.unknownSymbol, stack) := by
  have h1 : buffer.drop i = c :: (lows ++ rest) := by simpa using h
  have hc := drop_cons_charAt h1
  have hlt := drop_cons_lt h1
  rw [openMoleculeTypeLoop, if_pos hlt, hc, if_pos hu, readSymbol_run h hl hr]
  simp only [List.length_cons]
  rw [show i + lows.length + 1 = i + (lows.length + 1) by omega]

theorem step_open {buffer : CString} (table : PeriodicTable) (fuel : Nat) {i : Nat}
    (stack : Stack) {rest : List Char} (h : buffer.drop i = '(' :: rest) :
    openMoleculeTypeLoop buffer table (fuel + 1) i stack =
      openMoleculeTypeLoop buffer table fuel (i + 1) (push stack openMarker) := by
  have hc := drop_cons_charAt h
  have hlt := drop_cons_lt h
  rw [openMoleculeTypeLoop, if_pos hlt, hc]
  simp [isUpperCase]

theorem step_close {buffer : CString} (table : PeriodicTable) (fuel : Nat) {i : Nat}
    (stack : Stack) {mult rest : List Char}
    (h : buffer.drop i = ')' :: (mult ++ rest)) (hd : ∀ x ∈ mult, isDigitChar x = true)
    (hr : startsWith isDigitChar rest = false) :
    openMoleculeTypeLoop buffer table (fuel + 1) i stack =
      if (closeGroup stack).1 = EXIT_FAILURE then some (.closePop, (closeGroup stack).2.1)
      else openMoleculeTypeLoop buffer table fuel (i + 1 + mult.length)
        (pushTimes (timesOf mult) (closeGroup stack).2.1 (closeGroup stack).2.2) := by
  have hc := drop_cons_charAt h
  have hlt := drop_cons_lt h
  rw [openMoleculeTypeLoop, if_pos hlt, hc, closeTimes_run h hd hr]
  simp [isUpperCase]
  rw [show i + mult.length + 1 = i + 1 + mult.length by omega]

theorem step_digit {buffer : CString} (table : PeriodicTable) (fuel : Nat) {i : Nat}
    (stack : Stack) {d : Char} {ds rest : List Char}
    (h : buffer.drop i = (d :: ds) ++ rest) (hd : ∀ x ∈ d :: ds, isDigitChar x = true)
    (hr : startsWith isDigitChar rest = false) :
    openMoleculeTypeLoop buffer table (fuel + 1) i stack =
      if (pop stack []).1 = EXIT_FAILURE then some (.multiplierPop, (pop stack []).2.1)
      else openMoleculeTypeLoop buffer table fuel (i + (d :: ds).length)
        (pushTimes (decimalValue (d :: ds)) (pop stack []).2.1 (pop stack []).2.2) := by
  have h1 : buffer.drop i = d :: (ds ++ rest) := by simpa using h
  have hc := drop_cons_charAt h1
  have hlt := drop_cons_lt h1
  have hdig : isDigitChar d = true := hd d (by simp)
  have hnu : isUpperCase d = false := by
    have := (isDigitChar_iff d).1 hdig
    cases hb : isUpperCase d
    · rfl
    · have := (isUpperCase_iff d).1 hb; omega
  have hno : d ≠ '(' := by
    have := (isDigitChar_iff d).1 hdig
    intro he; have := (eq_open_iff d).1 he; omega
  have hnc : d ≠ ')' := by
    have := (isDigitChar_iff d).1 hdig
    intro he; have := (eq_close_iff d).1 he; omega
  rw [openMoleculeTypeLoop, if_pos hlt, hc, digitTimes_run h hd hr]
  simp only [hnu, hno, hnc, hdig, if_false, if_true, List.length_cons]
  simp
  rw [show i + ds.length + 1 = i + (ds.length + 1) by omega]

theorem step_other {buffer : CString} (table : PeriodicTable) (fuel : Nat) {i : Nat}
    (stack : Stack) {c : Char} {rest : List Char} (h : buffer.drop i = c :: rest)
    (hu : isUpperCase c = false) (ho : c ≠ '(') (hcl : c ≠ ')')
    (hd : isDigitChar c = false) (hl : isLowerCase c = false) :
    openMoleculeTypeLoop buffer table (fuel + 1) i stack =
      openMoleculeTypeLoop buffer table fuel (i + 1) stack := by
  have hc := drop_cons_charAt h
  have hlt := drop_cons_lt h
  rw [openMoleculeTypeLoop, if_pos hlt, hc]
  simp [hu, ho, hcl, hd, hl]

/-! ## Group closure on a stack that holds a marker -/

theorem closeLoop_marker (size : Nat) (top : List CString) (buffer2 : CString) :
    closeLoop size top openMarker buffer2 = (EXIT_SUCCESS, ⟨top, size⟩, buffer2) := by
  cases size <;> simp [closeLoop]

theorem closeLoop_ofList (es l : List CString) (n : Nat) (retval buffer2 : CString)
    (hn : n = es.length + l.length + 1)
    (hes : ∀ e ∈ es, e ≠ openMarker) (hr : retval ≠ openMarker) :
    closeLoop n (es ++ openMarker :: l) retval buffer2
      = (EXIT_SUCCESS, Stack.ofList l, es.reverse.flatten ++ (retval ++ buffer2)) := by
  induction es generalizing n retval buffer2 with
  | nil =>
    subst hn
    simp only [List.nil_append, List.length_nil, Nat.zero_add]
    rw [closeLoop, if_neg hr]
    simp [pop, closeLoop_marker, Stack.ofList]
  | cons e es ih =>
    have he : e ≠ openMarker := hes e (by simp)
    have := ih (es.length + l.length + 1) e (retval ++ buffer2) rfl
      (fun x hx => hes x (by simp [hx])) he
    subst hn
    simp only [List.cons_append, List.length_cons]
    rw [show es.length + 1 + l.length + 1 = (es.length + l.length + 1) + 1 by omega,
      closeLoop, if_neg hr]
    simp [pop, this]

theorem closeGroup_ofList (e1 : CString) (es l : List CString)
    (hes : ∀ e ∈ es, e ≠ openMarker) :
    closeGroup (Stack.ofList (e1 :: (es ++ openMarker :: l)))
      = (EXIT_SUCCESS, Stack.ofList l, (e1 :: es).reverse.flatten) := by
  unfold closeGroup
  rw [pop_ofList_cons]
  cases es with
  | nil =>
    simp only [List.nil_append, pop_ofList_cons]
    simp [closeLoop_marker, Stack.ofList]
  | cons e2 es2 =>
    have he : e2 ≠ openMarker := hes e2 (by simp)
    have := closeLoop_ofList es2 l (es2.length + l.length + 1) e2 e1 rfl
      (fun x hx => hes x (by simp [hx])) he
    simp only [List.cons_append, pop_ofList_cons]
    simp only [ofList_size, ofList_top, List.length_append, List.length_cons]
    rw [show es2.length + (l.length + 1) = es2.length + l.length + 1 by omega]
    simp [this]

/-! ## Well-formed formulas -/

theorem isSymbolName_cases {name : CString} (h : isSymbolName name = true) :
    ∃ c lows, name = c :: lows ∧ isUpperCase c = true ∧ ∀ x ∈ lows, isLowerCase x = true := by
  cases name with
  | nil => simp [isSymbolName] at h
  | cons c lows =>
    simp only [isSymbolName, Bool.and_eq_true, List.all_eq_true] at h
    exact ⟨c, lows, rfl, h.1, h.2⟩

theorem isMultiplier_cases {mult : List Char} (h : isMultiplier mult = true) :
    (∀ x ∈ mult, isDigitChar x = true) ∧ 1 ≤ timesOf mult := by
  simp only [isMultiplier, Bool.and_eq_true, List.all_eq_true, decide_eq_true_eq] at h
  exact h

theorem isMolecule_of_inTable {table : PeriodicTable} {name : CString}
    (h : inTable table name = true) : isMolecule name table = EXIT_SUCCESS := by
  induction table with
  | nil => simp [inTable] at h
  | cons a t ih =>
    by_cases ha : a.name = name
    · rw [isMolecule, if_pos ha]
    · rw [isMolecule, if_neg ha]
      apply ih
      simpa [inTable, ha] using h

theorem wellFormed_sym {table : PeriodicTable} {name : CString} {mult : List Char}
    {rest : Formula} (h : (Formula.sym name mult rest).wellFormed table = true) :
    isSymbolName name = true ∧ isMolecule name table = EXIT_SUCCESS ∧
      isMultiplier mult = true ∧ rest.wellFormed table = true := by
  simp only [Formula.wellFormed, Bool.and_eq_true] at h
  exact ⟨h.1.1.1, isMolecule_of_inTable h.1.1.2, h.1.2, h.2⟩

theorem wellFormed_group {table : PeriodicTable} {body : Formula} {mult : List Char}
    {rest : Formula} (h : (Formula.group body mult rest).wellFormed table = true) :
    body ≠ .nil ∧ body.wellFormed table = true ∧
      isMultiplier mult = true ∧ rest.wellFormed table = true := by
  simp only [Formula.wellFormed, Bool.and_eq_true, decide_eq_true_eq] at h
  tauto

theorem startsWith_append_of_true {p : Char → Bool} {a : List Char} (b : List Char)
    (h : startsWith p a = true) : startsWith p (a ++ b) = true := by
  cases a with
  | nil => simp [startsWith] at h
  | cons c t => simpa [startsWith] using h

theorem upper_not_lower {c : Char} (h : isUpperCase c = true) : isLowerCase c = false := by
  have := (isUpperCase_iff c).1 h
  cases hb : isLowerCase c
  · rfl
  · have := (isLowerCase_iff c).1 hb; omega

theorem upper_not_digit {c : Char} (h : isUpperCase c = true) : isDigitChar c = false := by
  have := (isUpperCase_iff c).1 h
  cases hb : isDigitChar c
  · rfl
  · have := (isDigitChar_iff c).1 hb; omega

theorem digit_not_lower {c : Char} (h : isDigitChar c = true) : isLowerCase c = false := by
  have := (isDigitChar_iff c).1 h
  cases hb : isLowerCase c
  · rfl
  · have := (isLowerCase_iff c).1 hb; omega

theorem upper_starts_ne_marker {e : CString} (h : startsWith isUpperCase e = true) :
    e ≠ openMarker := by
  intro he
  rw [he] at h
  simp [startsWith, openMarker, isUpperCase] at h

/-- The text of a well-formed formula begins with an uppercase letter or '(' , so
neither a lowercase letter nor a digit continues what stands before it. -/
theorem render_startsWith {table : PeriodicTable} (f : Formula)
    (hwf : f.wellFormed table = true) (post : List Char)
    (hl : startsWith isLowerCase post = false) (hd : startsWith isDigitChar post = false) :
    startsWith isLowerCase (f.render ++ post) = false ∧
      startsWith isDigitChar (f.render ++ post) = false := by
  cases f with
  | nil => simpa [Formula.render] using ⟨hl, hd⟩
  | sym name mult rest =>
    obtain ⟨hn, -, -, -⟩ := wellFormed_sym hwf
    obtain ⟨c, lows, rfl, hu, -⟩ := isSymbolName_cases hn
    simp [Formula.render, startsWith, upper_not_lower hu, upper_not_digit hu]
  | group body mult rest =>
    simp [Formula.render, startsWith, isLowerCase, isDigitChar]

theorem flatten_replicate_pos_startsWith {p : Char → Bool} {a : List Char} {n : Nat}
    (hn : 1 ≤ n) (h : startsWith p a = true) (b : List Char) :
    startsWith p ((List.replicate n a).flatten ++ b) = true := by
  obtain ⟨k, rfl⟩ : ∃ k, n = k + 1 := ⟨n - 1, by omega⟩
  rw [List.replicate_succ, List.flatten_cons, List.append_assoc]
  exact startsWith_append_of_true _ h

theorem expand_startsWith {table : PeriodicTable} (f : Formula)
    (hwf : f.wellFormed table = true) (hne : f ≠ .nil) :
    startsWith isUpperCase f.expand = true := by
  induction f with
  | nil => exact absurd rfl hne
  | sym name mult rest _ =>
    obtain ⟨hn, -, hm, -⟩ := wellFormed_sym hwf
    obtain ⟨c, lows, rfl, hu, -⟩ := isSymbolName_cases hn
    exact flatten_replicate_pos_startsWith (isMultiplier_cases hm).2
      (by simpa [startsWith] using hu) _
  | group body mult rest ihb _ =>
    obtain ⟨hb, hwb, hm, -⟩ := wellFormed_group hwf
    exact flatten_replicate_pos_startsWith (isMultiplier_cases hm).2 (ihb hwb hb) _

theorem entries_startsWith {table : PeriodicTable} (f : Formula)
    (hwf : f.wellFormed table = true) :
    ∀ e ∈ f.entries, startsWith isUpperCase e = true := by
  induction f with
  | nil => simp [Formula.entries]
  | sym name mult rest ih =>
    obtain ⟨hn, -, -, hr⟩ := wellFormed_sym hwf
    obtain ⟨c, lows, rfl, hu, -⟩ := isSymbolName_cases hn
    intro e he
    simp only [Formula.entries, List.mem_append, List.mem_replicate] at he
    rcases he with ⟨-, rfl⟩ | he
    · simpa [startsWith] using hu
    · exact ih hr e he
  | group body mult rest _ ih =>
    obtain ⟨hb, hwb, -, hr⟩ := wellFormed_group hwf
    intro e he
    simp only [Formula.entries, List.mem_append, List.mem_replicate] at he
    rcases he with ⟨-, rfl⟩ | he
    · exact expand_startsWith body hwb hb
    · exact ih hr e he

theorem entries_ne_nil {table : PeriodicTable} (f : Formula)
    (hwf : f.wellFormed table = true) (hne : f ≠ .nil) : f.entries ≠ [] := by
  cases f with
  | nil => exact absurd rfl hne
  | sym name mult rest =>
    obtain ⟨-, -, hm, -⟩ := wellFormed_sym hwf
    have := (isMultiplier_cases hm).2
    obtain ⟨k, hk⟩ : ∃ k, timesOf mult = k + 1 := ⟨timesOf mult - 1, by omega⟩
    simp [Formula.entries, hk, List.replicate_succ]
  | group body mult rest =>
    obtain ⟨-, -, hm, -⟩ := wellFormed_group hwf
    have := (isMultiplier_cases hm).2
    obtain ⟨k, hk⟩ : ∃ k, timesOf mult = k + 1 := ⟨timesOf mult - 1, by omega⟩
    simp [Formula.entries, hk, List.replicate_succ]

theorem entries_flatten (f : Formula) : f.entries.flatten = f.expand := by
  induction f with
  | nil => rfl
  | sym name mult rest ih => simp [Formula.entries, Formula.expand, ih]
  | group body mult rest _ ih => simp [Formula.entries, Formula.expand, ih]

/-! ## The run of `openMoleculeType` over a well-formed formula -/

theorem run_formula {table : PeriodicTable} (f : Formula) (hwf : f.wellFormed table = true) :
    ∀ (buffer : CString) (i : Nat) (post : List Char) (l : List CString) (fuel : Nat),
      buffer.drop i = f.render ++ post →
      startsWith isLowerCase post = false → startsWith isDigitChar post = false →
      openMoleculeTypeLoop buffer table (fuel + f.passes) i (Stack.ofList l) =
        openMoleculeTypeLoop buffer table fuel (i + f.render.length)
          (Stack.ofList (f.entries.reverse ++ l)) := by
  induction f with
  | nil =>
    intro buffer i post l fuel _ _ _
    simp [Formula.passes, Formula.render, Formula.entries]
  | sym name mult rest ih =>
    intro buffer i post l fuel hdrop hl hd
    obtain ⟨hn, hmol, hm, hr⟩ := wellFormed_sym hwf
    obtain ⟨c, lows, rfl, hu, hlows⟩ := isSymbolName_cases hn
    obtain ⟨hdig, htimes⟩ := isMultiplier_cases hm
    have hrest := render_startsWith rest hr post hl hd
    cases mult with
    | nil =>
      have h1 : buffer.drop i = (c :: lows) ++ (rest.render ++ post) := by
        simpa [Formula.render] using hdrop
      have hstep := step_symbol table (fuel + rest.passes) (Stack.ofList l) h1 hu hlows hrest.1
      rw [if_pos hmol, push_ofList] at hstep
      have h2 := drop_append_add h1
      have hrun := ih hr buffer _ post ((c :: lows) :: l) fuel h2 hl hd
      simp only [Formula.passes, if_true]
      rw [show fuel + (1 + rest.passes) = fuel + rest.passes + 1 by omega, hstep, hrun]
      congr 1
      · simp [Formula.render]; omega
      · simp [Formula.entries, timesOf]
    | cons d ds =>
      have hd1 : isDigitChar d = true := hdig d (by simp)
      have h1 : buffer.drop i = (c :: lows) ++ ((d :: ds) ++ (rest.render ++ post)) := by
        simpa [Formula.render] using hdrop
      have hstep := step_symbol table (fuel + rest.passes + 1) (Stack.ofList l) h1 hu hlows
        (by simpa [startsWith] using digit_not_lower hd1)
      rw [if_pos hmol, push_ofList] at hstep
      have h2 := drop_append_add h1
      have hstep2 := step_digit table (fuel + rest.passes) (Stack.ofList ((c :: lows) :: l))
        h2 hdig hrest.2
      rw [pop_ofList_cons] at hstep2
      simp only [pushTimes_ofList] at hstep2
      have h3 := drop_append_add h2
      have hrun := ih hr buffer _ post
        (List.replicate (decimalValue (d :: ds)) (c :: lows) ++ l) fuel h3 hl hd
      simp only [Formula.passes, if_false, reduceCtorEq]
      rw [show fuel + (2 + rest.passes) = fuel + rest.passes + 1 + 1 by omega, hstep, hstep2]
      rw [if_neg (by decide), hrun]
      congr 1
      · simp [Formula.render]; omega
      · simp [Formula.entries, timesOf]
  | group body mult rest ihb ih =>
    intro buffer i post l fuel hdrop hl hd
    obtain ⟨hb, hwb, hm, hr⟩ := wellFormed_group hwf
    obtain ⟨hdig, htimes⟩ := isMultiplier_cases hm
    have hrest := render_startsWith rest hr post hl hd
    have h1 : buffer.drop i = '(' :: (body.render ++ (')' :: (mult ++ (rest.render ++ post)))) := by
      simpa [Formula.render] using hdrop
    have hstep := step_open table (fuel + rest.passes + 1 + body.passes) (Stack.ofList l) h1
    rw [push_ofList] at hstep
    have h2 := drop_cons_succ h1
    have hrunb := ihb hwb buffer (i + 1) (')' :: (mult ++ (rest.render ++ post)))
      (openMarker :: l) (fuel + rest.passes + 1) h2 (by simp [startsWith, isLowerCase])
      (by simp [startsWith, isDigitChar])
    have h3 := drop_append_add h2
    obtain ⟨e1, es, hrev⟩ : ∃ e1 es, body.entries.reverse = e1 :: es := by
      cases hE : body.entries.reverse with
      | nil =>
        exact absurd (List.reverse_eq_nil_iff.1 hE) (entries_ne_nil body hwb hb)
      | cons e1 es => exact ⟨e1, es, rfl⟩
    have hes : ∀ e ∈ es, e ≠ openMarker := by
      intro e he
      apply upper_starts_ne_marker
      apply entries_startsWith body hwb
      have : e ∈ body.entries.reverse := by rw [hrev]; simp [he]
      simpa using this
    have hclose := closeGroup_ofList e1 es l hes
    have hstep2 := step_close table (fuel + rest.passes)
      (Stack.ofList (body.entries.reverse ++ openMarker :: l)) h3 hdig hrest.2
    rw [hrev, List.cons_append, hclose] at hstep2
    simp only [pushTimes_ofList] at hstep2
    rw [if_neg (by decide)] at hstep2
    have hflat : (e1 :: es).reverse.flatten = body.expand := by
      rw [← hrev, List.reverse_reverse, entries_flatten]
    rw [hflat] at hstep2
    have h4 : buffer.drop (i + 1 + body.render.length + 1 + mult.length)
        = rest.render ++ post := by
      have := drop_append_add (x := ')' :: mult) (y := rest.render ++ post)
        (by simpa using h3)
      rw [List.length_cons] at this
      rw [show i + 1 + body.render.length + 1 + mult.length
          = i + 1 + body.render.length + (mult.length + 1) by omega]
      exact this
    have hrun := ih hr buffer _ post
      (List.replicate (timesOf mult) body.expand ++ l) fuel h4 hl hd
    simp only [Formula.passes]
    rw [show fuel + (2 + body.passes + rest.passes)
        = fuel + rest.passes + 1 + body.passes + 1 by omega, hstep, hrunb]
    rw [hrev, List.cons_append, hstep2, hrun]
    congr 1
    · simp [Formula.render]; omega
    · simp [Formula.entries]

theorem passes_le_length {table : PeriodicTable} (f : Formula)
    (hwf : f.wellFormed table = true) : f.passes ≤ f.render.length := by
  induction f with
  | nil => simp [Formula.passes]
  | sym name mult rest ih =>
    obtain ⟨hn, -, -, hr⟩ := wellFormed_sym hwf
    obtain ⟨c, lows, rfl, -, -⟩ := isSymbolName_cases hn
    have := ih hr
    cases mult with
    | nil => simp [Formula.passes, Formula.render]; omega
    | cons d ds => simp [Formula.passes, Formula.render]; omega
  | group body mult rest ihb ih =>
    obtain ⟨-, hwb, -, hr⟩ := wellFormed_group hwf
    have := ih hr
    have := ihb hwb
    simp [Formula.passes, Formula.render]; omega

theorem newline_other :
    isUpperCase '\n' = false ∧ '\n' ≠ '(' ∧ '\n' ≠ ')' ∧ isDigitChar '\n' = false ∧
      isLowerCase '\n' = false := by decide

/-- On a well-formed formula, alone or followed by the line break, the run
leaves by the final `return` with the entries of the formula on the stack. -/
theorem openMoleculeTypeExit_wellFormed (table : PeriodicTable) (f : Formula)
    (tail : List Char) (hwf : f.wellFormed table = true)
    (htail : tail = [] ∨ tail = ['\n']) :
    openMoleculeTypeExit (f.render ++ tail) initStack table
      = some (.done, Stack.ofList f.entries.reverse) := by
  have hlen := passes_le_length f hwf
  unfold openMoleculeTypeExit
  rcases htail with rfl | rfl
  · have hrun := run_formula f hwf (f.render ++ []) 0 [] [] (f.render.length - f.passes)
      (by simp) rfl rfl
    rw [show f.render.length - f.passes + f.passes = strlen (f.render ++ []) by
      simp [strlen]; omega] at hrun
    rw [initStack_eq, hrun, loop_end table _ _ (by simp [strlen])]
    simp
  · have hrun := run_formula f hwf (f.render ++ ['\n']) 0 ['\n'] []
      (f.render.length - f.passes + 1) (by simp) (by decide) (by decide)
    rw [show f.render.length - f.passes + 1 + f.passes = strlen (f.render ++ ['\n']) by
      simp [strlen]; omega] at hrun
    have hdrop : (f.render ++ ['\n']).drop (0 + f.render.length) = ['\n'] := by simp
    obtain ⟨h1, h2, h3, h4, h5⟩ := newline_other
    rw [initStack_eq, hrun, step_other table _ _ hdrop h1 h2 h3 h4 h5,
      loop_end table _ _ (by simp [strlen])]
    simp

/-- C1: for every element table and every well-formed formula line (symbols of
the table, non-empty groups, multipliers at least 1), alone or followed by its
line break, `openMoleculeType` returns `EXIT_SUCCESS` and the stack entries
concatenated from bottom to top are the reference expansion of the formula. -/
theorem openMoleculeType_expansion (table : PeriodicTable) (f : Formula)
    (tail : List Char) (hwf : f.wellFormed table = true)
    (htail : tail = [] ∨ tail = ['\n']) :
    ∃ st, openMoleculeType (f.render ++ tail) initStack table = some (EXIT_SUCCESS, st) ∧
      st.size = st.top.length ∧ st.top.reverse.flatten = f.expand := by
  refine ⟨Stack.ofList f.entries.reverse, ?_, rfl, ?_⟩
  · simp [openMoleculeType, openMoleculeTypeExit_wellFormed table f tail hwf htail,
      Exit.status]
  · simp [entries_flatten]

/-- Witness of C1: `Mg(OH)2` over the table H, O, Mg leaves a stack whose entries
read `MgOHOH` from bottom to top: one Mg, two O, two H. -/
theorem openMoleculeType_expansion_witness :
    formulaMgOH2.wellFormed tableHOMg = true ∧
      ∃ st, openMoleculeType (str "Mg(OH)2") initStack tableHOMg = some (EXIT_SUCCESS, st) ∧
        st.size = st.top.length ∧ st.top.reverse.flatten = str "MgOHOH" :=
  ⟨by decide, openMoleculeType_expansion tableHOMg formulaMgOH2 [] (by decide) (Or.inl rfl)⟩

/-- C3: with the table H 1, O 8, Mg 12 and the formula `Mg(OH)2` (alone or
followed by its line break) `openMoleculeType` succeeds; for the stack it leaves
`printStack` writes `MgOHOH` and the line break, and `printMoleculeNumber`
writes 30. -/
theorem mgOH2_round_trip :
    ∃ st,
      openMoleculeType (str "Mg(OH)2") initStack tableHOMg = some (EXIT_SUCCESS, st) ∧
      openMoleculeType (str "Mg(OH)2\n") initStack tableHOMg = some (EXIT_SUCCESS, st) ∧
      printStack st = (EXIT_SUCCESS, initStack, str "MgOHOH\n") ∧
      printMoleculeNumber st tableHOMg = some (EXIT_SUCCESS, initStack, some 30) :=
  ⟨Stack.ofList [str "OH", str "OH", str "Mg"], by decide, by decide, by decide, by decide⟩

/-! ## The validator -/

theorem checkValidityLoop_depthScan (s : List Char) :
    ∀ (buffer : CString) (i d : Nat) (post : List Char), buffer.drop i = s ++ post →
      checkValidityLoop buffer s.length i (Stack.ofList (List.replicate d openMarker))
        = depthScan d s := by
  induction s with
  | nil =>
    intro buffer i d post _
    simp [checkValidityLoop, depthScan]
  | cons c t ih =>
    intro buffer i d post h
    have h1 : buffer.drop i = c :: (t ++ post) := by simpa using h
    have hc := drop_cons_charAt h1
    have hs := drop_cons_succ h1
    simp only [List.length_cons]
    rw [checkValidityLoop, hc, depthScan]
    by_cases hcl : c = ')'
    · have hno : c ≠ '(' := by rw [hcl]; decide
      rw [if_pos hcl, if_pos hcl, if_neg hno]
      cases d with
      | zero => simp
      | succ k =>
        rw [List.replicate_succ, pop_ofList_cons]
        simp only [ofList_size, List.length_cons]
        rw [if_neg (by omega), if_neg (by decide), if_neg (by decide), if_neg (by omega)]
        exact ih buffer (i + 1) k post hs
    · rw [if_neg hcl, if_neg hcl]
      by_cases ho : c = '('
      · rw [if_pos ho, if_pos ho, push_ofList, ← List.replicate_succ]
        exact ih buffer (i + 1) (d + 1) post hs
      · rw [if_neg ho, if_neg ho]
        exact ih buffer (i + 1) d post hs

theorem checkValidity_append_char (s : List Char) (c : Char) :
    checkValidity (s ++ [c]) = some (depthScan 0 s) := by
  unfold checkValidity
  have h0 : strlen (s ++ [c]) ≠ 0 := by simp [strlen]
  rw [if_neg h0]
  have : strlen (s ++ [c]) - 1 = s.length := by simp [strlen]
  rw [this, initStack_eq]
  exact congrArg some (checkValidityLoop_depthScan s (s ++ [c]) 0 0 [c] rfl)

theorem depthScan_cases (d : Nat) (s : List Char) :
    depthScan d s = EXIT_SUCCESS ∨ depthScan d s = EXIT_FAILURE := by
  induction s generalizing d with
  | nil => unfold depthScan; split <;> simp
  | cons c t ih =>
    unfold depthScan
    split
    · split
      · exact Or.inr rfl
      · exact ih _
    · split
      · exact ih _
      · exact ih _

theorem depthScan_close (d : Nat) (t : List Char) :
    depthScan d (')' :: t) = if d = 0 then EXIT_FAILURE else depthScan (d - 1) t := by
  rw [depthScan, if_pos rfl]

theorem depthScan_open (d : Nat) (t : List Char) :
    depthScan d ('(' :: t) = depthScan (d + 1) t := by
  rw [depthScan, if_neg (by decide), if_pos rfl]

theorem depthScan_other (d : Nat) {c : Char} (t : List Char) (ho : c ≠ '(') (hcl : c ≠ ')') :
    depthScan d (c :: t) = depthScan d t := by
  rw [depthScan, if_neg hcl, if_neg ho]

theorem depthScan_filter (d : Nat) (s : List Char) :
    depthScan d (s.filter isParen) = depthScan d s := by
  induction s generalizing d with
  | nil => rfl
  | cons c t ih =>
    by_cases hcl : c = ')'
    · subst hcl
      rw [List.filter_cons_of_pos (by decide), depthScan_close, depthScan_close, ih]
    · by_cases ho : c = '('
      · subst ho
        rw [List.filter_cons_of_pos (by decide), depthScan_open, depthScan_open, ih]
      · rw [List.filter_cons_of_neg (by simp [isParen, ho, hcl]), depthScan_other d t ho hcl, ih]

theorem depthScan_success_iff (d : Nat) (s : List Char) :
    depthScan d s = EXIT_SUCCESS ↔
      (∀ k, (s.take k).count ')' ≤ d + (s.take k).count '(') ∧
        d + s.count '(' = s.count ')' := by
  induction s generalizing d with
  | nil =>
    unfold depthScan
    by_cases hd : d > 0
    · simp [hd]; omega
    · simp [hd]; omega
  | cons c t ih =>
    by_cases hcl : c = ')'
    · subst hcl
      have hne : (')' : Char) ≠ '(' := by decide
      rw [depthScan_close]
      cases d with
      | zero =>
        simp only [if_true]
        constructor
        · intro h; exact absurd h (by decide)
        · rintro ⟨h, -⟩
          have := h 1
          simp [hne] at this
      | succ e =>
        rw [if_neg (by omega), Nat.add_sub_cancel, ih e]
        constructor
        · rintro ⟨h1, h2⟩
          refine ⟨fun k => ?_, ?_⟩
          · cases k with
            | zero => simp
            | succ j =>
              have := h1 j
              simp [hne]; omega
          · simp [hne]; omega
        · rintro ⟨h1, h2⟩
          refine ⟨fun j => ?_, ?_⟩
          · have := h1 (j + 1)
            simp [hne] at this; omega
          · simp [hne] at h2; omega
    · by_cases ho : c = '('
      · subst ho
        have hne : ('(' : Char) ≠ ')' := by decide
        rw [depthScan_open, ih (d + 1)]
        constructor
        · rintro ⟨h1, h2⟩
          refine ⟨fun k => ?_, ?_⟩
          · cases k with
            | zero => simp
            | succ j =>
              have := h1 j
              simp [hne]; omega
          · simp [hne]; omega
        · rintro ⟨h1, h2⟩
          refine ⟨fun j => ?_, ?_⟩
          · have := h1 (j + 1)
            simp [hne] at this; omega
          · simp [hne] at h2; omega
      · rw [depthScan_other d t ho hcl, ih d]
        constructor
        · rintro ⟨h1, h2⟩
          refine ⟨fun k => ?_, ?_⟩
          · cases k with
            | zero => simp
            | succ j =>
              have := h1 j
              simpa [List.count_cons, ho, hcl] using this
          · simpa [List.count_cons, ho, hcl] using h2
        · rintro ⟨h1, h2⟩
          refine ⟨fun j => ?_, ?_⟩
          · have := h1 (j + 1)
            simpa [List.count_cons, ho, hcl] using this
          · simpa [List.count_cons, ho, hcl] using h2

theorem count_take_append_other (p c : Char) (hc : c ≠ p) (s : List Char) (k : Nat) :
    ((s ++ [c]).take k).count p = (s.take k).count p := by
  rw [List.take_append_eq_append_take, List.count_append]
  cases k - s.length with
  | zero => simp
  | succ m => simp [List.count_cons, hc]

theorem balanced_append_other (s : List Char) (c : Char) (ho : c ≠ '(') (hcl : c ≠ ')') :
    Balanced (s ++ [c]) ↔
      (∀ k, (s.take k).count ')' ≤ 0 + (s.take k).count '(') ∧
        0 + s.count '(' = s.count ')' := by
  unfold Balanced
  simp only [count_take_append_other _ c ho, count_take_append_other _ c hcl,
    List.count_append, Nat.zero_add]
  simp [List.count_cons, ho, hcl]

/-- C4: for every formula line that ends with a line break, `checkValidity`
returns `EXIT_SUCCESS` exactly when the parentheses of the line are balanced (no
prefix holds more ')' than '(' and the line holds as many '(' as ')'), it
returns `EXIT_FAILURE` otherwise, and the characters other than the two
parentheses do not change the result. -/
theorem checkValidity_balanced (s : List Char) :
    (checkValidity (s ++ ['\n']) = some EXIT_SUCCESS ↔ Balanced (s ++ ['\n'])) ∧
      (checkValidity (s ++ ['\n']) = some EXIT_SUCCESS ∨
        checkValidity (s ++ ['\n']) = some EXIT_FAILURE) ∧
      checkValidity (s.filter isParen ++ ['\n']) = checkValidity (s ++ ['\n']) := by
  refine ⟨?_, ?_, ?_⟩
  · rw [checkValidity_append_char, balanced_append_other s '\n' (by decide) (by decide),
      ← depthScan_success_iff]
    simp
  · rw [checkValidity_append_char]
    rcases depthScan_cases 0 s with h | h <;> simp [h]
  · rw [checkValidity_append_char, checkValidity_append_char, depthScan_filter]

/-- C5: what `checkValidity` returns on the six sample strings, passed as
written and passed with a line break. As written, the last character is not
examined: `OH)` is reported balanced, and on the empty string the loop bound
wraps around. -/
theorem checkValidity_samples :
    checkValidity (str "OH)") = some EXIT_SUCCESS ∧
      checkValidity (str "") = none ∧
      checkValidity (str "H2O") = some EXIT_SUCCESS ∧
      checkValidity (str "Ca(OH)2") = some EXIT_SUCCESS ∧
      checkValidity (str "(OH") = some EXIT_FAILURE ∧
      checkValidity (str ")(") = some EXIT_FAILURE ∧
      checkValidity (str "\n") = some EXIT_SUCCESS ∧
      checkValidity (str "H2O\n") = some EXIT_SUCCESS ∧
      checkValidity (str "Ca(OH)2\n") = some EXIT_SUCCESS ∧
      checkValidity (str "(OH\n") = some EXIT_FAILURE ∧
      checkValidity (str "OH)\n") = some EXIT_FAILURE ∧
      checkValidity (str ")(\n") = some EXIT_FAILURE := by
  decide

/-! ## Proton summation -/

theorem readSymbolBounded_run {buffer : CString} {i : Nat} {c : Char} {lows rest : List Char}
    (h : buffer.drop i = (c :: lows) ++ rest) (hl : ∀ x ∈ lows, isLowerCase x = true)
    (hr : startsWith isLowerCase rest = false) :
    readSymbolBounded buffer i = (c :: lows, i + lows.length) := by
  have h1 : buffer.drop i = c :: (lows ++ rest) := by simpa using h
  have hc := drop_cons_charAt h1
  have hs := drop_cons_succ h1
  have hn := charAt_succ_of_drop h1
  unfold readSymbolBounded
  cases lows with
  | nil =>
    have : isLowerCase (charAt buffer (i + 1)) = false := by
      rw [hn]; exact startsWith_false_headD isLowerCase_NUL (by simpa using hr)
    simp [this, hc]
  | cons l1 ls =>
    have h2 : isLowerCase (charAt buffer (i + 1)) = true := by
      rw [hn]; exact hl l1 (by simp)
    have h3 : i + 1 < strlen buffer := drop_cons_lt hs
    rw [if_pos ⟨h3, h2⟩, hs, symbolLoop_run (l1 :: ls) rest (i + 1) [charAt buffer i] hl hr, hc]
    simp
    omega

theorem number_loop_end {buffer : CString} (table : PeriodicTable) (fuel : Nat) {i : Nat}
    (number : Int) (h : strlen buffer ≤ i) :
    getMoleculeNumberLoop buffer table fuel i number = some number := by
  have : ¬ i < strlen buffer := by omega
  cases fuel <;> simp [getMoleculeNumberLoop, this]

theorem number_step_symbol {buffer : CString} (table : PeriodicTable) (fuel : Nat) {i : Nat}
    (number : Int) {c : Char} {lows rest : List Char}
    (h : buffer.drop i = (c :: lows) ++ rest) (hu : isUpperCase c = true)
    (hl : ∀ x ∈ lows, isLowerCase x = true) (hr : startsWith isLowerCase rest = false) :
    getMoleculeNumberLoop buffer table (fuel + 1) i number =
      getMoleculeNumberLoop buffer table fuel (i + (c :: lows).length)
        (number + findMoleculeNumber (c :: lows) table) := by
  have h1 : buffer.drop i = c :: (lows ++ rest) := by simpa using h
  have hc := drop_cons_charAt h1
  have hlt := drop_cons_lt h1
  rw [getMoleculeNumberLoop, if_pos hlt, hc, if_pos hu, readSymbolBounded_run h hl hr]
  simp only [List.length_cons]
  rw [show i + lows.length + 1 = i + (lows.length + 1) by omega]

/-- Summing over `n` copies of a chunk, given the sum over one copy. -/
theorem number_run_replicate (table : PeriodicTable) (x : List Char) (a : Nat) (v : Int)
    (hx : startsWith isUpperCase x = true)
    (hone : ∀ (buffer : CString) (i : Nat) (post : List Char) (number : Int) (fuel : Nat),
      buffer.drop i = x ++ post → startsWith isLowerCase post = false →
      getMoleculeNumberLoop buffer table (fuel + a) i number =
        getMoleculeNumberLoop buffer table fuel (i + x.length) (number + v))
    (n : Nat) :
    ∀ (buffer : CString) (i : Nat) (post : List Char) (number : Int) (fuel : Nat),
      buffer.drop i = (List.replicate n x).flatten ++ post →
      startsWith isLowerCase post = false →
      getMoleculeNumberLoop buffer table (fuel + n * a) i number =
        getMoleculeNumberLoop buffer table fuel (i + (List.replicate n x).flatten.length)
          (number + v * (n : Int)) := by
  induction n with
  | zero =>
    intro buffer i post number fuel _ _
    simp
  | succ k ih =>
    intro buffer i post number fuel h hp
    have h1 : buffer.drop i = x ++ ((List.replicate k x).flatten ++ post) := by
      simpa [List.replicate_succ] using h
    have hnext : startsWith isLowerCase ((List.replicate k x).flatten ++ post) = false := by
      cases k with
      | zero => simpa using hp
      | succ m =>
        have hup : startsWith isUpperCase ((List.replicate (m + 1) x).flatten ++ post) = true :=
          flatten_replicate_pos_startsWith (by omega) hx post
        cases hE : (List.replicate (m + 1) x).flatten ++ post with
        | nil => rfl
        | cons y ys =>
          rw [hE] at hup
          exact upper_not_lower (by simpa [startsWith] using hup)
    have hs1 := hone buffer i _ number (fuel + k * a) h1 hnext
    have hs2 := ih buffer (i + x.length) post (number + v) fuel (drop_append_add h1) hp
    rw [show fuel + (k + 1) * a = fuel + k * a + a by rw [Nat.succ_mul]; omega, hs1, hs2]
    congr 1
    · simp [List.replicate_succ]; omega
    · push_cast; ring

theorem expand_append_startsWith {table : PeriodicTable} (f : Formula)
    (hwf : f.wellFormed table = true) (post : List Char)
    (hp : startsWith isLowerCase post = false) :
    startsWith isLowerCase (f.expand ++ post) = false := by
  by_cases hne : f = .nil
  · subst hne; simpa [Formula.expand] using hp
  · have hup := startsWith_append_of_true post (expand_startsWith f hwf hne)
    cases hE : f.expand ++ post with
    | nil => rfl
    | cons y ys =>
      rw [hE] at hup
      exact upper_not_lower (by simpa [startsWith] using hup)

theorem number_run_expand {table : PeriodicTable} (f : Formula)
    (hwf : f.wellFormed table = true) :
    ∀ (buffer : CString) (i : Nat) (post : List Char) (number : Int) (fuel : Nat),
      buffer.drop i = f.expand ++ post → startsWith isLowerCase post = false →
      getMoleculeNumberLoop buffer table (fuel + f.atoms) i number =
        getMoleculeNumberLoop buffer table fuel (i + f.expand.length)
          (number + f.protons table) := by
  induction f with
  | nil =>
    intro buffer i post number fuel _ _
    simp [Formula.atoms, Formula.expand, Formula.protons]
  | sym name mult rest ih =>
    intro buffer i post number fuel h hp
    obtain ⟨hn, -, -, hr⟩ := wellFormed_sym hwf
    obtain ⟨c, lows, rfl, hu, hlows⟩ := isSymbolName_cases hn
    have h1 : buffer.drop i
        = (List.replicate (timesOf mult) (c :: lows)).flatten ++ (rest.expand ++ post) := by
      simpa [Formula.expand] using h
    have hrp := expand_append_startsWith rest hr post hp
    have hone : ∀ (buffer : CString) (i : Nat) (post : List Char) (number : Int) (fuel : Nat),
        buffer.drop i = (c :: lows) ++ post → startsWith isLowerCase post = false →
        getMoleculeNumberLoop buffer table (fuel + 1) i number =
          getMoleculeNumberLoop buffer table fuel (i + (c :: lows).length)
            (number + findMoleculeNumber (c :: lows) table) :=
      fun buffer i post number fuel hb hq =>
        number_step_symbol table fuel number hb hu hlows hq
    have hs1 := number_run_replicate table (c :: lows) 1 _ (by simpa [startsWith] using hu)
      hone (timesOf mult) buffer i _ number (fuel + rest.atoms) h1 hrp
    have hs2 := ih hr buffer _ post (number +
      findMoleculeNumber (c :: lows) table * (timesOf mult : Int)) fuel
      (drop_append_add h1) hp
    simp only [Formula.atoms]
    rw [show fuel + (timesOf mult + rest.atoms) = fuel + rest.atoms + timesOf mult * 1 by omega,
      hs1, hs2]
    congr 1
    · simp [Formula.expand]; omega
    · simp [Formula.protons]; ring
  | group body mult rest ihb ih =>
    intro buffer i post number fuel h hp
    obtain ⟨hb, hwb, -, hr⟩ := wellFormed_group hwf
    have h1 : buffer.drop i
        = (List.replicate (timesOf mult) body.expand).flatten ++ (rest.expand ++ post) := by
      simpa [Formula.expand] using h
    have hrp := expand_append_startsWith rest hr post hp
    have hs1 := number_run_replicate table body.expand body.atoms (body.protons table)
      (expand_startsWith body hwb hb) (ihb hwb) (timesOf mult) buffer i _ number
      (fuel + rest.atoms) h1 hrp
    have hs2 := ih hr buffer _ post (number + body.protons table * (timesOf mult : Int)) fuel
      (drop_append_add h1) hp
    simp only [Formula.atoms]
    rw [show fuel + (timesOf mult * body.atoms + rest.atoms)
        = fuel + rest.atoms + timesOf mult * body.atoms by omega, hs1, hs2]
    congr 1
    · simp [Formula.expand]; omega
    · simp [Formula.protons]; ring

theorem length_flatten_replicate (n : Nat) (x : List Char) :
    (List.replicate n x).flatten.length = n * x.length := by
  induction n with
  | zero => simp
  | succ k ih => rw [List.replicate_succ, List.flatten_cons, List.length_append, ih, Nat.succ_mul]; omega

theorem atoms_le_length {table : PeriodicTable} (f : Formula)
    (hwf : f.wellFormed table = true) : f.atoms ≤ f.expand.length := by
  induction f with
  | nil => simp [Formula.atoms]
  | sym name mult rest ih =>
    obtain ⟨hn, -, -, hr⟩ := wellFormed_sym hwf
    obtain ⟨c, lows, rfl, -, -⟩ := isSymbolName_cases hn
    have := ih hr
    have h2 : timesOf mult * 1 ≤ timesOf mult * (c :: lows).length :=
      Nat.mul_le_mul_left _ (by simp)
    simp only [Formula.atoms, Formula.expand, List.length_append, length_flatten_replicate]
    omega
  | group body mult rest ihb ih =>
    obtain ⟨-, hwb, -, hr⟩ := wellFormed_group hwf
    have := ih hr
    have h2 : timesOf mult * body.atoms ≤ timesOf mult * body.expand.length :=
      Nat.mul_le_mul_left _ (ihb hwb)
    simp only [Formula.atoms, Formula.expand, List.length_append, length_flatten_replicate]
    omega

theorem getMoleculeNumber_expand {table : PeriodicTable} (f : Formula)
    (hwf : f.wellFormed table = true) :
    getMoleculeNumber f.expand table = some (f.protons table) := by
  have hlen := atoms_le_length f hwf
  unfold getMoleculeNumber
  have hrun := number_run_expand f hwf f.expand 0 [] 0 (f.expand.length - f.atoms)
    (by simp) rfl
  rw [show f.expand.length - f.atoms + f.atoms = strlen f.expand by
    simp [strlen]; omega] at hrun
  rw [hrun, number_loop_end table _ _ (by simp [strlen])]
  simp

theorem getMoleculeNumber_symbol (table : PeriodicTable) {name : CString}
    (hn : isSymbolName name = true) :
    getMoleculeNumber name table = some (findMoleculeNumber name table) := by
  obtain ⟨c, lows, rfl, hu, hlows⟩ := isSymbolName_cases hn
  unfold getMoleculeNumber
  have hdrop : (c :: lows).drop 0 = (c :: lows) ++ [] := by simp
  have hstep := number_step_symbol table lows.length 0 hdrop hu hlows rfl
  rw [show strlen (c :: lows) = lows.length + 1 by simp [strlen], hstep,
    number_loop_end table _ _ (by simp [strlen])]
  simp

theorem drainLoop_ofList (l x : List CString) :
    drainLoop l.length l (Stack.ofList x)
      = (EXIT_SUCCESS, Stack.ofList [], Stack.ofList (l.reverse ++ x)) := by
  induction l generalizing x with
  | nil => simp [drainLoop, Stack.ofList]
  | cons e es ih =>
    have := ih (e :: x)
    simp only [List.length_cons]
    rw [drainLoop]
    simp [pop, this]

theorem writeLoop_ofList (l : List CString) (out : CString) :
    writeLoop l.length l out = (EXIT_SUCCESS, Stack.ofList [], out ++ l.flatten) := by
  induction l generalizing out with
  | nil => simp [writeLoop, Stack.ofList]
  | cons e es ih =>
    have := ih (out ++ e)
    simp only [List.length_cons]
    rw [writeLoop]
    simp [pop, this]

theorem printStack_ofList (l : List CString) :
    printStack (Stack.ofList l)
      = (EXIT_SUCCESS, initStack, l.reverse.flatten ++ ['\n']) := by
  unfold printStack
  simp only [ofList_size, ofList_top]
  rw [initStack_eq, drainLoop_ofList]
  simp only [ofList_size, ofList_top]
  rw [writeLoop_ofList]
  simp

theorem sumLoop_ofList (table : PeriodicTable) (l : List CString) (g : CString → Int)
    (hg : ∀ e ∈ l, getMoleculeNumber e table = some (g e)) (acc : Int) :
    sumLoop table l.length l acc
      = some (EXIT_SUCCESS, Stack.ofList [], acc + (l.map g).sum) := by
  induction l generalizing acc with
  | nil => simp [sumLoop, Stack.ofList]
  | cons e es ih =>
    have := ih (fun x hx => hg x (by simp [hx])) (acc + g e)
    simp only [List.length_cons]
    rw [sumLoop]
    simp [pop, hg e (by simp), this]
    ring

theorem printMoleculeNumber_ofList (table : PeriodicTable) (l : List CString)
    (g : CString → Int) (hg : ∀ e ∈ l, getMoleculeNumber e table = some (g e)) :
    printMoleculeNumber (Stack.ofList l) table
      = some (EXIT_SUCCESS, initStack, some (l.reverse.map g).sum) := by
  unfold printMoleculeNumber
  simp only [ofList_size, ofList_top]
  rw [initStack_eq, drainLoop_ofList]
  simp only [ofList_size, ofList_top, List.append_nil]
  rw [sumLoop_ofList table l.reverse g (fun e he => hg e (by simpa using he)) 0]
  simp

/-- The number the summation finds in one entry, 0 when it does not end. -/
theorem entries_numbers {table : PeriodicTable} (f : Formula)
    (hwf : f.wellFormed table = true) :
    (∀ e ∈ f.entries,
      getMoleculeNumber e table = some ((getMoleculeNumber e table).getD 0)) ∧
    (f.entries.map fun e => (getMoleculeNumber e table).getD 0).sum = f.protons table := by
  induction f with
  | nil => simp [Formula.entries, Formula.protons]
  | sym name mult rest ih =>
    obtain ⟨hn, -, -, hr⟩ := wellFormed_sym hwf
    obtain ⟨ih1, ih2⟩ := ih hr
    have hv := getMoleculeNumber_symbol table hn
    constructor
    · intro e he
      simp only [Formula.entries, List.mem_append, List.mem_replicate] at he
      rcases he with ⟨-, rfl⟩ | he
      · rw [hv]; rfl
      · exact ih1 e he
    · simp [Formula.entries, Formula.protons, ih2, hv]
      ring
  | group body mult rest _ ih =>
    obtain ⟨-, hwb, -, hr⟩ := wellFormed_group hwf
    obtain ⟨ih1, ih2⟩ := ih hr
    have hv := getMoleculeNumber_expand body hwb
    constructor
    · intro e he
      simp only [Formula.entries, List.mem_append, List.mem_replicate] at he
      rcases he with ⟨-, rfl⟩ | he
      · rw [hv]; rfl
      · exact ih1 e he
    · simp [Formula.entries, Formula.protons, ih2, hv]
      ring

/-! ## The loop of `openMoleculeType` as iterated passes -/

theorem loop_succ (buffer : CString) (table : PeriodicTable) (fuel i : Nat) (stack : Stack) :
    openMoleculeTypeLoop buffer table (fuel + 1) i stack =
      if i < strlen buffer then
        match loopPass buffer table i stack with
        | .inl r => some r
        | .inr (j, s) => openMoleculeTypeLoop buffer table fuel j s
      else some (.done, stack) := by
  rw [openMoleculeTypeLoop]
  unfold loopPass
  by_cases hlt : i < strlen buffer
  · simp only [if_pos hlt]
    by_cases hu : isUpperCase (charAt buffer i) = true
    · simp only [if_pos hu]
      split <;> rfl
    · simp only [if_neg hu]
      by_cases ho : charAt buffer i = '('
      · simp only [if_pos ho]
      · simp only [if_neg ho]
        by_cases hc : charAt buffer i = ')'
        · simp only [if_pos hc]
          rcases closeGroup stack with ⟨st, s1, b2⟩
          simp only
          split <;> rfl
        · simp only [if_neg hc]
          by_cases hd : isDigitChar (charAt buffer i) = true
          · simp only [if_pos hd]
            rcases pop stack [] with ⟨st, s1, b2⟩
            simp only
            split <;> rfl
          · simp only [if_neg hd]
            split <;> rfl
  · simp only [if_neg hlt]

theorem symbolLoop_eq (l : List Char) (i : Nat) (molecule : CString) :
    symbolLoop l i molecule
      = (molecule ++ l.takeWhile isLowerCase, i + (l.takeWhile isLowerCase).length) := by
  induction l generalizing i molecule with
  | nil => simp [symbolLoop]
  | cons c t ih =>
    by_cases hc : isLowerCase c = true
    · simp [symbolLoop, hc, ih]; omega
    · simp [symbolLoop, hc]

theorem findNumberLoop_eq (l : List Char) (index num : Nat) :
    findNumberLoop l index num
      = ((l.takeWhile isDigitChar).foldl (fun n c => n * 10 + digitValue c) num,
          index + (l.takeWhile isDigitChar).length) := by
  induction l generalizing index num with
  | nil => simp [findNumberLoop]
  | cons c t ih =>
    by_cases hc : isDigitChar c = true
    · simp [findNumberLoop, hc, ih]; omega
    · simp [findNumberLoop, hc]

theorem takeWhile_nil_of_headD {p : Char → Bool} {l : List Char}
    (h : p (l.headD NUL) = false) : l.takeWhile p = [] := by
  cases l with
  | nil => rfl
  | cons a t =>
    have : p a = false := by simpa using h
    simp [this]

theorem readSymbol_eq (buffer : CString) (i : Nat) :
    readSymbol buffer i
      = (charAt buffer i :: (buffer.drop (i + 1)).takeWhile isLowerCase,
          i + ((buffer.drop (i + 1)).takeWhile isLowerCase).length) := by
  unfold readSymbol
  by_cases h : isLowerCase (charAt buffer (i + 1)) = true
  · rw [if_pos h, symbolLoop_eq]
    have : 0 < ((buffer.drop (i + 1)).takeWhile isLowerCase).length := by
      rw [charAt_eq_headD] at h
      cases hE : buffer.drop (i + 1) with
      | nil => rw [hE] at h; simp [isLowerCase_NUL] at h
      | cons a t =>
        rw [hE] at h
        have : isLowerCase a = true := by simpa using h
        simp [this]
    simp only [List.singleton_append]
    congr 1
    omega
  · rw [if_neg h]
    have h2 : isLowerCase ((buffer.drop (i + 1)).headD NUL) = false := by
      rw [← charAt_eq_headD]; simpa using h
    simp [takeWhile_nil_of_headD h2]

theorem closeTimes_snd (buffer : CString) (i : Nat) :
    (closeTimes buffer i).2 = i + ((buffer.drop (i + 1)).takeWhile isDigitChar).length := by
  unfold closeTimes
  by_cases h : i + 1 < strlen buffer ∧ isDigitChar (charAt buffer (i + 1)) = true
  · rw [if_pos h]
    unfold findNumber
    rw [findNumberLoop_eq]
    have : 0 < ((buffer.drop (i + 1)).takeWhile isDigitChar).length := by
      have h1 := h.2
      rw [charAt_eq_headD] at h1
      cases hE : buffer.drop (i + 1) with
      | nil => rw [hE] at h1; simp [isDigitChar_NUL] at h1
      | cons a t =>
        rw [hE] at h1
        have : isDigitChar a = true := by simpa using h1
        simp [this]
    simp only
    omega
  · rw [if_neg h]
    have h2 : isDigitChar ((buffer.drop (i + 1)).headD NUL) = false := by
      rw [← charAt_eq_headD]
      by_cases hlt : i + 1 < strlen buffer
      · have := fun hd => h ⟨hlt, hd⟩
        simpa using this
      · have : buffer.drop (i + 1) = [] :=
          List.drop_eq_nil_of_le (by unfold strlen at hlt; omega)
        rw [charAt_eq_headD, this]
        exact isDigitChar_NUL
    simp [takeWhile_nil_of_headD h2]

theorem digitTimes_snd (buffer : CString) (i : Nat) (hlt : i < strlen buffer)
    (hd : isDigitChar (charAt buffer i) = true) :
    (digitTimes buffer i).2 = i + ((buffer.drop (i + 1)).takeWhile isDigitChar).length := by
  have hdrop : buffer.drop i = charAt buffer i :: buffer.drop (i + 1) := by
    have hl : i < buffer.length := hlt
    rw [List.drop_eq_getElem_cons hl]
    congr 1
    simp [charAt, List.getD_eq_getElem?_getD, List.getElem?_eq_getElem hl]
  unfold digitTimes
  by_cases h : i + 1 < strlen buffer ∧ isDigitChar (charAt buffer (i + 1)) = true
  · rw [if_pos h]
    unfold findNumber
    rw [findNumberLoop_eq, hdrop, List.takeWhile_cons_of_pos hd]
    simp only [List.length_cons]
    omega
  · rw [if_neg h]
    have h2 : isDigitChar ((buffer.drop (i + 1)).headD NUL) = false := by
      rw [← charAt_eq_headD]
      by_cases hlt : i + 1 < strlen buffer
      · have := fun hd => h ⟨hlt, hd⟩
        simpa using this
      · have : buffer.drop (i + 1) = [] :=
          List.drop_eq_nil_of_le (by unfold strlen at hlt; omega)
        rw [charAt_eq_headD, this]
        exact isDigitChar_NUL
    simp [takeWhile_nil_of_headD h2]

theorem charAt_add_drop (buffer : CString) (i k : Nat) :
    charAt buffer (i + k) = (buffer.drop i).getD k NUL := by
  simp [charAt, List.getD_eq_getElem?_getD, List.getElem?_drop]

theorem takeWhile_getD {q : Char → Bool} (l : List Char) (k : Nat)
    (hk : k < (l.takeWhile q).length) : q (l.getD k NUL) = true := by
  induction l generalizing k with
  | nil => simp at hk
  | cons a t ih =>
    by_cases ha : q a = true
    · rw [List.takeWhile_cons_of_pos ha] at hk
      cases k with
      | zero => simpa using ha
      | succ m =>
        have := ih m (by simpa using hk)
        simpa using this
    · rw [List.takeWhile_cons_of_neg ha] at hk
      simp at hk

/-- The characters a reader run steps over all satisfy its test. -/
theorem charAt_takeWhile {q : Char → Bool} (buffer : CString) (i p : Nat) (hip : i < p)
    (hp : p ≤ i + ((buffer.drop (i + 1)).takeWhile q).length) :
    q (charAt buffer p) = true := by
  have := takeWhile_getD (q := q) (buffer.drop (i + 1)) (p - (i + 1)) (by omega)
  rw [← charAt_add_drop] at this
  rwa [show i + 1 + (p - (i + 1)) = p by omega] at this

/-- What a pass that goes on steps over: the index grows, and every index
between the old and the new one holds a digit, or a lowercase letter of the
symbol that starts at the uppercase letter of the old index. -/
theorem loopPass_skips {buffer : CString} {table : PeriodicTable} {i j : Nat}
    {s t : Stack} (hlt : i < strlen buffer) (h : loopPass buffer table i s = .inr (j, t)) :
    i < j ∧ ∀ p, i < p → p < j →
      isDigitChar (charAt buffer p) = true ∨
        (isUpperCase (charAt buffer i) = true ∧
          ∀ q, i < q → q ≤ p → isLowerCase (charAt buffer q) = true) := by
  unfold loopPass at h
  by_cases hu : isUpperCase (charAt buffer i) = true
  · rw [if_pos hu] at h
    split at h
    · simp only [Sum.inr.injEq, Prod.mk.injEq] at h
      obtain ⟨hj, -⟩ := h
      rw [readSymbol_eq] at hj
      simp only at hj
      refine ⟨by omega, fun p hp1 hp2 => Or.inr ⟨hu, fun q hq1 hq2 => ?_⟩⟩
      exact charAt_takeWhile buffer i q hq1 (by omega)
    · cases h
  · rw [if_neg hu] at h
    by_cases ho : charAt buffer i = '('
    · rw [if_pos ho] at h
      simp only [Sum.inr.injEq, Prod.mk.injEq] at h
      exact ⟨by omega, fun p hp1 hp2 => by omega⟩
    · rw [if_neg ho] at h
      by_cases hc : charAt buffer i = ')'
      · rw [if_pos hc] at h
        split at h
        · cases h
        · simp only [Sum.inr.injEq, Prod.mk.injEq] at h
          obtain ⟨hj, -⟩ := h
          rw [closeTimes_snd] at hj
          refine ⟨by omega, fun p hp1 hp2 => Or.inl ?_⟩
          exact charAt_takeWhile buffer i p hp1 (by omega)
      · rw [if_neg hc] at h
        by_cases hd : isDigitChar (charAt buffer i) = true
        · rw [if_pos hd] at h
          split at h
          · cases h
          · simp only [Sum.inr.injEq, Prod.mk.injEq] at h
            obtain ⟨hj, -⟩ := h
            rw [digitTimes_snd buffer i hlt hd] at hj
            refine ⟨by omega, fun p hp1 hp2 => Or.inl ?_⟩
            exact charAt_takeWhile buffer i p hp1 (by omega)
        · rw [if_neg hd] at h
          split at h
          · cases h
          · simp only [Sum.inr.injEq, Prod.mk.injEq] at h
            exact ⟨by omega, fun p hp1 hp2 => by omega⟩

theorem loopPass_inl_status {buffer : CString} {table : PeriodicTable} {i : Nat}
    {s st : Stack} {e : Exit} (h : loopPass buffer table i s = .inl (e, st)) :
    e.status = EXIT_FAILURE := by
  unfold loopPass at h
  repeat' split at h
  all_goals (cases h; try rfl)

/-- An invariant that every pass keeps holds when the loop ends, and the loop
does end: with fuel for the characters that are left it returns either at the
end of the buffer or from inside a pass. -/
theorem loop_invariant (buffer : CString) (table : PeriodicTable) (Inv : Nat → Stack → Prop)
    (hstep : ∀ i s j t, i < strlen buffer → Inv i s →
      loopPass buffer table i s = .inr (j, t) → Inv j t) :
    ∀ (fuel i : Nat) (s : Stack), strlen buffer ≤ fuel + i → Inv i s →
      ∃ e st, openMoleculeTypeLoop buffer table fuel i s = some (e, st) ∧
        ((e = .done ∧ ∃ j, strlen buffer ≤ j ∧ Inv j st) ∨
          (∃ k u, k < strlen buffer ∧ Inv k u ∧ loopPass buffer table k u = .inl (e, st))) := by
  intro fuel
  induction fuel with
  | zero =>
    intro i s hf hI
    refine ⟨.done, s, ?_, Or.inl ⟨rfl, i, by omega, hI⟩⟩
    exact loop_end table 0 s (by omega)
  | succ n ih =>
    intro i s hf hI
    by_cases hlt : i < strlen buffer
    · rw [loop_succ, if_pos hlt]
      cases hP : loopPass buffer table i s with
      | inl r =>
        obtain ⟨e, st⟩ := r
        exact ⟨e, st, rfl, Or.inr ⟨i, s, hlt, hI, hP⟩⟩
      | inr r =>
        obtain ⟨j, t⟩ := r
        have hadv := (loopPass_skips hlt hP).1
        exact ih j t (by omega) (hstep i s j t hlt hI hP)
    · refine ⟨.done, s, ?_, Or.inl ⟨rfl, i, by omega, hI⟩⟩
      exact loop_end table _ s (by omega)

/-! ## The status of a run -/

theorem isMolecule_failure {table : PeriodicTable} {molecule : CString}
    (h : ∀ m ∈ table, m.name ≠ molecule) : isMolecule molecule table = EXIT_FAILURE := by
  induction table with
  | nil => rfl
  | cons a t ih =>
    rw [isMolecule, if_neg (h a (by simp))]
    exact ih (fun m hm => h m (by simp [hm]))

theorem openMoleculeType_of_exit {buffer : CString} {stack st : Stack}
    {table : PeriodicTable} {e : Exit}
    (h : openMoleculeTypeLoop buffer table (strlen buffer) 0 stack = some (e, st)) :
    openMoleculeType buffer stack table = some (e.status, st) := by
  simp [openMoleculeType, openMoleculeTypeExit, h]

/-! ## Readers on arbitrary buffers -/

theorem drop_eq_charAt_cons {buffer : CString} {i : Nat} (hlt : i < strlen buffer) :
    buffer.drop i = charAt buffer i :: buffer.drop (i + 1) := by
  have hl : i < buffer.length := hlt
  rw [List.drop_eq_getElem_cons hl]
  congr 1
  simp [charAt, List.getD_eq_getElem?_getD, List.getElem?_eq_getElem hl]

theorem digitTimes_fst (buffer : CString) (i : Nat) (hlt : i < strlen buffer)
    (hd : isDigitChar (charAt buffer i) = true) :
    (digitTimes buffer i).1 = decimalValue ((buffer.drop i).takeWhile isDigitChar) := by
  have hdrop := drop_eq_charAt_cons hlt
  unfold digitTimes
  by_cases h : i + 1 < strlen buffer ∧ isDigitChar (charAt buffer (i + 1)) = true
  · rw [if_pos h]
    unfold findNumber
    rw [findNumberLoop_eq]
    rfl
  · rw [if_neg h]
    have h2 : isDigitChar ((buffer.drop (i + 1)).headD NUL) = false := by
      rw [← charAt_eq_headD]
      by_cases hlt : i + 1 < strlen buffer
      · have := fun hd => h ⟨hlt, hd⟩
        simpa using this
      · have : buffer.drop (i + 1) = [] :=
          List.drop_eq_nil_of_le (by unfold strlen at hlt; omega)
        rw [charAt_eq_headD, this]
        exact isDigitChar_NUL
    rw [hdrop, List.takeWhile_cons_of_pos hd, takeWhile_nil_of_headD h2]
    simp [decimalValue]

theorem closeTimes_fst (buffer : CString) (i : Nat) :
    (closeTimes buffer i).1 = timesOf ((buffer.drop (i + 1)).takeWhile isDigitChar) := by
  unfold closeTimes
  by_cases h : i + 1 < strlen buffer ∧ isDigitChar (charAt buffer (i + 1)) = true
  · rw [if_pos h]
    unfold findNumber
    rw [findNumberLoop_eq]
    have hne : (buffer.drop (i + 1)).takeWhile isDigitChar ≠ [] := by
      have h1 := h.2
      rw [charAt_eq_headD] at h1
      cases hE : buffer.drop (i + 1) with
      | nil => rw [hE] at h1; simp [isDigitChar_NUL] at h1
      | cons a t =>
        rw [hE] at h1
        have : isDigitChar a = true := by simpa using h1
        simp [this]
    simp only [timesOf, if_neg hne]
    rfl
  · rw [if_neg h]
    have h2 : isDigitChar ((buffer.drop (i + 1)).headD NUL) = false := by
      rw [← charAt_eq_headD]
      by_cases hlt : i + 1 < strlen buffer
      · have := fun hd => h ⟨hlt, hd⟩
        simpa using this
      · have : buffer.drop (i + 1) = [] :=
          List.drop_eq_nil_of_le (by unfold strlen at hlt; omega)
        rw [charAt_eq_headD, this]
        exact isDigitChar_NUL
    simp [takeWhile_nil_of_headD h2, timesOf]

theorem takeWhile_stop {q : Char → Bool} (hN : q NUL = false) (l : List Char) :
    q (l.getD (l.takeWhile q).length NUL) = false := by
  induction l with
  | nil => simpa using hN
  | cons a t ih =>
    by_cases ha : q a = true
    · rw [List.takeWhile_cons_of_pos ha]
      simpa using ih
    · rw [List.takeWhile_cons_of_neg ha]
      simpa using ha

/-- The character after a reader run fails the test of the run. -/
theorem charAt_after_run {q : Char → Bool} (hN : q NUL = false) (buffer : CString) (i : Nat) :
    q (charAt buffer (i + ((buffer.drop (i + 1)).takeWhile q).length + 1)) = false := by
  have := takeWhile_stop hN (buffer.drop (i + 1))
  rw [← charAt_add_drop] at this
  rwa [show i + 1 + ((buffer.drop (i + 1)).takeWhile q).length
    = i + ((buffer.drop (i + 1)).takeWhile q).length + 1 by omega] at this

theorem take_length_takeWhile (q : Char → Bool) (l : List Char) :
    l.take (l.takeWhile q).length = l.takeWhile q := by
  induction l with
  | nil => rfl
  | cons a t ih =>
    by_cases ha : q a = true
    · rw [List.takeWhile_cons_of_pos ha]
      simp [ih]
    · rw [List.takeWhile_cons_of_neg ha]
      rfl

/-- The prefix after a pass over `buffer[i]` and a reader run behind it. -/
theorem take_after_run (q : Char → Bool) {buffer : CString} {i : Nat}
    (hlt : i < strlen buffer) :
    buffer.take (i + ((buffer.drop (i + 1)).takeWhile q).length + 1)
      = buffer.take i ++ charAt buffer i :: (buffer.drop (i + 1)).takeWhile q := by
  rw [show i + ((buffer.drop (i + 1)).takeWhile q).length + 1
    = i + (((buffer.drop (i + 1)).takeWhile q).length + 1) by omega, List.take_add,
    drop_eq_charAt_cons hlt, List.take_succ_cons, take_length_takeWhile]

theorem take_succ_charAt {buffer : CString} {i : Nat} (hlt : i < strlen buffer) :
    buffer.take (i + 1) = buffer.take i ++ [charAt buffer i] := by
  rw [List.take_add, drop_eq_charAt_cons hlt]
  rfl

theorem count_takeWhile_zero {q : Char → Bool} {x : Char} (hx : q x = false)
    (l : List Char) : (l.takeWhile q).count x = 0 := by
  rw [List.count_eq_zero]
  intro hmem
  have := List.mem_takeWhile_imp hmem
  rw [hx] at this
  cases this

/-! ## Group closure on a stack without anomalies -/

theorem atomEntry_ne_marker {e : CString} (h : atomEntry e = true) : e ≠ openMarker := by
  apply upper_starts_ne_marker
  simp only [atomEntry, Bool.and_eq_true] at h
  exact h.1

theorem closeLoop_no_marker (es : List CString) (retval buffer2 : CString)
    (hes : ∀ e ∈ es, e ≠ openMarker) (hr : retval ≠ openMarker) :
    (closeLoop es.length es retval buffer2).1 = EXIT_FAILURE := by
  induction es generalizing retval buffer2 with
  | nil => simp [closeLoop, hr]
  | cons e es ih =>
    have he : e ≠ openMarker := hes e (by simp)
    have := ih e (retval ++ buffer2) (fun x hx => hes x (by simp [hx])) he
    simp only [List.length_cons]
    rw [closeLoop, if_neg hr]
    simpa [pop] using this

theorem split_at_marker (l : List CString) :
    (∀ e ∈ l, e ≠ openMarker) ∨
      ∃ es rest, l = es ++ openMarker :: rest ∧ ∀ e ∈ es, e ≠ openMarker := by
  induction l with
  | nil => exact Or.inl (by simp)
  | cons a t ih =>
    by_cases ha : a = openMarker
    · exact Or.inr ⟨[], t, by simp [ha], by simp⟩
    · rcases ih with h | ⟨es, rest, rfl, hes⟩
      · left
        intro e he
        rcases List.mem_cons.1 he with rfl | h2
        · exact ha
        · exact h e h2
      · right
        refine ⟨a :: es, rest, rfl, ?_⟩
        intro e he
        rcases List.mem_cons.1 he with rfl | h2
        · exact ha
        · exact hes e h2

theorem closeGroup_nil : (closeGroup (Stack.ofList [])).1 = EXIT_FAILURE := by
  simp [closeGroup]

theorem closeGroup_no_marker (e1 : CString) (l : List CString)
    (hl : ∀ e ∈ l, e ≠ openMarker) :
    (closeGroup (Stack.ofList (e1 :: l))).1 = EXIT_FAILURE := by
  unfold closeGroup
  rw [pop_ofList_cons]
  cases l with
  | nil => simp
  | cons e2 l3 =>
    have := closeLoop_no_marker l3 e2 e1 (fun x hx => hl x (by simp [hx])) (hl e2 (by simp))
    simpa using this

/-- On a stack of markers and atom entries whose top is not a marker, the group
closure fails exactly when the stack holds no marker; otherwise it removes the
entries down to the topmost marker and returns their concatenation. -/
theorem closeGroup_cases (l : List CString)
    (hA : ∀ e ∈ l, e = openMarker ∨ atomEntry e = true)
    (hhead : l.head? ≠ some openMarker) :
    (l.count openMarker = 0 ∧ (closeGroup (Stack.ofList l)).1 = EXIT_FAILURE) ∨
      ∃ e1 es rest, l = e1 :: (es ++ openMarker :: rest) ∧
        (∀ e ∈ e1 :: es, atomEntry e = true) ∧
        closeGroup (Stack.ofList l)
          = (EXIT_SUCCESS, Stack.ofList rest, (e1 :: es).reverse.flatten) := by
  cases l with
  | nil => exact Or.inl ⟨rfl, closeGroup_nil⟩
  | cons e1 t =>
    have he1 : e1 ≠ openMarker := by
      intro h; exact hhead (by simp [h])
    have ha1 : atomEntry e1 = true := by
      rcases hA e1 (by simp) with h | h
      · exact absurd h he1
      · exact h
    rcases split_at_marker t with h | ⟨es, rest, rfl, hes⟩
    · left
      refine ⟨?_, closeGroup_no_marker e1 t h⟩
      rw [List.count_eq_zero]
      intro hmem
      rcases List.mem_cons.1 hmem with h1 | h1
      · exact he1 h1.symm
      · exact h _ h1 rfl
    · right
      refine ⟨e1, es, rest, rfl, ?_, closeGroup_ofList e1 es rest hes⟩
      intro e he
      rcases List.mem_cons.1 he with rfl | h2
      · exact ha1
      · rcases hA e (by simp [h2]) with h | h
        · exact absurd h (hes e h2)
        · exact h

theorem startsWith_flatten {p : Char → Bool} (a : List Char) (L : List (List Char))
    (h : startsWith p a = true) : startsWith p (a :: L).flatten = true := by
  rw [List.flatten_cons]
  exact startsWith_append_of_true _ h

/-- The concatenation of atom entries is an atom entry. -/
theorem atomEntry_flatten (L : List CString) (hne : L ≠ [])
    (hL : ∀ e ∈ L, atomEntry e = true) : atomEntry L.flatten = true := by
  cases L with
  | nil => exact absurd rfl hne
  | cons a t =>
    have ha := hL a (by simp)
    simp only [atomEntry, Bool.and_eq_true] at ha ⊢
    refine ⟨startsWith_flatten a t ha.1, ?_⟩
    rw [List.all_eq_true]
    intro c hc
    obtain ⟨e, he, hce⟩ := List.mem_flatten.1 hc
    have := hL e he
    simp only [atomEntry, Bool.and_eq_true, List.all_eq_true] at this
    exact this.2 c hce

theorem atomEntry_symbol {c : Char} (hu : isUpperCase c = true) (l : List Char) :
    atomEntry (c :: l.takeWhile isLowerCase) = true := by
  simp only [atomEntry, Bool.and_eq_true, List.all_eq_true]
  refine ⟨by simpa [startsWith] using hu, ?_⟩
  intro x hx
  rcases List.mem_cons.1 hx with rfl | h
  · simp [isLetter, hu]
  · have := List.mem_takeWhile_imp h
    simp [isLetter, this]

theorem count_marker_replicate {v : CString} (hv : v ≠ openMarker) (n : Nat)
    (l : List CString) :
    (List.replicate n v ++ l).count openMarker = l.count openMarker := by
  rw [List.count_append]
  have : (List.replicate n v).count openMarker = 0 := by
    rw [List.count_eq_zero]
    intro hmem
    exact hv (List.eq_of_mem_replicate hmem).symm
  omega

theorem count_marker_group {e1 : CString} {es rest : List CString}
    (hA : ∀ e ∈ e1 :: es, atomEntry e = true) :
    (e1 :: (es ++ openMarker :: rest)).count openMarker = rest.count openMarker + 1 := by
  have h1 : (e1 :: es).count openMarker = 0 := by
    rw [List.count_eq_zero]
    intro hmem
    exact atomEntry_ne_marker (hA _ hmem) rfl
  have : e1 :: (es ++ openMarker :: rest) = (e1 :: es) ++ openMarker :: rest := rfl
  rw [this, List.count_append, h1]
  simp

/-! ## The scan invariant on proper lines -/

theorem eq_ofList_of_size {s : Stack} (h : s.size = s.top.length) :
    s = Stack.ofList s.top := by
  cases s with
  | mk top size =>
    simp only at h
    subst h
    rfl

theorem scanInv_ofList {buffer : CString} {i : Nat} {l : List CString}
    (hA : ∀ e ∈ l, e = openMarker ∨ atomEntry e = true)
    (hB : (buffer.take i).count '(' = (buffer.take i).count ')' + l.count openMarker)
    (hC : l.head? = some openMarker → 1 ≤ i ∧ charAt buffer (i - 1) = '(')
    (hD : isDigitChar (charAt buffer i) = true →
      i = 0 ∨ isDigitChar (charAt buffer (i - 1)) = false) :
    ScanInv buffer i (Stack.ofList l) :=
  ⟨rfl, hA, hB, hC, hD⟩

theorem head_not_marker {buffer : CString} {i : Nat} {s : Stack} (hP : Proper buffer)
    (hlt : i < strlen buffer) (hI : ScanInv buffer i s)
    (hu : isUpperCase (charAt buffer i) = false) (ho : charAt buffer i ≠ '(') :
    s.top.head? ≠ some openMarker := by
  intro hh
  obtain ⟨-, -, -, hC, -⟩ := hI
  obtain ⟨h1, h2⟩ := hC hh
  rcases hP.1 (i - 1) (by omega) h2 with h | h
  · rw [show i - 1 + 1 = i by omega, hu] at h
    cases h
  · rw [show i - 1 + 1 = i by omega] at h
    exact ho h

theorem scanInv_symbol {buffer : CString} {i : Nat} {s : Stack}
    (hlt : i < strlen buffer) (hI : ScanInv buffer i s)
    (hu : isUpperCase (charAt buffer i) = true) :
    ScanInv buffer (i + ((buffer.drop (i + 1)).takeWhile isLowerCase).length + 1)
      (push s (charAt buffer i :: (buffer.drop (i + 1)).takeWhile isLowerCase)) := by
  obtain ⟨hs, hA, hB, hC, hD⟩ := hI
  have hatom := atomEntry_symbol hu (buffer.drop (i + 1))
  have hno : charAt buffer i ≠ '(' := by
    intro h; rw [h] at hu; revert hu; decide
  have hnc : charAt buffer i ≠ ')' := by
    intro h; rw [h] at hu; revert hu; decide
  rw [eq_ofList_of_size hs, push_ofList]
  refine scanInv_ofList ?_ ?_ ?_ ?_
  · intro e he
    rcases List.mem_cons.1 he with rfl | h
    · exact Or.inr hatom
    · exact hA e h
  · rw [take_after_run isLowerCase hlt, List.count_append, List.count_append,
      List.count_cons_of_ne (Ne.symm hno), List.count_cons_of_ne (Ne.symm hnc),
      count_takeWhile_zero (by decide), count_takeWhile_zero (by decide),
      List.count_cons_of_ne (Ne.symm (atomEntry_ne_marker hatom))]
    simpa using hB
  · intro hh
    simp only [List.head?_cons, Option.some.injEq] at hh
    exact absurd hh (atomEntry_ne_marker hatom)
  · intro _
    right
    rw [Nat.add_sub_cancel]
    by_cases h0 : ((buffer.drop (i + 1)).takeWhile isLowerCase).length = 0
    · rw [h0]; exact upper_not_digit hu
    · have := charAt_takeWhile (q := isLowerCase) buffer i
        (i + ((buffer.drop (i + 1)).takeWhile isLowerCase).length) (by omega) (le_refl _)
      cases hb : isDigitChar (charAt buffer
          (i + ((buffer.drop (i + 1)).takeWhile isLowerCase).length))
      · rfl
      · rw [digit_not_lower hb] at this; cases this

theorem scanInv_open {buffer : CString} {i : Nat} {s : Stack}
    (hlt : i < strlen buffer) (hI : ScanInv buffer i s) (ho : charAt buffer i = '(') :
    ScanInv buffer (i + 1) (push s openMarker) := by
  obtain ⟨hs, hA, hB, hC, hD⟩ := hI
  rw [eq_ofList_of_size hs, push_ofList]
  refine scanInv_ofList ?_ ?_ ?_ ?_
  · intro e he
    rcases List.mem_cons.1 he with rfl | h
    · exact Or.inl rfl
    · exact hA e h
  · rw [take_succ_charAt hlt, ho, List.count_append, List.count_append]
    simp only [List.count_cons_self, List.count_nil]
    rw [List.count_cons_of_ne (by decide)]
    simp only [List.count_nil]
    omega
  · intro _
    exact ⟨by omega, by rw [Nat.add_sub_cancel]; exact ho⟩
  · intro _
    right
    rw [Nat.add_sub_cancel, ho]
    decide

theorem scanInv_other {buffer : CString} {i : Nat} {s : Stack} (hP : Proper buffer)
    (hlt : i < strlen buffer) (hI : ScanInv buffer i s)
    (hu : isUpperCase (charAt buffer i) = false) (ho : charAt buffer i ≠ '(')
    (hc : charAt buffer i ≠ ')') (hd : isDigitChar (charAt buffer i) = false) :
    ScanInv buffer (i + 1) s := by
  have hhead := head_not_marker hP hlt hI hu ho
  obtain ⟨hs, hA, hB, hC, hD⟩ := hI
  refine ⟨hs, hA, ?_, ?_, ?_⟩
  · rw [take_succ_charAt hlt, List.count_append, List.count_append,
      List.count_cons_of_ne (Ne.symm ho), List.count_cons_of_ne (Ne.symm hc)]
    simpa using hB
  · intro hh
    exact absurd hh hhead
  · intro _
    right
    rw [Nat.add_sub_cancel]
    exact hd

theorem lt_strlen_of_digit {buffer : CString} {j : Nat}
    (h : isDigitChar (charAt buffer j) = true) : j < strlen buffer := by
  by_contra hlt
  have : buffer.drop j = [] := List.drop_eq_nil_of_le (by unfold strlen at hlt; omega)
  rw [charAt_eq_headD, this] at h
  simp [isDigitChar_NUL] at h

theorem timesOf_run_pos {buffer : CString} {i : Nat} (hP : Proper buffer)
    (hnd : isDigitChar (charAt buffer i) = false) :
    1 ≤ timesOf ((buffer.drop (i + 1)).takeWhile isDigitChar) := by
  by_cases hE : (buffer.drop (i + 1)).takeWhile isDigitChar = []
  · simp [timesOf, hE]
  · have hpos : 0 < ((buffer.drop (i + 1)).takeWhile isDigitChar).length :=
      List.length_pos.2 hE
    have hd := charAt_takeWhile (q := isDigitChar) buffer i (i + 1) (by omega) (by omega)
    have := hP.2 (i + 1) (lt_strlen_of_digit hd) hd (Or.inr (by simpa using hnd))
    simpa [timesOf, hE] using this

theorem scanInv_close {buffer : CString} {i : Nat} {s : Stack} (hP : Proper buffer)
    (hlt : i < strlen buffer) (hI : ScanInv buffer i s) (hc : charAt buffer i = ')')
    {e1 : CString} {es rest : List CString}
    (htop : s.top = e1 :: (es ++ openMarker :: rest))
    (hatoms : ∀ e ∈ e1 :: es, atomEntry e = true) :
    ScanInv buffer (i + ((buffer.drop (i + 1)).takeWhile isDigitChar).length + 1)
      (Stack.ofList (List.replicate (timesOf ((buffer.drop (i + 1)).takeWhile isDigitChar))
        (e1 :: es).reverse.flatten ++ rest)) := by
  obtain ⟨hs, hA, hB, hC, hD⟩ := hI
  have hcontent : atomEntry (e1 :: es).reverse.flatten = true :=
    atomEntry_flatten _ (by simp) (fun e he => hatoms e (List.mem_reverse.1 he))
  have hpos := timesOf_run_pos hP (i := i) (by rw [hc]; decide)
  obtain ⟨k, hk⟩ : ∃ k, timesOf ((buffer.drop (i + 1)).takeWhile isDigitChar) = k + 1 :=
    ⟨_, (Nat.sub_add_cancel hpos).symm⟩
  refine scanInv_ofList ?_ ?_ ?_ ?_
  · intro e he
    rcases List.mem_append.1 he with h | h
    · rw [List.eq_of_mem_replicate h]
      exact Or.inr hcontent
    · exact hA e (by rw [htop]; simp [h])
  · rw [take_after_run isDigitChar hlt, hc, List.count_append, List.count_append,
      List.count_cons_of_ne (by decide), List.count_cons_self,
      count_takeWhile_zero (by decide), count_takeWhile_zero (by decide),
      count_marker_replicate (atomEntry_ne_marker hcontent)]
    rw [htop, count_marker_group hatoms] at hB
    omega
  · intro hh
    rw [hk, List.replicate_succ] at hh
    simp only [List.cons_append, List.head?_cons, Option.some.injEq] at hh
    exact absurd hh (atomEntry_ne_marker hcontent)
  · intro hdig
    rw [charAt_after_run isDigitChar_NUL] at hdig
    cases hdig

theorem scanInv_digit {buffer : CString} {i : Nat} {s : Stack} (hP : Proper buffer)
    (hlt : i < strlen buffer) (hI : ScanInv buffer i s)
    (hd : isDigitChar (charAt buffer i) = true)
    {e1 : CString} {rest : List CString} (htop : s.top = e1 :: rest) :
    ScanInv buffer (i + ((buffer.drop (i + 1)).takeWhile isDigitChar).length + 1)
      (Stack.ofList (List.replicate (decimalValue ((buffer.drop i).takeWhile isDigitChar))
        e1 ++ rest)) := by
  have hnu : isUpperCase (charAt buffer i) = false := by
    cases hb : isUpperCase (charAt buffer i)
    · rfl
    · rw [upper_not_digit hb] at hd; cases hd
  have hno : charAt buffer i ≠ '(' := by
    intro h; rw [h] at hd; revert hd; decide
  have hnc : charAt buffer i ≠ ')' := by
    intro h; rw [h] at hd; revert hd; decide
  have hhead := head_not_marker hP hlt hI hnu hno
  obtain ⟨hs, hA, hB, hC, hD⟩ := hI
  have hne : e1 ≠ openMarker := by
    intro h; apply hhead; rw [htop, h]; rfl
  have hatom : atomEntry e1 = true := by
    rcases hA e1 (by rw [htop]; simp) with h | h
    · exact absurd h hne
    · exact h
  have hpos := hP.2 i hlt hd (hD hd)
  obtain ⟨k, hk⟩ : ∃ k, decimalValue ((buffer.drop i).takeWhile isDigitChar) = k + 1 :=
    ⟨_, (Nat.sub_add_cancel hpos).symm⟩
  refine scanInv_ofList ?_ ?_ ?_ ?_
  · intro e he
    rcases List.mem_append.1 he with h | h
    · rw [List.eq_of_mem_replicate h]
      exact Or.inr hatom
    · exact hA e (by rw [htop]; simp [h])
  · rw [take_after_run isDigitChar hlt, List.count_append, List.count_append,
      List.count_cons_of_ne (Ne.symm hno), List.count_cons_of_ne (Ne.symm hnc),
      count_takeWhile_zero (by decide), count_takeWhile_zero (by decide),
      count_marker_replicate hne]
    rw [htop, List.count_cons_of_ne (Ne.symm hne)] at hB
    simpa using hB
  · intro hh
    rw [hk, List.replicate_succ] at hh
    simp only [List.cons_append, List.head?_cons, Option.some.injEq] at hh
    exact absurd hh hne
  · intro hdig
    rw [charAt_after_run isDigitChar_NUL] at hdig
    cases hdig

/-- Every pass over a proper line keeps the scan invariant. -/
theorem scanInv_step {buffer : CString} {table : PeriodicTable} (hP : Proper buffer)
    {i j : Nat} {s t : Stack} (hlt : i < strlen buffer) (hI : ScanInv buffer i s)
    (h : loopPass buffer table i s = .inr (j, t)) : ScanInv buffer j t := by
  unfold loopPass at h
  by_cases hu : isUpperCase (charAt buffer i) = true
  · rw [if_pos hu] at h
    split at h
    · simp only [Sum.inr.injEq, Prod.mk.injEq, readSymbol_eq] at h
      obtain ⟨rfl, rfl⟩ := h
      exact scanInv_symbol hlt hI hu
    · cases h
  · rw [if_neg hu] at h
    have hu2 : isUpperCase (charAt buffer i) = false := by simpa using hu
    by_cases ho : charAt buffer i = '('
    · rw [if_pos ho] at h
      simp only [Sum.inr.injEq, Prod.mk.injEq] at h
      obtain ⟨rfl, rfl⟩ := h
      exact scanInv_open hlt hI ho
    · rw [if_neg ho] at h
      have hhead := head_not_marker hP hlt hI hu2 ho
      by_cases hc : charAt buffer i = ')'
      · rw [if_pos hc] at h
        split at h
        · cases h
        · rename_i hok
          simp only [Sum.inr.injEq, Prod.mk.injEq, closeTimes_snd, closeTimes_fst] at h
          obtain ⟨rfl, rfl⟩ := h
          rw [eq_ofList_of_size hI.1] at hok ⊢
          rcases closeGroup_cases s.top hI.2.1 hhead with ⟨-, hf⟩ | ⟨e1, es, rest, htop, hat, hcg⟩
          · exact absurd hf hok
          · rw [hcg, pushTimes_ofList]
            exact scanInv_close hP hlt hI hc htop hat
      · rw [if_neg hc] at h
        by_cases hd : isDigitChar (charAt buffer i) = true
        · rw [if_pos hd] at h
          split at h
          · cases h
          · rename_i hok
            simp only [Sum.inr.injEq, Prod.mk.injEq, digitTimes_snd buffer i hlt hd,
              digitTimes_fst buffer i hlt hd] at h
            obtain ⟨rfl, rfl⟩ := h
            rw [eq_ofList_of_size hI.1] at hok ⊢
            cases htop : s.top with
            | nil =>
              rw [htop] at hok
              exact absurd (by simp) hok
            | cons e1 rest =>
              rw [pop_ofList_cons, pushTimes_ofList]
              exact scanInv_digit hP hlt hI hd htop
        · rw [if_neg hd] at h
          split at h
          · cases h
          · simp only [Sum.inr.injEq, Prod.mk.injEq] at h
            obtain ⟨rfl, rfl⟩ := h
            exact scanInv_other hP hlt hI hu2 ho hc (by simpa using hd)

theorem scanInv_init (buffer : CString) : ScanInv buffer 0 initStack :=
  ⟨rfl, by simp [initStack], by simp [initStack], by simp [initStack], fun _ => Or.inl rfl⟩

theorem loopPass_closePop {buffer : CString} {table : PeriodicTable} {k : Nat}
    {u st : Stack} (h : loopPass buffer table k u = .inl (.closePop, st)) :
    charAt buffer k = ')' ∧ (closeGroup u).1 = EXIT_FAILURE := by
  unfold loopPass at h
  by_cases hu : isUpperCase (charAt buffer k) = true
  · rw [if_pos hu] at h
    split at h <;> cases h
  · rw [if_neg hu] at h
    by_cases ho : charAt buffer k = '('
    · rw [if_pos ho] at h; cases h
    · rw [if_neg ho] at h
      by_cases hc : charAt buffer k = ')'
      · rw [if_pos hc] at h
        split at h
        · rename_i hf
          exact ⟨hc, hf⟩
        · cases h
      · rw [if_neg hc] at h
        by_cases hd : isDigitChar (charAt buffer k) = true
        · rw [if_pos hd] at h
          split at h <;> cases h
        · rw [if_neg hd] at h
          split at h <;> cases h

/-- On a proper line the group closure fails exactly when no marker is on the
stack. -/
theorem closeGroup_fails_iff {buffer : CString} {i : Nat} {s : Stack} (hP : Proper buffer)
    (hlt : i < strlen buffer) (hI : ScanInv buffer i s) (hc : charAt buffer i = ')') :
    (closeGroup s).1 = EXIT_FAILURE ↔ s.top.count openMarker = 0 := by
  have hhead := head_not_marker hP hlt hI (by rw [hc]; decide) (by rw [hc]; decide)
  rw [eq_ofList_of_size hI.1]
  rcases closeGroup_cases s.top hI.2.1 hhead with ⟨h0, hf⟩ | ⟨e1, es, rest, htop, hat, hcg⟩
  · simp [h0, hf]
  · rw [hcg, ofList_top, htop, count_marker_group hat]
    simp

theorem loopPass_close_of_no_marker {buffer : CString} (table : PeriodicTable) {i : Nat}
    {s : Stack} (hP : Proper buffer) (hlt : i < strlen buffer) (hI : ScanInv buffer i s)
    (hc : charAt buffer i = ')') (h0 : s.top.count openMarker = 0) :
    ∃ r, loopPass buffer table i s = .inl r := by
  have hf := (closeGroup_fails_iff hP hlt hI hc).2 h0
  unfold loopPass
  rw [hc, if_neg (by decide), if_neg (by decide), if_pos rfl, if_pos hf]
  exact ⟨_, rfl⟩

theorem take_of_strlen_le {buffer : CString} {j : Nat} (h : strlen buffer ≤ j) :
    buffer.take j = buffer := List.take_of_length_le h

theorem charAt_strlen (buffer : CString) : charAt buffer (strlen buffer) = NUL := by
  rw [charAt_eq_headD]
  unfold strlen
  rw [List.drop_length]
  rfl

/-- What acceptance by the validator says about the counts of a line. -/
theorem checkValidity_success {line : CString}
    (h : checkValidity line = some EXIT_SUCCESS) :
    ∃ s c, line = s ++ [c] ∧
      (∀ k, (s.take k).count ')' ≤ (s.take k).count '(') ∧ s.count '(' = s.count ')' := by
  rcases List.eq_nil_or_concat line with rfl | ⟨s, c, rfl⟩
  · simp [checkValidity, strlen] at h
  · refine ⟨s, c, by simp, ?_⟩
    rw [show s.concat c = s ++ [c] by simp, checkValidity_append_char] at h
    have := (depthScan_success_iff 0 s).1 (by simpa using h)
    simpa using this

/-! ## Unbalanced lines given to `openMoleculeType` directly -/

/-- With unlimited arrays and numbers: on a proper line in which some ')' has no
matching '(' before it, that is some prefix holds more ')' than '(' , the run
from the empty stack returns `EXIT_FAILURE`. -/
theorem unmatched_close_fails (table : PeriodicTable) (line : CString) (k : Nat)
    (hP : Proper line)
    (hk : (line.take k).count '(' < (line.take k).count ')') :
    ∃ st, openMoleculeType line initStack table = some (EXIT_FAILURE, st) := by
  classical
  have hex : ∃ n, (line.take n).count '(' < (line.take n).count ')' := ⟨k, hk⟩
  have hmin := Nat.find_spec hex
  have hlow := fun m (hm : m < Nat.find hex) => Nat.find_min hex hm
  generalize Nat.find hex = n at hmin hlow
  have hn0 : n ≠ 0 := by
    rintro rfl
    simp at hmin
  obtain ⟨p, rfl⟩ : ∃ p, n = p + 1 := ⟨n - 1, by omega⟩
  have hp : p < strlen line := by
    by_contra hge
    have h1 : line.take (p + 1) = line := take_of_strlen_le (by omega)
    have h2 : line.take p = line := take_of_strlen_le (by omega)
    apply hlow p (by omega)
    rw [h2]
    rw [h1] at hmin
    exact hmin
  have hprev := hlow p (by omega)
  rw [take_succ_charAt hp, List.count_append, List.count_append] at hmin
  have hc : charAt line p = ')' := by
    by_contra hne
    rw [List.count_cons_of_ne (Ne.symm hne)] at hmin
    simp only [List.count_nil] at hmin
    omega
  rw [hc, List.count_cons_of_ne (by decide), List.count_cons_self] at hmin
  simp only [List.count_nil] at hmin
  have heq : (line.take p).count '(' = (line.take p).count ')' := by omega
  obtain ⟨e, st, hrun, hend⟩ := loop_invariant line table
    (fun i s => ScanInv line i s ∧ i ≤ p)
    (by
      rintro i s j t hlt ⟨hI, hip⟩ hP2
      refine ⟨scanInv_step hP hlt hI hP2, ?_⟩
      by_contra hj
      have hne : i ≠ p := by
        rintro rfl
        have h0 : s.top.count openMarker = 0 := by
          have := hI.2.2.1
          omega
        obtain ⟨r, hr⟩ := loopPass_close_of_no_marker table hP hlt hI hc h0
        rw [hr] at hP2
        cases hP2
      obtain ⟨-, hskip⟩ := loopPass_skips hlt hP2
      rcases hskip p (by omega) (by omega) with h1 | ⟨-, h2⟩
      · rw [hc] at h1
        revert h1
        decide
      · have := h2 p (by omega) (le_refl _)
        rw [hc] at this
        revert this
        decide)
    (strlen line) 0 initStack (by omega) ⟨scanInv_init line, Nat.zero_le _⟩
  refine ⟨st, ?_⟩
  rcases hend with ⟨-, j, hj1, -, hj2⟩ | ⟨k, u, -, -, hk⟩
  · omega
  · rw [openMoleculeType_of_exit hrun, loopPass_inl_status hk]

/-! ## After the validity check -/

/-- With unlimited arrays and numbers: on a proper line that ends with a line
break and that `checkValidity` accepts, the run from the empty stack ends and
does not leave by the failure of a `pop` in the group closure. -/
theorem closure_pop_unreachable (table : PeriodicTable) (s : List Char)
    (hP : Proper (s ++ ['\n']))
    (hv : checkValidity (s ++ ['\n']) = some EXIT_SUCCESS) :
    ∃ e st, openMoleculeTypeExit (s ++ ['\n']) initStack table = some (e, st) ∧
      e ≠ .closePop := by
  obtain ⟨e, st, hrun, hend⟩ := loop_invariant (s ++ ['\n']) table
    (fun i u => ScanInv (s ++ ['\n']) i u)
    (fun i u j t hlt hI hP2 => scanInv_step hP hlt hI hP2)
    (strlen (s ++ ['\n'])) 0 initStack (by omega) (scanInv_init _)
  refine ⟨e, st, hrun, ?_⟩
  rcases hend with ⟨rfl, -⟩ | ⟨k, u, hk, hI, hpass⟩
  · decide
  · rintro rfl
    obtain ⟨hc, hf⟩ := loopPass_closePop hpass
    have h0 := (closeGroup_fails_iff hP hk hI hc).1 hf
    have hB := hI.2.2.1
    rw [checkValidity_append_char] at hv
    have hbal := ((depthScan_success_iff 0 s).1 (by simpa using hv)).1
    have hks : k < s.length := by
      have hlen : strlen (s ++ ['\n']) = s.length + 1 := by simp [strlen]
      by_contra hge
      have hk2 : k = s.length := by omega
      have hd : (s ++ ['\n']).drop k = ['\n'] := by rw [hk2]; exact List.drop_left _ _
      rw [drop_cons_charAt hd] at hc
      revert hc
      decide
    have htk : (s ++ ['\n']).take k = s.take k := by
      rw [List.take_append_of_le_length (by omega)]
    have hck : charAt s k = ')' := by
      rw [← hc]
      simp [charAt, List.getD_eq_getElem?_getD, List.getElem?_append_left hks]
    have := hbal (k + 1)
    rw [take_succ_charAt (show k < strlen s from hks), hck, List.count_append,
      List.count_append, List.count_cons_self, List.count_cons_of_ne (by decide)] at this
    simp only [List.count_nil] at this
    rw [htk] at hB
    omega

/-- With unlimited arrays and numbers: on a proper line that `checkValidity`
accepts and on which the run from the empty stack succeeds, the stack left has
the size of its list of entries and every entry holds letters only, the first
one uppercase. -/
theorem proper_line_stack (table : PeriodicTable) (line : CString) (st : Stack)
    (hP : Proper line) (hv : checkValidity line = some EXIT_SUCCESS)
    (ho : openMoleculeType line initStack table = some (EXIT_SUCCESS, st)) :
    st.size = st.top.length ∧ ∀ e ∈ st.top, atomEntry e = true := by
  obtain ⟨e, st2, hrun, hend⟩ := loop_invariant line table
    (fun i u => ScanInv line i u)
    (fun i u j t hlt hI hP2 => scanInv_step hP hlt hI hP2)
    (strlen line) 0 initStack (by omega) (scanInv_init _)
  have hrun2 := openMoleculeType_of_exit hrun
  rw [ho] at hrun2
  simp only [Option.some.injEq, Prod.mk.injEq] at hrun2
  obtain ⟨hst, rfl⟩ := hrun2
  rcases hend with ⟨-, j, hj, hI⟩ | ⟨k, u, -, -, hpass⟩
  · obtain ⟨hs, hA, hB, -, -⟩ := hI
    rw [take_of_strlen_le hj] at hB
    obtain ⟨s, c, rfl, -, hcount⟩ := checkValidity_success hv
    have hlen : strlen (s ++ [c]) = s.length + 1 := by simp [strlen]
    have hd : (s ++ [c]).drop s.length = [c] := List.drop_left _ _
    have hcs := drop_cons_charAt hd
    have hno : c ≠ '(' := by
      rintro rfl
      have hnext : charAt (s ++ ['(']) (s.length + 1) = NUL := by
        rw [← hlen]; exact charAt_strlen _
      rcases hP.1 s.length (by omega) hcs with h | h
      · rw [hnext] at h; revert h; decide
      · rw [hnext] at h; revert h; decide
    rw [List.count_append, List.count_append, List.count_cons_of_ne (Ne.symm hno)] at hB
    simp only [List.count_nil] at hB
    have h0 : st.top.count openMarker = 0 := by
      by_cases hc : c = ')'
      · rw [hc, List.count_cons_self] at hB
        simp only [List.count_nil] at hB
        omega
      · rw [List.count_cons_of_ne (Ne.symm hc)] at hB
        simp only [List.count_nil] at hB
        omega
    refine ⟨hs, fun en hen => ?_⟩
    rcases hA en hen with h1 | h1
    · rw [h1] at hen
      exact absurd (List.count_pos_iff.2 hen) (by omega)
    · exact h1
  · have := loopPass_inl_status hpass
    rw [this] at hst
    exact absurd hst (by decide)

/-! ## The element table -/

/-- C15: for every element table and every string, `isMolecule` returns
`EXIT_SUCCESS` if some entry carries exactly that string as its symbol and
`EXIT_FAILURE` otherwise; `findMoleculeNumber` returns the atomic number of the
first such entry, and 0 when there is none, so it is 0 whenever `isMolecule`
fails. -/
theorem table_lookup (table : PeriodicTable) (s : CString) :
    (isMolecule s table = EXIT_SUCCESS ↔ ∃ m ∈ table, m.name = s) ∧
      (isMolecule s table = EXIT_FAILURE ↔ ∀ m ∈ table, m.name ≠ s) ∧
      (∀ pre m post, table = pre ++ m :: post → (∀ x ∈ pre, x.name ≠ s) → m.name = s →
        findMoleculeNumber s table = m.periodicNum) ∧
      ((∀ m ∈ table, m.name ≠ s) → findMoleculeNumber s table = 0) ∧
      (isMolecule s table = EXIT_FAILURE → findMoleculeNumber s table = 0) := by
  have hnone : ∀ t : PeriodicTable, (∀ m ∈ t, m.name ≠ s) → findMoleculeNumber s t = 0 := by
    intro t
    induction t with
    | nil => intro _; rfl
    | cons a t ih =>
      intro h
      rw [findMoleculeNumber, if_neg (fun he => h a (by simp) he.symm)]
      exact ih (fun m hm => h m (by simp [hm]))
  have hfail : ∀ t : PeriodicTable,
      isMolecule s t = EXIT_FAILURE ↔ ∀ m ∈ t, m.name ≠ s := by
    intro t
    induction t with
    | nil => simp [isMolecule]
    | cons a t ih =>
      by_cases ha : a.name = s
      · rw [isMolecule, if_pos ha]
        constructor
        · intro h; exact absurd h (by decide)
        · intro h; exact absurd ha (h a (by simp))
      · rw [isMolecule, if_neg ha, ih]
        constructor
        · intro h m hm
          rcases List.mem_cons.1 hm with rfl | h2
          · exact ha
          · exact h m h2
        · intro h m hm
          exact h m (by simp [hm])
  have hsucc : ∀ t : PeriodicTable,
      isMolecule s t = EXIT_SUCCESS ↔ ∃ m ∈ t, m.name = s := by
    intro t
    induction t with
    | nil => simp [isMolecule]
    | cons a t ih =>
      by_cases ha : a.name = s
      · rw [isMolecule, if_pos ha]
        exact ⟨fun _ => ⟨a, by simp, ha⟩, fun _ => rfl⟩
      · rw [isMolecule, if_neg ha, ih]
        constructor
        · rintro ⟨m, hm, he⟩
          exact ⟨m, by simp [hm], he⟩
        · rintro ⟨m, hm, he⟩
          rcases List.mem_cons.1 hm with rfl | h2
          · exact absurd he ha
          · exact ⟨m, h2, he⟩
  refine ⟨hsucc table, hfail table, ?_, hnone table, fun h => hnone table ((hfail table).1 h)⟩
  intro pre m post ht hpre hm
  subst ht
  induction pre with
  | nil =>
    rw [List.nil_append, findMoleculeNumber, if_pos hm.symm]
  | cons a pre ih =>
    rw [List.cons_append, findMoleculeNumber,
      if_neg (fun he => hpre a (by simp) he.symm)]
    exact ih (fun x hx => hpre x (by simp [hx]))

/-! ## The stack discipline -/

theorem pushAll_ofList (l values : List CString) :
    pushAll (Stack.ofList l) values = Stack.ofList (values.reverse ++ l) := by
  induction values generalizing l with
  | nil => rfl
  | cons v vs ih =>
    rw [pushAll, List.foldl_cons, push_ofList]
    have := ih (v :: l)
    rw [pushAll] at this
    rw [this]
    simp

theorem popLoop_ofList (l popped : List CString) :
    popLoop l.length l popped = (EXIT_SUCCESS, Stack.ofList [], popped ++ l) := by
  induction l generalizing popped with
  | nil => simp [popLoop, Stack.ofList]
  | cons e es ih =>
    have := ih (popped ++ [e])
    simp only [List.length_cons]
    rw [popLoop]
    simp [pop, this]

theorem reachable_size {s : Stack} (h : Stack.Reachable s) : s.size = s.top.length := by
  induction h with
  | init => rfl
  | push s value _ ih => simp [push, ih]
  | pop s retval _ hok ih =>
    by_cases h0 : s.size = 0
    · simp [pop, h0] at hok
    · cases htop : s.top with
      | nil => simp [pop, h0, htop] at hok
      | cons d next =>
        rw [htop] at ih
        simp only [List.length_cons] at ih
        simp only [pop, if_neg h0, htop]
        omega

/-- C16: the stack is last-in first-out. For every stack and every string, a
`push` followed by a `pop` returns the string and restores the stack, entries
and size; pushing the strings of any list onto the empty stack and popping until
`size` is 0 yields the list in reverse order and leaves the empty stack; the
strings "A" to "F" come back as "F", "E", "D", "C", "B", "A". -/
theorem stack_lifo :
    (∀ (s : Stack) (v r : CString), pop (push s v) r = (EXIT_SUCCESS, s, v)) ∧
      (∀ values : List CString,
        popLoop (pushAll initStack values).size (pushAll initStack values).top []
          = (EXIT_SUCCESS, initStack, values.reverse)) ∧
      popLoop (pushAll initStack [str "A", str "B", str "C", str "D", str "E", str "F"]).size
          (pushAll initStack [str "A", str "B", str "C", str "D", str "E", str "F"]).top []
        = (EXIT_SUCCESS, initStack,
            [str "F", str "E", str "D", str "C", str "B", str "A"]) := by
  have hall : ∀ values : List CString,
      popLoop (pushAll initStack values).size (pushAll initStack values).top []
        = (EXIT_SUCCESS, initStack, values.reverse) := by
    intro values
    rw [initStack_eq, pushAll_ofList, ofList_size, ofList_top, popLoop_ofList]
    simp
  refine ⟨?_, hall, hall _⟩
  intro s v r
  simp [pop, push]

/-- C17: `pop` on a stack of size 0 returns `EXIT_FAILURE` and leaves stack and
buffer unchanged; `initStack` yields the empty stack of size 0; `push` raises
the size by exactly 1; and on every stack the program can hold the size equals
the number of entries, and a `pop` on a non-empty one returns `EXIT_SUCCESS`
and lowers the size by exactly 1. -/
theorem stack_size_discipline :
    (∀ (s : Stack) (r : CString), s.size = 0 → pop s r = (EXIT_FAILURE, s, r)) ∧
      initStack.size = 0 ∧ initStack.top = [] ∧
      (∀ (s : Stack) (v : CString), (push s v).size = s.size + 1) ∧
      (∀ s : Stack, Stack.Reachable s →
        s.size = s.top.length ∧
        ∀ r : CString, s.size ≠ 0 →
          (pop s r).1 = EXIT_SUCCESS ∧ (pop s r).2.1.size + 1 = s.size ∧
            (pop s r).2.1.top.length + 1 = s.top.length) := by
  refine ⟨?_, rfl, rfl, fun _ _ => rfl, ?_⟩
  · intro s r h
    simp [pop, h]
  · intro s hs
    have hsz := reachable_size hs
    refine ⟨hsz, ?_⟩
    intro r h0
    unfold pop
    rw [if_neg h0]
    cases htop : s.top with
    | nil =>
      rw [htop] at hsz
      exact absurd hsz h0
    | cons d next =>
      refine ⟨rfl, ?_, ?_⟩
      · show s.size - 1 + 1 = s.size
        omega
      · rfl

/-- C14: for every list of strings pushed onto the empty stack, and so for every
stack the program can hold, `printStack` writes the entries concatenated in the
order they were pushed (bottom to top), followed by one line break, and leaves
the stack empty; the first drain turns the order around and draining the second
stack again restores the original one. -/
theorem printStack_order :
    (∀ values : List CString,
      printStack (pushAll initStack values)
          = (EXIT_SUCCESS, initStack, values.flatten ++ ['\n']) ∧
        drainLoop (pushAll initStack values).size (pushAll initStack values).top initStack
          = (EXIT_SUCCESS, initStack, Stack.ofList values) ∧
        drainLoop (Stack.ofList values).size (Stack.ofList values).top initStack
          = (EXIT_SUCCESS, initStack, pushAll initStack values)) ∧
      (∀ s : Stack, Stack.Reachable s →
        printStack s = (EXIT_SUCCESS, initStack, s.top.reverse.flatten ++ ['\n'])) := by
  constructor
  · intro values
    rw [initStack_eq, pushAll_ofList, List.append_nil]
    refine ⟨?_, ?_, ?_⟩
    · rw [printStack_ofList, List.reverse_reverse]
      rfl
    · rw [ofList_size, ofList_top, drainLoop_ofList]
      simp
    · rw [ofList_size, ofList_top, drainLoop_ofList]
      simp
  · intro s hs
    rw [eq_ofList_of_size (reachable_size hs), printStack_ofList]
    rfl

/-! ## The validation of a batch -/

theorem validityLoop_some (lines : List CString) (hne : ∀ l ∈ lines, l ≠ [])
    (line : Nat) (valid : Int) (reported : List Nat) :
    ∃ r, validityLoop lines line valid reported = some r := by
  induction lines generalizing line valid reported with
  | nil => exact ⟨_, rfl⟩
  | cons b rest ih =>
    have hb : strlen b ≠ 0 := by
      have := hne b (by simp)
      cases b with
      | nil => exact absurd rfl this
      | cons c t => simp [strlen]
    have hrest : ∀ l ∈ rest, l ≠ [] := fun l hl => hne l (by simp [hl])
    rw [validityLoop]
    simp only [checkValidity, if_neg hb]
    split
    · exact ih hrest _ _ _
    · exact ih hrest _ _ _

/-- C18: what `vTable` returns. On the one-line batch `(OH` it reports line 1 as
not balanced and still returns `EXIT_SUCCESS`, where `vTableForOthers` returns
`EXIT_FAILURE`; and on every batch of non-empty lines `vTable` returns
`EXIT_SUCCESS`, whatever the parentheses of the lines are. -/
theorem vTable_returns_success :
    vTable [str "(OH\n"] = some (EXIT_SUCCESS, [1], false) ∧
      vTableForOthers [str "(OH\n"] = some EXIT_FAILURE ∧
      ∀ lines : List CString, (∀ l ∈ lines, l ≠ []) →
        ∃ reported ok, vTable lines = some (EXIT_SUCCESS, reported, ok) := by
  refine ⟨by decide, by decide, ?_⟩
  intro lines hne
  obtain ⟨⟨valid, reported⟩, hr⟩ := validityLoop_some lines hne 1 1 []
  exact ⟨reported, decide (valid = 1), by simp [vTable, hr]⟩

/-! ## Decimal numerals -/

theorem digitChar_spec :
    ∀ k, k < 10 → isDigitChar (Nat.digitChar k) = true ∧ digitValue (Nat.digitChar k) = k := by
  decide

theorem decimalValue_append_singleton (pre : List Char) (d : Char) :
    decimalValue (pre ++ [d]) = decimalValue pre * 10 + digitValue d := by
  simp [decimalValue, List.foldl_append]

theorem toDigitsCore_spec (fuel : Nat) :
    ∀ (n : Nat) (ds : List Char), n < fuel →
      ∃ pre, Nat.toDigitsCore 10 fuel n ds = pre ++ ds ∧ pre ≠ [] ∧
        (∀ c ∈ pre, isDigitChar c = true) ∧ decimalValue pre = n := by
  induction fuel with
  | zero => intro n ds h; omega
  | succ f ih =>
    intro n ds h
    obtain ⟨hd1, hd2⟩ := digitChar_spec (n % 10) (Nat.mod_lt _ (by decide))
    rw [Nat.toDigitsCore]
    by_cases h0 : n / 10 = 0
    · simp only [h0, if_true]
      refine ⟨[Nat.digitChar (n % 10)], rfl, by simp, ?_, ?_⟩
      · intro c hc
        rw [List.mem_singleton.1 hc]
        exact hd1
      · simp only [decimalValue, List.foldl_cons, List.foldl_nil, hd2]
        omega
    · simp only [h0, if_false]
      obtain ⟨pre, hpre, -, hdig, hval⟩ := ih (n / 10) (Nat.digitChar (n % 10) :: ds) (by omega)
      refine ⟨pre ++ [Nat.digitChar (n % 10)], ?_, by simp, ?_, ?_⟩
      · rw [hpre]; simp
      · intro c hc
        rcases List.mem_append.1 hc with h1 | h1
        · exact hdig c h1
        · rw [List.mem_singleton.1 h1]
          exact hd1
      · rw [decimalValue_append_singleton, hval, hd2]
        omega

/-- The decimal numeral of `n` is a non-empty run of digits whose value is `n`. -/
theorem toDigits_spec (n : Nat) :
    Nat.toDigits 10 n ≠ [] ∧ (∀ c ∈ Nat.toDigits 10 n, isDigitChar c = true) ∧
      decimalValue (Nat.toDigits 10 n) = n := by
  obtain ⟨pre, hpre, hne, hdig, hval⟩ := toDigitsCore_spec (n + 1) n [] (by omega)
  have : Nat.toDigits 10 n = pre := by
    rw [Nat.toDigits, hpre, List.append_nil]
  rw [this]
  exact ⟨hne, hdig, hval⟩

/-! ## Multipliers -/

theorem tail_other {tail : List Char} (htail : tail = [] ∨ tail = ['\n']) :
    startsWith isLowerCase tail = false ∧ startsWith isDigitChar tail = false := by
  rcases htail with rfl | rfl <;> exact ⟨by decide, by decide⟩

/-- The end of a run: at the line break, or at the end of the buffer. -/
theorem loop_tail {buffer : CString} (table : PeriodicTable) (fuel : Nat) {i : Nat}
    (stack : Stack) {tail : List Char} (htail : tail = [] ∨ tail = ['\n'])
    (h : buffer.drop i = tail) (hf : tail.length ≤ fuel) :
    openMoleculeTypeLoop buffer table fuel i stack = some (.done, stack) := by
  rcases htail with rfl | rfl
  · apply loop_end
    by_contra hlt
    have hl : i < buffer.length := by unfold strlen at hlt; omega
    have := List.drop_eq_getElem_cons hl
    rw [h] at this
    cases this
  · obtain ⟨f, rfl⟩ : ∃ f, fuel = f + 1 := ⟨fuel - 1, by simp at hf; omega⟩
    obtain ⟨h1, h2, h3, h4, h5⟩ := newline_other
    rw [step_other table f stack h h1 h2 h3 h4 h5]
    apply loop_end
    have := drop_cons_succ h
    by_contra hlt
    have hl : i + 1 < buffer.length := by unfold strlen at hlt; omega
    have h6 := List.drop_eq_getElem_cons hl
    rw [this] at h6
    cases h6

theorem symbol_then_digits (table : PeriodicTable) (x ds tail : List Char)
    (hx : isSymbolName x = true) (ht : inTable table x = true) (hne : ds ≠ [])
    (hd : ∀ c ∈ ds, isDigitChar c = true) (htail : tail = [] ∨ tail = ['\n']) :
    openMoleculeTypeExit (x ++ ds ++ tail) initStack table
      = some (.done, Stack.ofList (List.replicate (decimalValue ds) x)) := by
  obtain ⟨c, lows, rfl, hu, hlows⟩ := isSymbolName_cases hx
  obtain ⟨d, ds2, rfl⟩ := List.exists_cons_of_ne_nil hne
  have hmol := isMolecule_of_inTable ht
  obtain ⟨-, htd⟩ := tail_other htail
  unfold openMoleculeTypeExit
  have hlen : strlen ((c :: lows) ++ (d :: ds2) ++ tail)
      = (lows.length + ds2.length + tail.length) + 1 + 1 := by
    simp [strlen]; omega
  have h0 : ((c :: lows) ++ (d :: ds2) ++ tail).drop 0
      = (c :: lows) ++ ((d :: ds2) ++ tail) := by simp
  have h1 := drop_append_add h0
  have h2 := drop_append_add h1
  rw [hlen, initStack_eq,
    step_symbol table _ _ h0 hu hlows
      (by simpa [startsWith] using digit_not_lower (hd d (by simp))),
    if_pos hmol, push_ofList, step_digit table _ _ h1 hd htd, pop_ofList_cons]
  simp only [pushTimes_ofList]
  rw [if_neg (by decide), loop_tail table _ _ htail h2 (by omega)]
  simp

theorem group_then_digits (table : PeriodicTable) (x ds tail : List Char)
    (hx : isSymbolName x = true) (ht : inTable table x = true) (hne : ds ≠ [])
    (hd : ∀ c ∈ ds, isDigitChar c = true) (htail : tail = [] ∨ tail = ['\n']) :
    openMoleculeTypeExit (['('] ++ x ++ [')'] ++ ds ++ tail) initStack table
      = some (.done, Stack.ofList (List.replicate (decimalValue ds) x)) := by
  obtain ⟨c, lows, rfl, hu, hlows⟩ := isSymbolName_cases hx
  have hmol := isMolecule_of_inTable ht
  obtain ⟨-, htd⟩ := tail_other htail
  unfold openMoleculeTypeExit
  have hlen : strlen (['('] ++ (c :: lows) ++ [')'] ++ ds ++ tail)
      = (lows.length + ds.length + tail.length) + 1 + 1 + 1 := by
    simp [strlen]; omega
  have h0 : (['('] ++ (c :: lows) ++ [')'] ++ ds ++ tail).drop 0
      = '(' :: ((c :: lows) ++ (')' :: (ds ++ tail))) := by simp
  have h1 := drop_cons_succ h0
  have h2 := drop_append_add h1
  have h3 : (['('] ++ (c :: lows) ++ [')'] ++ ds ++ tail).drop
      (0 + 1 + (c :: lows).length + 1 + ds.length) = tail := by
    have := drop_append_add (x := ')' :: ds) (y := tail) h2
    rw [List.length_cons] at this
    rw [show 0 + 1 + (c :: lows).length + 1 + ds.length
      = 0 + 1 + (c :: lows).length + (ds.length + 1) by omega]
    exact this
  have hclose := closeGroup_ofList (c :: lows) [] [] (by simp)
  simp only [List.nil_append] at hclose
  rw [hlen, initStack_eq, step_open table _ _ h0, push_ofList,
    step_symbol table _ _ h1 hu hlows rfl, if_pos hmol, push_ofList,
    step_close table _ _ h2 hd htd, hclose]
  simp only [pushTimes_ofList]
  rw [if_neg (by decide), loop_tail table _ _ htail h3 (by omega)]
  simp [timesOf, hne]

theorem openMoleculeType_of_done {buffer : CString} {stack st : Stack}
    {table : PeriodicTable}
    (h : openMoleculeTypeExit buffer stack table = some (.done, st)) :
    openMoleculeType buffer stack table = some (EXIT_SUCCESS, st) := by
  simp [openMoleculeType, h, Exit.status]

/-- C12: multipliers are read as the whole digit run. For every symbol X of the
table and every natural number n, `openMoleculeType` on X followed by the
decimal numeral of n leaves exactly n copies of X on the stack, and so it does
on `(X)` followed by the numeral, with or without the line break; the same
holds for every non-empty run of digits whose value is n. -/
theorem multiplier_whole_run (table : PeriodicTable) (x : CString) (n : Nat)
    (tail : List Char) (hx : isSymbolName x = true) (ht : inTable table x = true)
    (htail : tail = [] ∨ tail = ['\n']) :
    openMoleculeType (x ++ Nat.toDigits 10 n ++ tail) initStack table
        = some (EXIT_SUCCESS, Stack.ofList (List.replicate n x)) ∧
      openMoleculeType (['('] ++ x ++ [')'] ++ Nat.toDigits 10 n ++ tail) initStack table
        = some (EXIT_SUCCESS, Stack.ofList (List.replicate n x)) ∧
      ∀ ds : List Char, ds ≠ [] → (∀ c ∈ ds, isDigitChar c = true) → decimalValue ds = n →
        openMoleculeType (x ++ ds ++ tail) initStack table
            = some (EXIT_SUCCESS, Stack.ofList (List.replicate n x)) ∧
          openMoleculeType (['('] ++ x ++ [')'] ++ ds ++ tail) initStack table
            = some (EXIT_SUCCESS, Stack.ofList (List.replicate n x)) := by
  have hgen : ∀ ds : List Char, ds ≠ [] → (∀ c ∈ ds, isDigitChar c = true) →
      decimalValue ds = n →
      openMoleculeType (x ++ ds ++ tail) initStack table
          = some (EXIT_SUCCESS, Stack.ofList (List.replicate n x)) ∧
        openMoleculeType (['('] ++ x ++ [')'] ++ ds ++ tail) initStack table
          = some (EXIT_SUCCESS, Stack.ofList (List.replicate n x)) := by
    intro ds hne hd hv
    have h1 := symbol_then_digits table x ds tail hx ht hne hd htail
    have h2 := group_then_digits table x ds tail hx ht hne hd htail
    rw [hv] at h1 h2
    exact ⟨openMoleculeType_of_done h1, openMoleculeType_of_done h2⟩
  obtain ⟨hne, hd, hv⟩ := toDigits_spec n
  exact ⟨(hgen _ hne hd hv).1, (hgen _ hne hd hv).2, hgen⟩

/-- Witness of C12: `C12` leaves twelve copies of C; `C12H22O11` leaves 12 C,
22 H and 11 O; `(H2O)10` leaves ten copies of `HHO`. -/
theorem multiplier_whole_run_witness :
    isSymbolName (str "C") = true ∧ inTable tableSample (str "C") = true ∧
      openMoleculeType (str "C12") initStack tableSample
        = some (EXIT_SUCCESS, Stack.ofList (List.replicate 12 (str "C"))) ∧
      openMoleculeType (str "C12H22O11") initStack tableSample
        = some (EXIT_SUCCESS, Stack.ofList (List.replicate 11 (str "O") ++
            List.replicate 22 (str "H") ++ List.replicate 12 (str "C"))) ∧
      openMoleculeType (str "(H2O)10") initStack tableSample
        = some (EXIT_SUCCESS, Stack.ofList (List.replicate 10 (str "HHO"))) :=
  ⟨by decide, by decide,
    (multiplier_whole_run tableSample (str "C") 12 [] (by decide) (by decide)
      (Or.inl rfl)).1,
    by decide, by decide⟩

theorem flatten_replicate_mul (x : List Char) (m n : Nat) :
    (List.replicate n (List.replicate m x).flatten).flatten
      = (List.replicate (m * n) x).flatten := by
  induction n with
  | zero => simp
  | succ k ih =>
    rw [List.replicate_succ, List.flatten_cons, ih, Nat.mul_succ, Nat.add_comm,
      List.replicate_add, List.flatten_append]

/-! ## A line and what follows it -/

theorem takeWhile_append_of_head {q : Char → Bool} (a b : List Char)
    (hb : startsWith q b = false) : (a ++ b).takeWhile q = a.takeWhile q := by
  induction a with
  | nil =>
    cases b with
    | nil => rfl
    | cons c t =>
      have : q c = false := by simpa [startsWith] using hb
      simp [this]
  | cons c t ih =>
    by_cases hc : q c = true
    · simp [List.takeWhile_cons, hc, ih]
    · simp [List.takeWhile_cons, hc]

theorem drop_append_le (P Q : List Char) {k : Nat} (hk : k ≤ P.length) :
    (P ++ Q).drop k = P.drop k ++ Q := List.drop_append_of_le_length hk

theorem charAt_append_lt (P Q : List Char) {i : Nat} (hi : i < P.length) :
    charAt (P ++ Q) i = charAt P i := by
  simp [charAt, List.getD_eq_getElem?_getD, List.getElem?_append_left hi]

/-- A test that fails on the first character of `Q` and on the terminator gives
the same answer at every index up to the end of `P`, with or without `Q`. -/
theorem test_append_le {q : Char → Bool} (hN : q NUL = false) (P Q : List Char)
    (hQ : startsWith q Q = false) {k : Nat} (hk : k ≤ P.length) :
    q (charAt (P ++ Q) k) = q (charAt P k) := by
  by_cases hlt : k < P.length
  · rw [charAt_append_lt P Q hlt]
  · have hk2 : k = P.length := by omega
    rw [charAt_eq_headD, charAt_eq_headD, drop_append_le P Q hk, hk2, List.drop_length,
      List.nil_append]
    rw [startsWith_false_headD hN hQ]
    exact hN.symm

theorem findNumber_append (P Q : List Char) (hQ : startsWith isDigitChar Q = false)
    {k : Nat} (hk : k ≤ P.length) : findNumber (P ++ Q) k = findNumber P k := by
  unfold findNumber
  rw [findNumberLoop_eq, findNumberLoop_eq, drop_append_le P Q hk,
    takeWhile_append_of_head _ _ hQ]

theorem readSymbol_append (P Q : List Char) (hQ : startsWith isLowerCase Q = false)
    {i : Nat} (hi : i < P.length) : readSymbol (P ++ Q) i = readSymbol P i := by
  rw [readSymbol_eq, readSymbol_eq, drop_append_le P Q (show i + 1 ≤ P.length by omega),
    takeWhile_append_of_head _ _ hQ, charAt_append_lt P Q hi]

theorem closeTimes_append (P Q : List Char) (hQ : startsWith isDigitChar Q = false)
    {i : Nat} (hi : i < P.length) : closeTimes (P ++ Q) i = closeTimes P i := by
  apply Prod.ext
  · rw [closeTimes_fst, closeTimes_fst, drop_append_le P Q (show i + 1 ≤ P.length by omega),
      takeWhile_append_of_head _ _ hQ]
  · rw [closeTimes_snd, closeTimes_snd, drop_append_le P Q (show i + 1 ≤ P.length by omega),
      takeWhile_append_of_head _ _ hQ]

theorem digitTimes_append (P Q : List Char) (hQ : startsWith isDigitChar Q = false)
    {i : Nat} (hi : i < P.length) : digitTimes (P ++ Q) i = digitTimes P i := by
  have htest := test_append_le isDigitChar_NUL P Q hQ (show i + 1 ≤ P.length by omega)
  unfold digitTimes
  rw [findNumber_append P Q hQ (show i ≤ P.length by omega), charAt_append_lt P Q hi]
  by_cases hc : i + 1 < strlen P ∧ isDigitChar (charAt P (i + 1)) = true
  · have hc2 : i + 1 < strlen (P ++ Q) ∧ isDigitChar (charAt (P ++ Q) (i + 1)) = true :=
      ⟨by have := hc.1; simp [strlen] at this ⊢; omega, by rw [htest]; exact hc.2⟩
    rw [if_pos hc, if_pos hc2]
  · have hc2 : ¬ (i + 1 < strlen (P ++ Q) ∧ isDigitChar (charAt (P ++ Q) (i + 1)) = true) := by
      rintro ⟨-, h2⟩
      rw [htest] at h2
      exact hc ⟨lt_strlen_of_digit h2, h2⟩
    rw [if_neg hc, if_neg hc2]

/-- A pass inside `P` does the same whether or not `Q` follows, when `Q` begins
with neither a lowercase letter nor a digit. -/
theorem loopPass_append (table : PeriodicTable) (P Q : List Char)
    (hQl : startsWith isLowerCase Q = false) (hQd : startsWith isDigitChar Q = false)
    {i : Nat} (hi : i < P.length) (s : Stack) :
    loopPass (P ++ Q) table i s = loopPass P table i s := by
  unfold loopPass
  rw [charAt_append_lt P Q hi, readSymbol_append P Q hQl hi, closeTimes_append P Q hQd hi,
    digitTimes_append P Q hQd hi]

theorem loopPass_le_strlen {buffer : CString} {table : PeriodicTable} {i j : Nat}
    {s t : Stack} (hlt : i < strlen buffer) (h : loopPass buffer table i s = .inr (j, t)) :
    j ≤ strlen buffer := by
  have hrun : ∀ q : Char → Bool,
      i + ((buffer.drop (i + 1)).takeWhile q).length + 1 ≤ strlen buffer := by
    intro q
    have h1 := (List.takeWhile_prefix q (l := buffer.drop (i + 1))).length_le
    rw [List.length_drop] at h1
    unfold strlen at hlt ⊢
    omega
  unfold loopPass at h
  by_cases hu : isUpperCase (charAt buffer i) = true
  · rw [if_pos hu] at h
    split at h
    · simp only [Sum.inr.injEq, Prod.mk.injEq, readSymbol_eq] at h
      rw [← h.1]; exact hrun _
    · cases h
  · rw [if_neg hu] at h
    by_cases ho : charAt buffer i = '('
    · rw [if_pos ho] at h
      simp only [Sum.inr.injEq, Prod.mk.injEq] at h
      omega
    · rw [if_neg ho] at h
      by_cases hc : charAt buffer i = ')'
      · rw [if_pos hc] at h
        split at h
        · cases h
        · simp only [Sum.inr.injEq, Prod.mk.injEq, closeTimes_snd] at h
          rw [← h.1]; exact hrun _
      · rw [if_neg hc] at h
        by_cases hd : isDigitChar (charAt buffer i) = true
        · rw [if_pos hd] at h
          split at h
          · cases h
          · simp only [Sum.inr.injEq, Prod.mk.injEq, digitTimes_snd buffer i hlt hd] at h
            rw [← h.1]; exact hrun _
        · rw [if_neg hd] at h
          split at h
          · cases h
          · simp only [Sum.inr.injEq, Prod.mk.injEq] at h
            omega

/-- The run over `P ++ Q` follows the run over `P`: a failure inside `P` is the
same failure, and a run that reaches the end of `P` goes on at the first
character of `Q` with the stack the run over `P` leaves. -/
theorem loop_append (table : PeriodicTable) (P Q : List Char)
    (hQl : startsWith isLowerCase Q = false) (hQd : startsWith isDigitChar Q = false) :
    ∀ (fuel i : Nat) (s : Stack) (e : Exit) (st : Stack), i ≤ P.length →
      openMoleculeTypeLoop P table fuel i s = some (e, st) → ∀ g : Nat,
        (e ≠ .done → openMoleculeTypeLoop (P ++ Q) table (fuel + g) i s = some (e, st)) ∧
        (e = .done → ∃ g2, g ≤ g2 ∧
          openMoleculeTypeLoop (P ++ Q) table (fuel + g) i s
            = openMoleculeTypeLoop (P ++ Q) table g2 P.length st) := by
  intro fuel
  induction fuel with
  | zero =>
    intro i s e st hi h g
    rw [openMoleculeTypeLoop] at h
    split at h
    · cases h
    · rename_i hge
      simp only [Option.some.injEq, Prod.mk.injEq] at h
      obtain ⟨rfl, rfl⟩ := h
      have : i = P.length := by unfold strlen at hge; omega
      subst this
      exact ⟨fun hne => absurd rfl hne, fun _ => ⟨0 + g, by omega, rfl⟩⟩
  | succ f ih =>
    intro i s e st hi h g
    by_cases hlt : i < P.length
    · have hlt2 : i < strlen (P ++ Q) := by simp [strlen]; omega
      rw [loop_succ, if_pos (show i < strlen P from hlt)] at h
      rw [show f + 1 + g = (f + g) + 1 by omega, loop_succ, if_pos hlt2,
        loopPass_append table P Q hQl hQd hlt]
      cases hP : loopPass P table i s with
      | inl r =>
        rw [hP] at h
        simp only [Option.some.injEq] at h
        subst h
        have hst := loopPass_inl_status hP
        refine ⟨fun _ => rfl, fun hd => ?_⟩
        rw [hd] at hst
        exact absurd hst (by decide)
      | inr r =>
        obtain ⟨j, t⟩ := r
        rw [hP] at h
        exact ih j t e st (loopPass_le_strlen (show i < strlen P from hlt) hP) h g
    · have hi2 : i = P.length := by omega
      subst hi2
      rw [loop_end table _ s (show strlen P ≤ P.length from le_refl _)] at h
      simp only [Option.some.injEq, Prod.mk.injEq] at h
      obtain ⟨rfl, rfl⟩ := h
      exact ⟨fun hne => absurd rfl hne, fun _ => ⟨f + 1 + g, by omega, rfl⟩⟩

theorem exit_of_success {buffer : CString} {stack st : Stack} {table : PeriodicTable}
    (h : openMoleculeType buffer stack table = some (EXIT_SUCCESS, st)) :
    openMoleculeTypeLoop buffer table (strlen buffer) 0 stack = some (.done, st) := by
  unfold openMoleculeType openMoleculeTypeExit at h
  cases hE : openMoleculeTypeLoop buffer table (strlen buffer) 0 stack with
  | none => rw [hE] at h; cases h
  | some r =>
    obtain ⟨e, t⟩ := r
    rw [hE] at h
    simp only [Option.map_some', Option.some.injEq, Prod.mk.injEq] at h
    obtain ⟨he, rfl⟩ := h
    cases e <;> first | rfl | (exact absurd he (by decide))

theorem pop_push (s : Stack) (v r : CString) : pop (push s v) r = (EXIT_SUCCESS, s, v) := by
  simp [pop, push]

theorem closeGroup_push_push (s : Stack) (v : CString) :
    closeGroup (push (push s openMarker) v) = (EXIT_SUCCESS, s, v) := by
  unfold closeGroup
  rw [pop_push]
  simp only [pop_push]
  rw [if_neg (by decide), if_neg (by decide), closeLoop_marker]

/-- C13: a multiplier 0 deletes what it applies to. For every element table,
every starting stack and every line P on which `openMoleculeType` succeeds
leaving the stack S, and for every symbol X of the table, `openMoleculeType` on
P followed by X and the digit 0 succeeds and leaves exactly S, and so it does on
P followed by `(X)0`. -/
theorem zero_multiplier_deletes (table : PeriodicTable) (p x : CString) (stack st : Stack)
    (hx : isSymbolName x = true) (ht : inTable table x = true)
    (hp : openMoleculeType p stack table = some (EXIT_SUCCESS, st)) :
    openMoleculeType (p ++ x ++ ['0']) stack table = some (EXIT_SUCCESS, st) ∧
      openMoleculeType (p ++ ['('] ++ x ++ [')', '0']) stack table
        = some (EXIT_SUCCESS, st) := by
  obtain ⟨c, lows, rfl, hu, hlows⟩ := isSymbolName_cases hx
  have hmol := isMolecule_of_inTable ht
  have hrun := exit_of_success hp
  constructor
  · have hQl : startsWith isLowerCase ((c :: lows) ++ ['0']) = false := by
      simpa [startsWith] using upper_not_lower hu
    have hQd : startsWith isDigitChar ((c :: lows) ++ ['0']) = false := by
      simpa [startsWith] using upper_not_digit hu
    obtain ⟨g2, hg, heq⟩ := (loop_append table p ((c :: lows) ++ ['0']) hQl hQd (strlen p) 0
      stack .done st (Nat.zero_le _) hrun ((c :: lows) ++ ['0']).length).2 rfl
    have hlen : strlen (p ++ ((c :: lows) ++ ['0']))
        = strlen p + ((c :: lows) ++ ['0']).length := by simp [strlen]
    have h0 : (p ++ ((c :: lows) ++ ['0'])).drop p.length
        = (c :: lows) ++ (['0'] ++ []) := by
      rw [List.drop_left]; simp
    have h1 := drop_append_add h0
    have h2 := drop_append_add h1
    obtain ⟨f, rfl⟩ : ∃ f, g2 = f + 1 + 1 := ⟨g2 - 2, by simp at hg; omega⟩
    apply openMoleculeType_of_done
    unfold openMoleculeTypeExit
    rw [List.append_assoc, hlen, heq,
      step_symbol table _ _ h0 hu hlows (by decide), if_pos hmol,
      step_digit table _ _ h1 (by decide) rfl, pop_push]
    simp only
    rw [if_neg (by decide), show decimalValue ['0'] = 0 from rfl, pushTimes,
      loop_end table _ _ (by
        have := List.length_drop (p.length + (c :: lows).length + ['0'].length)
          (p ++ ((c :: lows) ++ ['0']))
        rw [h2] at this
        simp only [List.length_nil] at this
        unfold strlen
        omega)]
  · have hQl : startsWith isLowerCase (['('] ++ (c :: lows) ++ [')', '0']) = false := rfl
    have hQd : startsWith isDigitChar (['('] ++ (c :: lows) ++ [')', '0']) = false := rfl
    obtain ⟨g2, hg, heq⟩ := (loop_append table p (['('] ++ (c :: lows) ++ [')', '0']) hQl hQd
      (strlen p) 0 stack .done st (Nat.zero_le _) hrun
      (['('] ++ (c :: lows) ++ [')', '0']).length).2 rfl
    have hlen : strlen (p ++ (['('] ++ (c :: lows) ++ [')', '0']))
        = strlen p + (['('] ++ (c :: lows) ++ [')', '0']).length := by simp [strlen]
    have h0 : (p ++ (['('] ++ (c :: lows) ++ [')', '0'])).drop p.length
        = '(' :: ((c :: lows) ++ (')' :: (['0'] ++ []))) := by
      rw [List.drop_left]; simp
    have h1 := drop_cons_succ h0
    have h2 := drop_append_add h1
    have h3 := drop_append_add (x := [')', '0']) (y := []) h2
    obtain ⟨f, rfl⟩ : ∃ f, g2 = f + 1 + 1 + 1 := ⟨g2 - 3, by simp at hg; omega⟩
    apply openMoleculeType_of_done
    unfold openMoleculeTypeExit
    rw [show p ++ ['('] ++ (c :: lows) ++ [')', '0']
        = p ++ (['('] ++ (c :: lows) ++ [')', '0']) by simp, hlen, heq,
      step_open table _ _ h0, step_symbol table _ _ h1 hu hlows rfl, if_pos hmol,
      step_close table _ _ h2 (by decide) rfl, closeGroup_push_push]
    simp only
    rw [if_neg (by decide), show timesOf ['0'] = 0 from rfl, pushTimes,
      loop_end table _ _ (by
        have := List.length_drop (p.length + 1 + (c :: lows).length + [')', '0'].length)
          (p ++ (['('] ++ (c :: lows) ++ [')', '0']))
        rw [h3] at this
        simp only [List.length_nil] at this
        unfold strlen
        simp only [List.length_cons, List.length_nil] at this ⊢
        omega)]

/-- Witness of C13: after `Mg(OH)2`, both `O0` and `(O)0` leave the stack of
`Mg(OH)2`. -/
theorem zero_multiplier_deletes_witness :
    isSymbolName (str "O") = true ∧ inTable tableHOMg (str "O") = true ∧
      openMoleculeType (str "Mg(OH)2") initStack tableHOMg
        = some (EXIT_SUCCESS, Stack.ofList [str "OH", str "OH", str "Mg"]) ∧
      openMoleculeType (str "Mg(OH)2O0") initStack tableHOMg
        = some (EXIT_SUCCESS, Stack.ofList [str "OH", str "OH", str "Mg"]) ∧
      openMoleculeType (str "Mg(OH)2(O)0") initStack tableHOMg
        = some (EXIT_SUCCESS, Stack.ofList [str "OH", str "OH", str "Mg"]) :=
  ⟨by decide, by decide, by decide,
    zero_multiplier_deletes tableHOMg (str "Mg(OH)2") (str "O") initStack
      (Stack.ofList [str "OH", str "OH", str "Mg"]) (by decide) (by decide) (by decide)⟩

/-! ## The markers during the scan -/

theorem scanTrace_inv {buffer : CString} {table : PeriodicTable} (hP : Proper buffer) :
    ∀ (fuel i : Nat) (s : Stack), ScanInv buffer i s →
      ∀ x ∈ scanTrace buffer table fuel i s, ScanInv buffer x.1 x.2 := by
  intro fuel
  induction fuel with
  | zero =>
    intro i s hI x hx
    rw [scanTrace, List.mem_singleton] at hx
    rw [hx]; exact hI
  | succ f ih =>
    intro i s hI x hx
    rw [scanTrace, List.mem_cons] at hx
    rcases hx with rfl | hx
    · exact hI
    · by_cases hlt : i < strlen buffer
      · rw [if_pos hlt] at hx
        cases hPass : loopPass buffer table i s with
        | inl r => rw [hPass] at hx; cases hx
        | inr r =>
          obtain ⟨j, t⟩ := r
          rw [hPass] at hx
          exact ih j t (scanInv_step hP hlt hI hPass) x hx
      · rw [if_neg hlt] at hx; cases hx

/-! ## Stack entries and atoms -/

theorem atomList_flatten (f : Formula) : f.atomList.flatten = f.expand := by
  induction f with
  | nil => rfl
  | sym name mult rest ih => simp [Formula.atomList, Formula.expand, ih]
  | group body mult rest ihb ih =>
    simp only [Formula.atomList, Formula.expand, List.flatten_append, ih]
    congr 1
    generalize timesOf mult = n
    induction n with
    | zero => rfl
    | succ k ihk =>
      simp only [List.replicate_succ, List.flatten_cons, List.flatten_append, ihb, ihk]

theorem atomList_length (f : Formula) : f.atomList.length = f.atoms := by
  induction f with
  | nil => rfl
  | sym name mult rest ih => simp [Formula.atomList, Formula.atoms, ih]
  | group body mult rest ihb ih =>
    simp only [Formula.atomList, Formula.atoms, List.length_append, ih]
    congr 1
    generalize timesOf mult = n
    induction n with
    | zero => simp
    | succ k ihk =>
      simp only [List.replicate_succ, List.flatten_cons, List.length_append, ihb, ihk]
      rw [Nat.succ_mul]
      omega

theorem chunks_flatten (f : Formula) : f.chunks.flatten = f.atomList := by
  induction f with
  | nil => rfl
  | sym name mult rest ih =>
    simp only [Formula.chunks, Formula.atomList, List.flatten_append, ih]
    congr 1
    generalize timesOf mult = n
    induction n with
    | zero => rfl
    | succ k ihk => simp [List.replicate_succ, ihk]
  | group body mult rest _ ih =>
    simp only [Formula.chunks, Formula.atomList, List.flatten_append, ih]

theorem chunks_entries (f : Formula) : f.chunks.map List.flatten = f.entries := by
  induction f with
  | nil => rfl
  | sym name mult rest ih => simp [Formula.chunks, Formula.entries, ih]
  | group body mult rest _ ih =>
    simp [Formula.chunks, Formula.entries, ih, atomList_flatten]

theorem atomList_symbols {table : PeriodicTable} (f : Formula)
    (hwf : f.wellFormed table = true) :
    ∀ a ∈ f.atomList, isSymbolName a = true ∧ inTable table a = true := by
  induction f with
  | nil => simp [Formula.atomList]
  | sym name mult rest ih =>
    have h := hwf
    simp only [Formula.wellFormed, Bool.and_eq_true] at h
    intro a ha
    simp only [Formula.atomList, List.mem_append, List.mem_replicate] at ha
    rcases ha with ⟨-, rfl⟩ | ha
    · exact ⟨h.1.1.1, h.1.1.2⟩
    · exact ih h.2 a ha
  | group body mult rest ihb ih =>
    obtain ⟨-, hwb, -, hr⟩ := wellFormed_group hwf
    intro a ha
    simp only [Formula.atomList, List.mem_append, List.mem_flatten, List.mem_replicate] at ha
    rcases ha with ⟨l, ⟨-, rfl⟩, hal⟩ | ha
    · exact ihb hwb a hal
    · exact ih hr a ha

theorem atomList_ne_nil {table : PeriodicTable} (f : Formula)
    (hwf : f.wellFormed table = true) (hne : f ≠ .nil) : f.atomList ≠ [] := by
  intro h
  have h1 := expand_startsWith f hwf hne
  rw [← atomList_flatten, h] at h1
  simp [startsWith] at h1

theorem chunks_ne_nil {table : PeriodicTable} (f : Formula)
    (hwf : f.wellFormed table = true) : ∀ ch ∈ f.chunks, ch ≠ [] := by
  induction f with
  | nil => simp [Formula.chunks]
  | sym name mult rest ih =>
    obtain ⟨-, -, -, hr⟩ := wellFormed_sym hwf
    intro ch hch
    simp only [Formula.chunks, List.mem_append, List.mem_replicate] at hch
    rcases hch with ⟨-, rfl⟩ | hch
    · simp
    · exact ih hr ch hch
  | group body mult rest _ ih =>
    obtain ⟨hb, hwb, -, hr⟩ := wellFormed_group hwf
    intro ch hch
    simp only [Formula.chunks, List.mem_append, List.mem_replicate] at hch
    rcases hch with ⟨-, rfl⟩ | hch
    · exact atomList_ne_nil body hwb hb
    · exact ih hr ch hch

theorem flat_entries (f : Formula) (hf : f.flat = true) : f.entries = f.atomList := by
  induction f with
  | nil => rfl
  | sym name mult rest ih =>
    simp only [Formula.flat] at hf
    simp [Formula.entries, Formula.atomList, ih hf]
  | group body mult rest _ _ => simp [Formula.flat] at hf

/-! ## `findNumber` -/

/-- C24: for every buffer and every index, `findNumber` returns the decimal
value of the maximal run of digits that starts at the index, which is 0 when the
character there is not a digit, and leaves the index at the first position at
or after it that does not hold a digit. -/
theorem findNumber_run (buffer : CString) (i : Nat) :
    findNumber buffer i
        = (decimalValue ((buffer.drop i).takeWhile isDigitChar),
            i + ((buffer.drop i).takeWhile isDigitChar).length) ∧
      (isDigitChar (charAt buffer i) = false → findNumber buffer i = (0, i)) ∧
      i ≤ (findNumber buffer i).2 ∧
      (∀ k, i ≤ k → k < (findNumber buffer i).2 → isDigitChar (charAt buffer k) = true) ∧
      isDigitChar (charAt buffer (findNumber buffer i).2) = false := by
  have heq : findNumber buffer i
      = (decimalValue ((buffer.drop i).takeWhile isDigitChar),
          i + ((buffer.drop i).takeWhile isDigitChar).length) := by
    unfold findNumber
    rw [findNumberLoop_eq]
    rfl
  refine ⟨heq, ?_, ?_, ?_, ?_⟩
  · intro h
    rw [charAt_eq_headD] at h
    rw [heq, takeWhile_nil_of_headD h]
    rfl
  · rw [heq]; exact Nat.le_add_right _ _
  · intro k hk1 hk2
    rw [heq] at hk2
    have := takeWhile_getD (q := isDigitChar) (buffer.drop i) (k - i) (by simp only at hk2; omega)
    rw [← charAt_add_drop] at this
    rwa [show i + (k - i) = k by omega] at this
  · rw [heq]
    have := takeWhile_stop isDigitChar_NUL (buffer.drop i)
    rw [← charAt_add_drop] at this
    exact this

/-! ## The last character of a line -/

/-- C26: `checkValidity` never examines the last character of its input. For
every string and all characters c and d, the result on the string followed by c
is the result on the string followed by d: the depth scan of the string alone. -/
theorem checkValidity_ignores_last (s : List Char) (c d : Char) :
    checkValidity (s ++ [c]) = checkValidity (s ++ [d]) ∧
      checkValidity (s ++ [c]) = some (depthScan 0 s) ∧
      checkValidity (s ++ [')']) = checkValidity (s ++ ['\n']) ∧
      checkValidity (s ++ ['(']) = checkValidity (s ++ ['\n']) := by
  simp only [checkValidity_append_char, and_self]

/-- The loop of `openMoleculeType` ends when it has fuel for the characters
that are left. -/
theorem loop_terminates (buffer : CString) (table : PeriodicTable) (fuel i : Nat)
    (s : Stack) (h : strlen buffer ≤ fuel + i) :
    ∃ e st, openMoleculeTypeLoop buffer table fuel i s = some (e, st) := by
  obtain ⟨e, st, hrun, -⟩ := loop_invariant buffer table (fun _ _ => True)
    (fun _ _ _ _ _ _ _ => trivial) fuel i s h trivial
  exact ⟨e, st, hrun⟩

/-- C25: the trailing line break does not take part in the evaluation. For
every element table, every stack and every line, `openMoleculeType` on the line
followed by a line break returns, and it returns the same status and the same
stack as on the line alone. -/
theorem trailing_newline_ignored (table : PeriodicTable) (s : CString) (stack : Stack) :
    openMoleculeType (s ++ ['\n']) stack table = openMoleculeType s stack table ∧
      ∃ status st, openMoleculeType s stack table = some (status, st) := by
  obtain ⟨e, st, h⟩ := loop_terminates s table (strlen s) 0 stack (by omega)
  refine ⟨?_, e.status, st, openMoleculeType_of_exit h⟩
  rw [openMoleculeType_of_exit h]
  have hlen : strlen (s ++ ['\n']) = strlen s + 1 := by simp [strlen]
  obtain ⟨h1, h2⟩ := loop_append table s ['\n'] (by decide) (by decide) (strlen s) 0 stack e st
    (Nat.zero_le _) h 1
  apply openMoleculeType_of_exit
  rw [hlen]
  by_cases hd : e = .done
  · obtain ⟨g2, hg, heq⟩ := h2 hd
    rw [heq, hd]
    exact loop_tail table g2 st (Or.inr rfl) (List.drop_left _ _) hg
  · exact h1 hd

/-! ## Re-segmenting concatenated entries -/

theorem readSymbolBounded_eq (buffer : CString) (i : Nat) :
    readSymbolBounded buffer i
      = (charAt buffer i :: (buffer.drop (i + 1)).takeWhile isLowerCase,
          i + ((buffer.drop (i + 1)).takeWhile isLowerCase).length) := by
  unfold readSymbolBounded
  by_cases h : isLowerCase (charAt buffer (i + 1)) = true
  · have hlt : i + 1 < strlen buffer := by
      by_contra hge
      have : buffer.drop (i + 1) = [] :=
        List.drop_eq_nil_of_le (by unfold strlen at hge; omega)
      rw [charAt_eq_headD, this] at h
      simp [isLowerCase_NUL] at h
    rw [if_pos ⟨hlt, h⟩, symbolLoop_eq]
    have : 0 < ((buffer.drop (i + 1)).takeWhile isLowerCase).length := by
      rw [charAt_eq_headD] at h
      cases hE : buffer.drop (i + 1) with
      | nil => rw [hE] at h; simp [isLowerCase_NUL] at h
      | cons a t =>
        rw [hE] at h
        have : isLowerCase a = true := by simpa using h
        simp [this]
    simp only [List.singleton_append]
    congr 1
    omega
  · rw [if_neg (fun hc => h hc.2)]
    have h2 : isLowerCase ((buffer.drop (i + 1)).headD NUL) = false := by
      rw [← charAt_eq_headD]; simpa using h
    simp [takeWhile_nil_of_headD h2]

theorem symbolSum_drop_lower (table : PeriodicTable) (t : List Char) :
    symbolSum table (t.drop (t.takeWhile isLowerCase).length) = symbolSum table t := by
  induction t with
  | nil => rfl
  | cons c t ih =>
    by_cases hc : isLowerCase c = true
    · have hnu : isUpperCase c = false := by
        cases hb : isUpperCase c
        · rfl
        · rw [upper_not_lower hb] at hc; cases hc
      rw [List.takeWhile_cons_of_pos hc, List.length_cons, List.drop_succ_cons, ih, symbolSum,
        hnu]
      simp
    · rw [List.takeWhile_cons_of_neg hc]
      rfl

/-- The loop of `getMoleculeNumber` ends when it has fuel for the characters
that are left, with the symbol sum of those characters added. -/
theorem number_loop_eq (buffer : CString) (table : PeriodicTable) :
    ∀ (fuel i : Nat) (number : Int), strlen buffer ≤ fuel + i →
      getMoleculeNumberLoop buffer table fuel i number
        = some (number + symbolSum table (buffer.drop i)) := by
  intro fuel
  induction fuel with
  | zero =>
    intro i number h
    rw [number_loop_end table 0 number (by omega),
      List.drop_eq_nil_of_le (by unfold strlen at h; omega)]
    simp [symbolSum]
  | succ f ih =>
    intro i number h
    by_cases hlt : i < strlen buffer
    · rw [getMoleculeNumberLoop, if_pos hlt, drop_eq_charAt_cons hlt, symbolSum]
      by_cases hu : isUpperCase (charAt buffer i) = true
      · have hkey : symbolSum table
            (buffer.drop (i + ((buffer.drop (i + 1)).takeWhile isLowerCase).length + 1))
            = symbolSum table (buffer.drop (i + 1)) := by
          rw [show i + ((buffer.drop (i + 1)).takeWhile isLowerCase).length + 1
            = (i + 1) + ((buffer.drop (i + 1)).takeWhile isLowerCase).length by omega,
            ← List.drop_drop]
          exact symbolSum_drop_lower table (buffer.drop (i + 1))
        rw [if_pos hu, if_pos hu, readSymbolBounded_eq,
          ih _ _ (by simp only; omega)]
        simp only
        rw [hkey, Int.add_assoc]
      · rw [if_neg hu, if_neg hu, ih _ _ (by omega)]
        simp
    · rw [number_loop_end table _ number (by omega),
        List.drop_eq_nil_of_le (by unfold strlen at hlt; omega)]
      simp [symbolSum]

theorem getMoleculeNumber_eq (buffer : CString) (table : PeriodicTable) :
    getMoleculeNumber buffer table = some (symbolSum table buffer) := by
  unfold getMoleculeNumber
  rw [number_loop_eq buffer table _ 0 0 (by omega)]
  simp

theorem symbolSum_append (table : PeriodicTable) (a b : List Char)
    (hb : startsWith isLowerCase b = false) :
    symbolSum table (a ++ b) = symbolSum table a + symbolSum table b := by
  induction a with
  | nil => simp [symbolSum]
  | cons c t ih =>
    rw [List.cons_append, symbolSum, symbolSum, takeWhile_append_of_head _ _ hb, ih,
      Int.add_assoc]

theorem startsWith_flatten_append (L : List CString) (tail : List Char)
    (hL : ∀ e ∈ L, startsWith isLowerCase e = false)
    (ht : startsWith isLowerCase tail = false) :
    startsWith isLowerCase (L.flatten ++ tail) = false := by
  induction L with
  | nil => simpa using ht
  | cons e es ih =>
    have he := hL e (by simp)
    have hrest := ih (fun x hx => hL x (by simp [hx]))
    rw [List.flatten_cons, List.append_assoc]
    cases e with
    | nil => simpa using hrest
    | cons c t => simpa [startsWith] using he

theorem symbolSum_flatten (table : PeriodicTable) (L : List CString) (tail : List Char)
    (hL : ∀ e ∈ L, startsWith isLowerCase e = false)
    (ht : startsWith isLowerCase tail = false) :
    symbolSum table (L.flatten ++ tail)
      = (L.map (symbolSum table)).sum + symbolSum table tail := by
  induction L with
  | nil => simp
  | cons e es ih =>
    have hes : ∀ x ∈ es, startsWith isLowerCase x = false := fun x hx => hL x (by simp [hx])
    rw [List.flatten_cons, List.append_assoc,
      symbolSum_append table e _ (startsWith_flatten_append es tail hes ht), ih hes]
    simp [Int.add_assoc]

/-- C27: re-segmenting concatenated stack entries loses nothing. For every
element table and all strings a and b with b empty or not beginning with a
lowercase letter, `getMoleculeNumber` of a followed by b is the sum of those of
a and of b; hence for every stack whose size is its number of entries and whose
entries do not begin with a lowercase letter, the number `printMoleculeNumber`
computes is `getMoleculeNumber` of the text `printStack` writes. -/
theorem resegmenting_loses_nothing (table : PeriodicTable) (a b : CString)
    (l : List CString) (hb : startsWith isLowerCase b = false)
    (hl : ∀ e ∈ l, startsWith isLowerCase e = false) :
    (∃ x y, getMoleculeNumber a table = some x ∧ getMoleculeNumber b table = some y ∧
      getMoleculeNumber (a ++ b) table = some (x + y)) ∧
    ∃ n, printMoleculeNumber (Stack.ofList l) table = some (EXIT_SUCCESS, initStack, some n) ∧
      getMoleculeNumber (printStack (Stack.ofList l)).2.2 table = some n := by
  constructor
  · exact ⟨_, _, getMoleculeNumber_eq a table, getMoleculeNumber_eq b table, by
      rw [getMoleculeNumber_eq, symbolSum_append table a b hb]⟩
  · refine ⟨_, printMoleculeNumber_ofList table l (symbolSum table)
      (fun e _ => getMoleculeNumber_eq e table), ?_⟩
    rw [printStack_ofList, getMoleculeNumber_eq,
      symbolSum_flatten table l.reverse ['\n'] (fun e he => hl e (List.mem_reverse.1 he)) rfl]
    simp [symbolSum, isUpperCase]

/-- Witness of C27: `Mg` followed by `OH` over the table H 1, O 8, Mg 12, and the
stack of `Mg(OH)2`. -/
theorem resegmenting_loses_nothing_witness :
    startsWith isLowerCase (str "OH") = false ∧
      (∀ e ∈ [str "OH", str "OH", str "Mg"], startsWith isLowerCase e = false) ∧
      (∃ x y, getMoleculeNumber (str "Mg") tableHOMg = some x ∧
        getMoleculeNumber (str "OH") tableHOMg = some y ∧
        getMoleculeNumber (str "MgOH") tableHOMg = some (x + y)) ∧
      ∃ n, printMoleculeNumber (Stack.ofList [str "OH", str "OH", str "Mg"]) tableHOMg
          = some (EXIT_SUCCESS, initStack, some n) ∧
        getMoleculeNumber (printStack (Stack.ofList [str "OH", str "OH", str "Mg"])).2.2
          tableHOMg = some n :=
  ⟨by decide, by decide,
    resegmenting_loses_nothing tableHOMg (str "Mg") (str "OH")
      [str "OH", str "OH", str "Mg"] (by decide) (by decide)⟩

/-! ## `insertionSort` -/

/-- C21: on the array `Mg 12`, `H 1` as `createMolecule` builds it,
`insertionSort` copies the name `Mg`, 3 bytes with its terminator, into the
buffer of 2 bytes allocated for `H`, a write past the end of the buffer, and so
it does on `H 12`, `Mg 1`: the entries are not brought into order. On `O 8`,
`H 1`, whose names are equally long, it leaves `H 1`, `O 8`. -/
theorem insertionSort_overruns_name_buffer :
    insertionSort [createMolecule (str "Mg") 12, createMolecule (str "H") 1] = .overrun ∧
      insertionSort [createMolecule (str "H") 12, createMolecule (str "Mg") 1] = .overrun ∧
      insertionSort [createMolecule (str "O") 8, createMolecule (str "H") 1]
        = .returns [createMolecule (str "H") 1, createMolecule (str "O") 8] := by
  decide

/-! ## Lookups and the order of the table -/

/-- C22: the table `He 2`, `H 1` has unique symbols and both lookups find `He`
in it, but `insertionSort` writes past the buffer of `H` when it moves `He`, so
that `getTable` gives no defined table in which the lookups could be repeated. -/
theorem lookups_undefined_after_sort :
    (([⟨2, str "He"⟩, ⟨1, str "H"⟩] : PeriodicTable).map fun m => m.name).Nodup ∧
      isMolecule (str "He") [⟨2, str "He"⟩, ⟨1, str "H"⟩] = EXIT_SUCCESS ∧
      findMoleculeNumber (str "He") [⟨2, str "He"⟩, ⟨1, str "H"⟩] = 2 ∧
      insertionSort [createMolecule (str "He") 2, createMolecule (str "H") 1] = .overrun ∧
      getTable 2 (sourceScans [⟨2, str "He"⟩, ⟨1, str "H"⟩]) = .undefined := by
  decide

/-! ## `getTable` -/

theorem wrapInt_of_range {x : Int} (h1 : -2147483648 ≤ x) (h2 : x < 2147483648) :
    Machine.wrapInt x = x := by
  unfold Machine.wrapInt
  omega

theorem wrapInt_natCast {n : Nat} (h : n < 2147483648) : Machine.wrapInt (n : Int) = n :=
  wrapInt_of_range (by omega) (by omega)

theorem wrapInt_add (a b : Int) :
    Machine.wrapInt (Machine.wrapInt a + b) = Machine.wrapInt (a + b) := by
  unfold Machine.wrapInt
  omega

theorem wrapInt_digit (a d : Int) :
    Machine.wrapInt (Machine.wrapInt a * 10 + d) = Machine.wrapInt (a * 10 + d) := by
  unfold Machine.wrapInt
  omega

theorem machine_findNumberLoop (l : List Char) (index n : Nat) :
    Machine.findNumberLoop l index (Machine.wrapInt (n : Int))
      = (Machine.wrapInt ((findNumberLoop l index n).1 : Int), (findNumberLoop l index n).2) := by
  induction l generalizing index n with
  | nil => simp [Machine.findNumberLoop, findNumberLoop]
  | cons c t ih =>
    by_cases hc : isDigitChar c = true
    · rw [Machine.findNumberLoop, if_pos hc, findNumberLoop, if_pos hc, wrapInt_digit]
      have := ih (index + 1) (n * 10 + digitValue c)
      rw [← this]
      push_cast
      rfl
    · rw [Machine.findNumberLoop, if_neg hc, findNumberLoop, if_neg hc]

/-- The number `findNumber` reads into an `int` is the value of the digit run
modulo 2^32, and the index it leaves does not depend on the value. -/
theorem machine_findNumber (buffer : CString) (index : Nat) :
    Machine.findNumber buffer index
      = (Machine.wrapInt ((findNumber buffer index).1 : Int), (findNumber buffer index).2) := by
  unfold Machine.findNumber findNumber
  have := machine_findNumberLoop (buffer.drop index) index 0
  rw [← this]
  rfl

theorem machine_closeTimes (buffer : CString) (i : Nat) :
    Machine.closeTimes buffer i
      = (Machine.wrapInt ((closeTimes buffer i).1 : Int), (closeTimes buffer i).2) := by
  unfold Machine.closeTimes closeTimes
  by_cases h : i + 1 < strlen buffer ∧ isDigitChar (charAt buffer (i + 1)) = true
  · rw [if_pos h, if_pos h, machine_findNumber]
  · rw [if_neg h, if_neg h]
    simp only [Nat.cast_one]
    rw [wrapInt_of_range (by omega) (by omega)]

theorem digitValue_le {c : Char} (h : isDigitChar c = true) : digitValue c ≤ 9 := by
  have := (isDigitChar_iff c).1 h
  unfold digitValue
  have h0 : ('0').toNat = 48 := rfl
  omega

theorem machine_digitTimes (buffer : CString) (i : Nat)
    (hd : isDigitChar (charAt buffer i) = true) :
    Machine.digitTimes buffer i
      = (Machine.wrapInt ((digitTimes buffer i).1 : Int), (digitTimes buffer i).2) := by
  unfold Machine.digitTimes digitTimes
  by_cases h : i + 1 < strlen buffer ∧ isDigitChar (charAt buffer (i + 1)) = true
  · rw [if_pos h, if_pos h, machine_findNumber]
  · rw [if_neg h, if_neg h]
    have := digitValue_le hd
    rw [wrapInt_natCast (by omega)]

theorem machine_pushTimes (n : Nat) (stack : Stack) (value : CString) :
    Machine.pushTimes (n : Int) stack value = pushTimes n stack value := by
  unfold Machine.pushTimes
  rw [Int.toNat_ofNat]

/-! ## The limits of the machine: the arrays of the group closure -/

theorem machine_pop (s : Stack) (r : CString) :
    Machine.pop s r
      = if (pop s r).1 = EXIT_SUCCESS ∧ arraySize ≤ strlen (pop s r).2.2 then .overrun
        else .returns (pop s r) := by
  unfold Machine.pop pop
  by_cases h0 : s.size = 0
  · simp [h0]
  · simp only [if_neg h0]
    cases s.top with
    | nil => simp
    | cons data next =>
      simp only
      by_cases hfit : strlen data < arraySize
      · have hn : ¬ arraySize ≤ strlen data := by omega
        simp [hfit, hn]
      · have hn : arraySize ≤ strlen data := by omega
        simp [hfit, hn]

theorem machine_pop_cases (s : Stack) (r : CString) :
    Machine.pop s r = .overrun ∨ Machine.pop s r = .returns (pop s r) := by
  rw [machine_pop]
  split
  · exact Or.inl rfl
  · exact Or.inr rfl

theorem machine_pop_ofList_cons (l : List CString) (v r : CString)
    (hv : strlen v < arraySize) :
    Machine.pop (Stack.ofList (v :: l)) r = .returns (EXIT_SUCCESS, Stack.ofList l, v) := by
  rw [machine_pop, pop_ofList_cons, if_neg (by simp; omega)]

theorem machine_closeLoop_cases :
    ∀ (size : Nat) (top : List CString) (retval buffer2 : CString),
      Machine.closeLoop size top retval buffer2 = .overrun ∨
        Machine.closeLoop size top retval buffer2
          = .returns (closeLoop size top retval buffer2) := by
  intro size
  induction size with
  | zero =>
    intro top retval buffer2
    rw [Machine.closeLoop, closeLoop]
    by_cases hm : retval = openMarker
    · simp [hm]
    · simp only [if_neg hm]
      split
      · exact Or.inl rfl
      · exact Or.inr rfl
  | succ n ih =>
    intro top retval buffer2
    rw [Machine.closeLoop, closeLoop]
    by_cases hm : retval = openMarker
    · simp [hm]
    · simp only [if_neg hm]
      split
      · exact Or.inl rfl
      · rcases machine_pop_cases ⟨top, n + 1⟩ (retval ++ buffer2) with hp | hp
        · rw [hp]; exact Or.inl rfl
        · rw [hp]
          simp only
          split
          · exact Or.inr rfl
          · exact ih _ _ _

theorem machine_closeGroup_cases (stack : Stack) :
    Machine.closeGroup stack = .overrun ∨
      Machine.closeGroup stack = .returns (closeGroup stack) := by
  unfold Machine.closeGroup closeGroup
  rcases machine_pop_cases stack [] with hp | hp
  · rw [hp]; exact Or.inl rfl
  · rw [hp]
    simp only
    split
    · exact Or.inr rfl
    · rcases machine_pop_cases (pop stack []).2.1 (pop stack []).2.2 with hq | hq
      · rw [hq]; exact Or.inl rfl
      · rw [hq]
        simp only
        split
        · exact Or.inr rfl
        · exact machine_closeLoop_cases _ _ _ _

/-! ## One pass within the limits of the machine -/

theorem timesOf_lt_of_intRange {buffer : CString} (hR : IntRange buffer) (k : Nat) :
    timesOf ((buffer.drop k).takeWhile isDigitChar) < 2147483648 := by
  unfold timesOf
  split
  · omega
  · rename_i hne
    by_cases hk : k < strlen buffer
    · exact hR k hk
    · exact absurd (by rw [List.drop_eq_nil_of_le (by unfold strlen at hk; omega)]; rfl) hne

/-- A pass within the limits of the machine writes past an array, or it does what
the pass with unlimited arrays and numbers does: it returns by the same
statement with the same stack, or it goes on at the same index, and with the
same stack when the digit runs of the line fit an `int`. -/
theorem machine_loopPass_cases (buffer : CString) (table : PeriodicTable) (i : Nat)
    (s : Stack) :
    Machine.loopPass buffer table i s = .overrun ∨
      (∃ r, Machine.loopPass buffer table i s = .returns (.inl r) ∧
        loopPass buffer table i s = .inl r) ∨
      (∃ j t u, Machine.loopPass buffer table i s = .returns (.inr (j, t)) ∧
        loopPass buffer table i s = .inr (j, u) ∧
        (IntRange buffer → i < strlen buffer → t = u)) := by
  unfold Machine.loopPass loopPass
  by_cases hu : isUpperCase (charAt buffer i) = true
  · simp only [if_pos hu]
    by_cases hcap : arraySize ≤ strlen (readSymbol buffer i).1
    · rw [if_pos hcap]; exact Or.inl rfl
    · rw [if_neg hcap]
      by_cases hm : isMolecule (readSymbol buffer i).1 table = EXIT_SUCCESS
      · rw [if_pos hm, if_pos hm]
        exact Or.inr (Or.inr ⟨_, _, _, rfl, rfl, fun _ _ => rfl⟩)
      · rw [if_neg hm, if_neg hm]
        exact Or.inr (Or.inl ⟨_, rfl, rfl⟩)
  · simp only [if_neg hu]
    by_cases ho : charAt buffer i = '('
    · simp only [if_pos ho]
      exact Or.inr (Or.inr ⟨_, _, _, rfl, rfl, fun _ _ => rfl⟩)
    · simp only [if_neg ho]
      by_cases hc : charAt buffer i = ')'
      · simp only [if_pos hc]
        rcases machine_closeGroup_cases s with hg | hg
        · rw [hg]; exact Or.inl rfl
        · rw [hg]
          rcases hcg : closeGroup s with ⟨st, s1, b2⟩
          simp only
          by_cases hf : st = EXIT_FAILURE
          · rw [if_pos hf, if_pos hf]
            exact Or.inr (Or.inl ⟨_, rfl, rfl⟩)
          · rw [if_neg hf, if_neg hf, machine_closeTimes]
            refine Or.inr (Or.inr ⟨_, _, _, rfl, rfl, fun hR _ => ?_⟩)
            simp only
            rw [closeTimes_fst, wrapInt_natCast (timesOf_lt_of_intRange hR _),
              machine_pushTimes]
      · simp only [if_neg hc]
        by_cases hd : isDigitChar (charAt buffer i) = true
        · simp only [if_pos hd]
          rcases machine_pop_cases s [] with hp | hp
          · rw [hp]; exact Or.inl rfl
          · rw [hp]
            rcases hpp : pop s [] with ⟨st, s1, b2⟩
            simp only
            by_cases hf : st = EXIT_FAILURE
            · rw [if_pos hf, if_pos hf]
              exact Or.inr (Or.inl ⟨_, rfl, rfl⟩)
            · rw [if_neg hf, if_neg hf, machine_digitTimes buffer i hd]
              refine Or.inr (Or.inr ⟨_, _, _, rfl, rfl, fun hR hlt => ?_⟩)
              simp only
              rw [digitTimes_fst buffer i hlt hd, wrapInt_natCast (hR i hlt), machine_pushTimes]
        · simp only [if_neg hd]
          by_cases hl : isLowerCase (charAt buffer i) = true
          · simp only [if_pos hl]
            exact Or.inr (Or.inl ⟨_, rfl, rfl⟩)
          · simp only [if_neg hl]
            exact Or.inr (Or.inr ⟨_, _, _, rfl, rfl, fun _ _ => rfl⟩)

/-! ## The loop within the limits of the machine -/

theorem machine_loop_end {buffer : CString} (table : PeriodicTable) (fuel : Nat) {i : Nat}
    (stack : Stack) (h : strlen buffer ≤ i) :
    Machine.openMoleculeTypeLoop buffer table fuel i stack = some (.returns (.done, stack)) := by
  have : ¬ i < strlen buffer := by omega
  cases fuel <;> simp [Machine.openMoleculeTypeLoop, this]

/-- What a pass that goes on steps over, within the limits of the machine: the
index grows and stays within the line, and every index between the old and the
new one holds a digit, or a lowercase letter of the symbol that starts at the
uppercase letter of the old index. -/
theorem machine_loopPass_skips {buffer : CString} {table : PeriodicTable} {i j : Nat}
    {s t : Stack} (hlt : i < strlen buffer)
    (h : Machine.loopPass buffer table i s = .returns (.inr (j, t))) :
    i < j ∧ j ≤ strlen buffer ∧ ∀ p, i < p → p < j →
      isDigitChar (charAt buffer p) = true ∨
        (isUpperCase (charAt buffer i) = true ∧
          ∀ q, i < q → q ≤ p → isLowerCase (charAt buffer q) = true) := by
  rcases machine_loopPass_cases buffer table i s with ho | ⟨r, hr, -⟩ | ⟨j2, t2, u, hm, hi, -⟩
  · rw [ho] at h; cases h
  · rw [hr] at h; cases h
  · rw [hm] at h
    simp only [Outcome.returns.injEq, Sum.inr.injEq, Prod.mk.injEq] at h
    obtain ⟨rfl, rfl⟩ := h
    obtain ⟨h1, h2⟩ := loopPass_skips hlt hi
    exact ⟨h1, loopPass_le_strlen hlt hi, h2⟩

theorem machine_loopPass_inl_status {buffer : CString} {table : PeriodicTable} {i : Nat}
    {s st : Stack} {e : Exit}
    (h : Machine.loopPass buffer table i s = .returns (.inl (e, st))) :
    e.status = EXIT_FAILURE := by
  rcases machine_loopPass_cases buffer table i s with ho | ⟨r, hr, hi⟩ | ⟨j2, t2, u, hm, -, -⟩
  · rw [ho] at h; cases h
  · rw [hr] at h
    simp only [Outcome.returns.injEq, Sum.inl.injEq] at h
    subst h
    exact loopPass_inl_status hi
  · rw [hm] at h; cases h

/-- Within the limits of the machine the loop ends with fuel for the characters
that are left, in one of three ways: a pass writes past an array, the loop
reaches the end of the buffer, or a pass returns. An invariant that every pass
keeps holds where the loop ends. -/
theorem machine_loop_invariant (buffer : CString) (table : PeriodicTable)
    (Inv : Nat → Stack → Prop)
    (hstep : ∀ i s j t, i < strlen buffer → Inv i s →
      Machine.loopPass buffer table i s = .returns (.inr (j, t)) → Inv j t) :
    ∀ (fuel i : Nat) (s : Stack), strlen buffer ≤ fuel + i → Inv i s →
      ∃ o, Machine.openMoleculeTypeLoop buffer table fuel i s = some o ∧
        ((o = .overrun ∧ ∃ k u, k < strlen buffer ∧ Inv k u ∧
            Machine.loopPass buffer table k u = .overrun) ∨
          (∃ st j, o = .returns (.done, st) ∧ strlen buffer ≤ j ∧ Inv j st) ∨
          (∃ e st k u, o = .returns (e, st) ∧ k < strlen buffer ∧ Inv k u ∧
            Machine.loopPass buffer table k u = .returns (.inl (e, st)))) := by
  intro fuel
  induction fuel with
  | zero =>
    intro i s hf hI
    exact ⟨_, machine_loop_end table 0 s (by omega), Or.inr (Or.inl ⟨s, i, rfl, by omega, hI⟩)⟩
  | succ n ih =>
    intro i s hf hI
    by_cases hlt : i < strlen buffer
    · rw [Machine.openMoleculeTypeLoop, if_pos hlt]
      cases hP : Machine.loopPass buffer table i s with
      | overrun => exact ⟨_, rfl, Or.inl ⟨rfl, i, s, hlt, hI, hP⟩⟩
      | returns r =>
        cases r with
        | inl r =>
          obtain ⟨e, st⟩ := r
          exact ⟨_, rfl, Or.inr (Or.inr ⟨e, st, i, s, rfl, hlt, hI, hP⟩)⟩
        | inr r =>
          obtain ⟨j, t⟩ := r
          have hadv := (machine_loopPass_skips hlt hP).1
          exact ih j t (by omega) (hstep i s j t hlt hI hP)
    · exact ⟨_, machine_loop_end table _ s (by omega),
        Or.inr (Or.inl ⟨s, i, rfl, by omega, hI⟩)⟩

theorem machine_loop_mono (buffer : CString) (table : PeriodicTable) :
    ∀ (f i : Nat) (s : Stack) (o : Outcome (Exit × Stack)),
      Machine.openMoleculeTypeLoop buffer table f i s = some o →
      ∀ g, Machine.openMoleculeTypeLoop buffer table (f + g) i s = some o := by
  intro f
  induction f with
  | zero =>
    intro i s o ho g
    rw [Machine.openMoleculeTypeLoop] at ho
    split at ho
    · cases ho
    · rw [← ho]
      exact machine_loop_end table _ s (by omega)
  | succ n ih =>
    intro i s o ho g
    rw [Machine.openMoleculeTypeLoop] at ho
    rw [show n + 1 + g = (n + g) + 1 by omega, Machine.openMoleculeTypeLoop]
    by_cases hlt : i < strlen buffer
    · rw [if_pos hlt] at ho ⊢
      cases hP : Machine.loopPass buffer table i s with
      | overrun => rw [hP] at ho; exact ho
      | returns r =>
        cases r with
        | inl r => rw [hP] at ho; exact ho
        | inr r =>
          obtain ⟨j, t⟩ := r
          rw [hP] at ho
          exact ih j t o ho g
    · rw [if_neg hlt] at ho ⊢
      exact ho

/-- On a line whose digit runs fit an `int`, the loop within the limits of the
machine writes past an array or ends as the loop with unlimited arrays does. -/
theorem machine_loop_sim {buffer : CString} (table : PeriodicTable) (hR : IntRange buffer) :
    ∀ (fuel i : Nat) (s : Stack),
      Machine.openMoleculeTypeLoop buffer table fuel i s = some .overrun ∨
        Machine.openMoleculeTypeLoop buffer table fuel i s
          = (openMoleculeTypeLoop buffer table fuel i s).map .returns := by
  intro fuel
  induction fuel with
  | zero =>
    intro i s
    right
    rw [Machine.openMoleculeTypeLoop, openMoleculeTypeLoop]
    split <;> rfl
  | succ n ih =>
    intro i s
    rw [Machine.openMoleculeTypeLoop, loop_succ]
    by_cases hlt : i < strlen buffer
    · rw [if_pos hlt, if_pos hlt]
      rcases machine_loopPass_cases buffer table i s with ho | ⟨r, hr, hi⟩ | ⟨j, t, u, hm, hi, ht⟩
      · rw [ho]; exact Or.inl rfl
      · rw [hr, hi]; exact Or.inr rfl
      · rw [hm, hi, ht hR hlt]
        exact ih j u
    · rw [if_neg hlt, if_neg hlt]
      exact Or.inr rfl

theorem machine_exit_sim {buffer : CString} (table : PeriodicTable) (stack : Stack)
    (hR : IntRange buffer) :
    Machine.openMoleculeTypeExit buffer stack table = some .overrun ∨
      Machine.openMoleculeTypeExit buffer stack table
        = (openMoleculeTypeExit buffer stack table).map .returns :=
  machine_loop_sim table hR _ _ _

theorem machine_openMoleculeType_sim {buffer : CString} (table : PeriodicTable)
    (stack : Stack) (hR : IntRange buffer) :
    Machine.openMoleculeType buffer stack table = some .overrun ∨
      Machine.openMoleculeType buffer stack table
        = (openMoleculeType buffer stack table).map .returns := by
  unfold Machine.openMoleculeType openMoleculeType
  rcases machine_exit_sim table stack hR with h | h
  · rw [h]; exact Or.inl rfl
  · rw [h]
    cases openMoleculeTypeExit buffer stack table with
    | none => exact Or.inr rfl
    | some r => exact Or.inr rfl

theorem machine_scanTrace_sim {buffer : CString} (table : PeriodicTable)
    (hR : IntRange buffer) :
    ∀ (fuel i : Nat) (s : Stack), ∀ x ∈ Machine.scanTrace buffer table fuel i s,
      x ∈ scanTrace buffer table fuel i s := by
  intro fuel
  induction fuel with
  | zero =>
    intro i s x hx
    rw [Machine.scanTrace] at hx
    rw [scanTrace]
    exact hx
  | succ n ih =>
    intro i s x hx
    rw [Machine.scanTrace, List.mem_cons] at hx
    rw [scanTrace, List.mem_cons]
    rcases hx with rfl | hx
    · exact Or.inl rfl
    · right
      by_cases hlt : i < strlen buffer
      · rw [if_pos hlt] at hx ⊢
        rcases machine_loopPass_cases buffer table i s with ho | ⟨r, hr, hi⟩ |
          ⟨j, t, u, hm, hi, ht⟩
        · rw [ho] at hx; cases hx
        · rw [hr] at hx; cases hx
        · rw [hm] at hx
          rw [hi, ← ht hR hlt]
          exact ih j t x hx
      · rw [if_neg hlt] at hx; cases hx

/-! ## The entries the machine leaves on the stack -/

theorem pushTimes_top (n : Nat) (s : Stack) (v : CString) :
    (pushTimes n s v).top = List.replicate n v ++ s.top := by
  induction n generalizing s with
  | zero => simp [pushTimes]
  | succ k ih =>
    rw [pushTimes, ih, List.replicate_succ', List.append_assoc]
    rfl

theorem machine_pop_returns {s s1 : Stack} {r v : CString} {st : Int}
    (h : Machine.pop s r = .returns (st, s1, v)) :
    (∀ e ∈ s1.top, e ∈ s.top) ∧
      (st ≠ EXIT_FAILURE → v ∈ s.top ∧ strlen v < arraySize) := by
  unfold Machine.pop at h
  split at h
  · cases h
    exact ⟨fun e he => he, fun hne => absurd rfl hne⟩
  · split at h
    · cases h
      exact ⟨fun e he => he, fun hne => absurd rfl hne⟩
    · rename_i data next htop
      split at h
      · rename_i hfit
        cases h
        rw [htop]
        exact ⟨fun e he => by simp [he], fun _ => ⟨by simp, hfit⟩⟩
      · cases h

theorem machine_closeLoop_returns :
    ∀ (size : Nat) (top : List CString) (retval buffer2 : CString) (st : Int) (s1 : Stack)
      (b2 : CString),
      Machine.closeLoop size top retval buffer2 = .returns (st, s1, b2) →
      strlen buffer2 < arraySize →
      (∀ e ∈ s1.top, e ∈ top) ∧ strlen b2 < arraySize := by
  intro size
  induction size with
  | zero =>
    intro top retval buffer2 st s1 b2 h hb
    rw [Machine.closeLoop] at h
    split at h
    · cases h
      exact ⟨fun e he => he, hb⟩
    · split at h
      · cases h
      · rename_i hfit
        cases h
        refine ⟨fun e he => he, ?_⟩
        simp only [strlen, List.length_append] at hfit ⊢
        omega
  | succ n ih =>
    intro top retval buffer2 st s1 b2 h hb
    rw [Machine.closeLoop] at h
    split at h
    · cases h
      exact ⟨fun e he => he, hb⟩
    · split at h
      · cases h
      · rename_i hfit
        have hcat : strlen (retval ++ buffer2) < arraySize := by
          simp only [strlen, List.length_append] at hfit ⊢
          omega
        cases hp : Machine.pop ⟨top, n + 1⟩ (retval ++ buffer2) with
        | overrun => rw [hp] at h; cases h
        | returns r =>
          obtain ⟨st2, s2, r2⟩ := r
          rw [hp] at h
          simp only at h
          obtain ⟨hsub, -⟩ := machine_pop_returns hp
          split at h
          · cases h
            exact ⟨hsub, hcat⟩
          · obtain ⟨h1, h2⟩ := ih _ _ _ _ _ _ h hcat
            exact ⟨fun e he => hsub e (h1 e he), h2⟩

theorem machine_closeGroup_returns {s s1 : Stack} {st : Int} {b2 : CString}
    (h : Machine.closeGroup s = .returns (st, s1, b2)) :
    (∀ e ∈ s1.top, e ∈ s.top) ∧ strlen b2 < arraySize := by
  unfold Machine.closeGroup at h
  cases hp : Machine.pop s [] with
  | overrun => rw [hp] at h; cases h
  | returns r =>
    obtain ⟨st1, t1, r1⟩ := r
    rw [hp] at h
    simp only at h
    obtain ⟨hsub1, hv1⟩ := machine_pop_returns hp
    split at h
    · cases h
      exact ⟨hsub1, by simp [strlen, arraySize]⟩
    · rename_i hok
      cases hq : Machine.pop t1 r1 with
      | overrun => rw [hq] at h; cases h
      | returns r =>
        obtain ⟨st2, t2, r2⟩ := r
        rw [hq] at h
        simp only at h
        obtain ⟨hsub2, -⟩ := machine_pop_returns hq
        split at h
        · cases h
          exact ⟨fun e he => hsub1 e (hsub2 e he), (hv1 hok).2⟩
        · obtain ⟨h1, h2⟩ := machine_closeLoop_returns _ _ _ _ _ _ _ h (hv1 hok).2
          exact ⟨fun e he => hsub1 e (hsub2 e (h1 e he)), h2⟩

/-- A pass that overruns no array leaves only entries shorter than 1024
characters on a stack that held only such entries. -/
theorem machine_loopPass_short {buffer : CString} {table : PeriodicTable} {i : Nat}
    {s : Stack} (hs : ∀ e ∈ s.top, strlen e < arraySize) :
    (∀ j t, Machine.loopPass buffer table i s = .returns (.inr (j, t)) →
      ∀ e ∈ t.top, strlen e < arraySize) ∧
    (∀ x t, Machine.loopPass buffer table i s = .returns (.inl (x, t)) →
      ∀ e ∈ t.top, strlen e < arraySize) := by
  have hpush : ∀ (n : Int) (s1 : Stack) (v : CString), strlen v < arraySize →
      (∀ e ∈ s1.top, e ∈ s.top) → ∀ e ∈ (Machine.pushTimes n s1 v).top,
        strlen e < arraySize := by
    intro n s1 v hv hsub e he
    unfold Machine.pushTimes at he
    rw [pushTimes_top, List.mem_append] at he
    rcases he with he | he
    · rw [List.eq_of_mem_replicate he]; exact hv
    · exact hs e (hsub e he)
  unfold Machine.loopPass
  by_cases hu : isUpperCase (charAt buffer i) = true
  · simp only [if_pos hu]
    by_cases hcap : arraySize ≤ strlen (readSymbol buffer i).1
    · simp only [if_pos hcap]
      exact ⟨fun j t h => (by cases h), fun x t h => (by cases h)⟩
    · simp only [if_neg hcap]
      split
      · refine ⟨fun j t h => ?_, fun x t h => (by cases h)⟩
        simp only [Outcome.returns.injEq, Sum.inr.injEq, Prod.mk.injEq] at h
        obtain ⟨-, rfl⟩ := h
        intro e he
        rcases List.mem_cons.1 he with rfl | he
        · omega
        · exact hs e he
      · refine ⟨fun j t h => (by cases h), fun x t h => ?_⟩
        simp only [Outcome.returns.injEq, Sum.inl.injEq, Prod.mk.injEq] at h
        obtain ⟨-, rfl⟩ := h
        exact hs
  · simp only [if_neg hu]
    by_cases ho : charAt buffer i = '('
    · simp only [if_pos ho]
      refine ⟨fun j t h => ?_, fun x t h => (by cases h)⟩
      simp only [Outcome.returns.injEq, Sum.inr.injEq, Prod.mk.injEq] at h
      obtain ⟨-, rfl⟩ := h
      intro e he
      rcases List.mem_cons.1 he with rfl | he
      · simp [strlen, openMarker, arraySize]
      · exact hs e he
    · simp only [if_neg ho]
      by_cases hc : charAt buffer i = ')'
      · simp only [if_pos hc]
        cases hg : Machine.closeGroup s with
        | overrun => exact ⟨fun j t h => (by cases h), fun x t h => (by cases h)⟩
        | returns r =>
          obtain ⟨st, s1, b2⟩ := r
          obtain ⟨hsub, hb⟩ := machine_closeGroup_returns hg
          simp only
          split
          · refine ⟨fun j t h => (by cases h), fun x t h => ?_⟩
            simp only [Outcome.returns.injEq, Sum.inl.injEq, Prod.mk.injEq] at h
            obtain ⟨-, rfl⟩ := h
            exact fun e he => hs e (hsub e he)
          · refine ⟨fun j t h => ?_, fun x t h => (by cases h)⟩
            simp only [Outcome.returns.injEq, Sum.inr.injEq, Prod.mk.injEq] at h
            obtain ⟨-, rfl⟩ := h
            exact hpush _ _ _ hb hsub
      · simp only [if_neg hc]
        by_cases hd : isDigitChar (charAt buffer i) = true
        · simp only [if_pos hd]
          cases hp : Machine.pop s [] with
          | overrun => exact ⟨fun j t h => (by cases h), fun x t h => (by cases h)⟩
          | returns r =>
            obtain ⟨st, s1, v⟩ := r
            obtain ⟨hsub, hv⟩ := machine_pop_returns hp
            simp only
            split
            · refine ⟨fun j t h => (by cases h), fun x t h => ?_⟩
              simp only [Outcome.returns.injEq, Sum.inl.injEq, Prod.mk.injEq] at h
              obtain ⟨-, rfl⟩ := h
              exact fun e he => hs e (hsub e he)
            · rename_i hok
              refine ⟨fun j t h => ?_, fun x t h => (by cases h)⟩
              simp only [Outcome.returns.injEq, Sum.inr.injEq, Prod.mk.injEq] at h
              obtain ⟨-, rfl⟩ := h
              exact hpush _ _ _ (hv hok).2 hsub
        · simp only [if_neg hd]
          split
          · refine ⟨fun j t h => (by cases h), fun x t h => ?_⟩
            simp only [Outcome.returns.injEq, Sum.inl.injEq, Prod.mk.injEq] at h
            obtain ⟨-, rfl⟩ := h
            exact hs
          · refine ⟨fun j t h => ?_, fun x t h => (by cases h)⟩
            simp only [Outcome.returns.injEq, Sum.inr.injEq, Prod.mk.injEq] at h
            obtain ⟨-, rfl⟩ := h
            exact hs

/-- When `openMoleculeType` returns, every entry of the stack it leaves is shorter
than 1024 characters, provided the entries it started with are. -/
theorem machine_run_short {buffer : CString} {table : PeriodicTable} {stack st : Stack}
    {e : Exit} (hs : ∀ x ∈ stack.top, strlen x < arraySize)
    (h : Machine.openMoleculeTypeExit buffer stack table = some (.returns (e, st))) :
    ∀ x ∈ st.top, strlen x < arraySize := by
  obtain ⟨o, hrun, hend⟩ := machine_loop_invariant buffer table
    (fun _ s => ∀ x ∈ s.top, strlen x < arraySize)
    (fun i s j t _ hI hP => (machine_loopPass_short hI).1 j t hP)
    (strlen buffer) 0 stack (by omega) hs
  unfold Machine.openMoleculeTypeExit at h
  rw [h] at hrun
  simp only [Option.some.injEq] at hrun
  subst hrun
  rcases hend with ⟨ho, -⟩ | ⟨st2, j, ho, -, hI⟩ | ⟨e2, st2, k, u, ho, -, hI, hP⟩
  · cases ho
  · simp only [Outcome.returns.injEq, Prod.mk.injEq] at ho
    obtain ⟨-, rfl⟩ := ho
    exact hI
  · simp only [Outcome.returns.injEq, Prod.mk.injEq] at ho
    obtain ⟨-, rfl⟩ := ho
    exact (machine_loopPass_short hI).2 e2 st hP

/-! ## Lines on which no array is overrun -/

theorem machine_pop_no_overrun {s : Stack} (r : CString)
    (hs : ∀ e ∈ s.top, strlen e < arraySize) : Machine.pop s r ≠ .overrun := by
  unfold Machine.pop
  split
  · exact fun h => by cases h
  · split
    · exact fun h => by cases h
    · rename_i data next htop
      rw [if_pos (hs data (by rw [htop]; simp))]
      exact fun h => by cases h

theorem readSymbol_length_le {buffer : CString} {i : Nat} (hlt : i < strlen buffer) :
    strlen (readSymbol buffer i).1 ≤ strlen buffer := by
  rw [readSymbol_eq]
  have h1 := (List.takeWhile_prefix isLowerCase (l := buffer.drop (i + 1))).length_le
  rw [List.length_drop] at h1
  simp only [strlen, List.length_cons] at hlt ⊢
  omega

/-- A pass at a character other than ')' overruns no array when the line and the
entries of the stack are shorter than 1024 characters. -/
theorem machine_loopPass_no_overrun {buffer : CString} {table : PeriodicTable} {i : Nat}
    {s : Stack} (hlen : strlen buffer < arraySize) (hlt : i < strlen buffer)
    (hs : ∀ e ∈ s.top, strlen e < arraySize) (hc : charAt buffer i ≠ ')') :
    Machine.loopPass buffer table i s ≠ .overrun := by
  unfold Machine.loopPass
  by_cases hu : isUpperCase (charAt buffer i) = true
  · have := readSymbol_length_le hlt
    rw [if_pos hu, if_neg (by omega)]
    split <;> exact fun h => by cases h
  · rw [if_neg hu]
    by_cases ho : charAt buffer i = '('
    · rw [if_pos ho]
      exact fun h => by cases h
    · rw [if_neg ho, if_neg hc]
      by_cases hd : isDigitChar (charAt buffer i) = true
      · rw [if_pos hd]
        cases hp : Machine.pop s [] with
        | overrun => exact absurd hp (machine_pop_no_overrun [] hs)
        | returns r =>
          obtain ⟨st, s1, v⟩ := r
          simp only
          split <;> exact fun h => by cases h
      · rw [if_neg hd]
        split <;> exact fun h => by cases h

theorem machine_openMoleculeType_of_loop {buffer : CString} {stack : Stack}
    {table : PeriodicTable} {o : Outcome (Exit × Stack)}
    (h : Machine.openMoleculeTypeLoop buffer table (strlen buffer) 0 stack = some o) :
    Machine.openMoleculeType buffer stack table
      = some (o.map fun r => (r.1.status, r.2)) := by
  unfold Machine.openMoleculeType Machine.openMoleculeTypeExit
  rw [h]
  rfl

/-! ## Failures that no line escapes -/

set_option maxRecDepth 100000 in
/-- C6, as stated, fails: in `(H1024)Xx` the symbol `Xx` is not in the table, but
`openMoleculeType` does not return: closing the group it appends the 1024th `H`
to `retval`, past the end of the array. -/
theorem unknown_symbol_after_overrun :
    isUpperCase 'X' = true ∧
      (∀ m ∈ tableHOMg, m.name ≠ 'X' :: (str "x").takeWhile isLowerCase) ∧
      Machine.openMoleculeType (str "(H1024)Xx") initStack tableHOMg = some .overrun := by
  decide

/-- C6, amended: for every element table, every line and every stack, if the line
holds an uppercase letter whose symbol (the letter and the maximal run of
lowercase letters after it) is not a symbol of the table, `openMoleculeType` does
not return success: it returns `EXIT_FAILURE`, or it writes past the end of one
of its 1024 byte arrays before it reaches the symbol. It returns `EXIT_FAILURE`
whenever the line is shorter than 1024 characters, no ')' stands before the
symbol and the entries of the stack are shorter than 1024 characters. -/
theorem unknown_symbol_never_succeeds (table : PeriodicTable) (pre rest : List Char)
    (c : Char) (stack : Stack) (hu : isUpperCase c = true)
    (hm : ∀ m ∈ table, m.name ≠ c :: rest.takeWhile isLowerCase) :
    (∃ o, Machine.openMoleculeType (pre ++ c :: rest) stack table = some o ∧
      (o = .overrun ∨ ∃ st, o = .returns (EXIT_FAILURE, st))) ∧
    (strlen (pre ++ c :: rest) < arraySize → (∀ x ∈ pre, x ≠ ')') →
      (∀ e ∈ stack.top, strlen e < arraySize) →
      ∃ st, Machine.openMoleculeType (pre ++ c :: rest) stack table
        = some (.returns (EXIT_FAILURE, st))) := by
  have hdrop : (pre ++ c :: rest).drop pre.length = c :: rest := List.drop_left _ _
  have hc := drop_cons_charAt hdrop
  have hp := drop_cons_lt hdrop
  have hat : ∀ s j t, Machine.loopPass (pre ++ c :: rest) table pre.length s
      ≠ .returns (.inr (j, t)) := by
    intro s j t h
    rcases machine_loopPass_cases (pre ++ c :: rest) table pre.length s with
      ho | ⟨r, hr, -⟩ | ⟨j2, t2, u, hm2, hi, -⟩
    · rw [ho] at h; cases h
    · rw [hr] at h; cases h
    · unfold loopPass at hi
      rw [hc, if_pos hu, readSymbol_eq, hc, drop_cons_succ hdrop,
        if_neg (by rw [isMolecule_failure hm]; decide)] at hi
      cases hi
  obtain ⟨o, hrun, hend⟩ := machine_loop_invariant (pre ++ c :: rest) table
    (fun i s => i ≤ pre.length ∧
      ((∀ e ∈ stack.top, strlen e < arraySize) → ∀ e ∈ s.top, strlen e < arraySize))
    (by
      rintro i s j t hlt ⟨hI, hS⟩ hP
      refine ⟨?_, fun h0 => (machine_loopPass_short (hS h0)).1 j t hP⟩
      by_contra hj
      have hne : i ≠ pre.length := by
        rintro rfl
        exact hat s j t hP
      obtain ⟨-, -, hskip⟩ := machine_loopPass_skips hlt hP
      rcases hskip pre.length (by omega) (by omega) with h1 | ⟨-, h2⟩
      · rw [hc, upper_not_digit hu] at h1
        cases h1
      · have := h2 pre.length (by omega) (le_refl _)
        rw [hc, upper_not_lower hu] at this
        cases this)
    (strlen (pre ++ c :: rest)) 0 stack (by omega) ⟨Nat.zero_le _, fun h => h⟩
  have hres := machine_openMoleculeType_of_loop hrun
  rcases hend with ⟨rfl, k, u, hk, ⟨hI, hS⟩, hP⟩ | ⟨st, j, rfl, hj1, hj2, -⟩ |
    ⟨e, st, k, u, rfl, -, -, hk⟩
  · refine ⟨⟨_, hres, Or.inl rfl⟩, fun hlen hpre hs => ?_⟩
    exfalso
    refine machine_loopPass_no_overrun hlen hk (hS hs) ?_ hP
    by_cases hkp : k = pre.length
    · rw [hkp, hc]
      rintro rfl
      revert hu
      decide
    · have hkl : k < pre.length := by omega
      have : charAt (pre ++ c :: rest) k ∈ pre := by
        simp only [charAt, List.getD_eq_getElem?_getD, List.getElem?_append_left hkl,
          List.getElem?_eq_getElem hkl, Option.getD_some]
        exact List.getElem_mem _
      exact hpre _ this
  · omega
  · have hst := machine_loopPass_inl_status hk
    simp only [Outcome.map] at hres
    rw [hst] at hres
    exact ⟨⟨_, hres, Or.inr ⟨st, rfl⟩⟩, fun _ _ _ => ⟨st, hres⟩⟩

/-- Witness of C6, amended: `Xe` is not in the table H, O, Mg, so `H2Xe3` fails. -/
theorem unknown_symbol_never_succeeds_witness :
    isUpperCase 'X' = true ∧
      (∀ m ∈ tableHOMg, m.name ≠ 'X' :: (str "e3").takeWhile isLowerCase) ∧
      Machine.openMoleculeType (str "H2Xe3") initStack tableHOMg
        = some (.returns (EXIT_FAILURE, Stack.ofList [str "H", str "H"])) ∧
      (∃ o, Machine.openMoleculeType (str "H2" ++ 'X' :: str "e3") initStack tableHOMg
          = some o ∧ (o = .overrun ∨ ∃ st, o = .returns (EXIT_FAILURE, st))) ∧
      (strlen (str "H2" ++ 'X' :: str "e3") < arraySize → (∀ x ∈ str "H2", x ≠ ')') →
        (∀ e ∈ initStack.top, strlen e < arraySize) →
        ∃ st, Machine.openMoleculeType (str "H2" ++ 'X' :: str "e3") initStack tableHOMg
          = some (.returns (EXIT_FAILURE, st))) :=
  ⟨by decide, by decide, by decide,
    unknown_symbol_never_succeeds tableHOMg (str "H2") (str "e3") 'X' initStack (by decide)
      (by decide)⟩

set_option maxRecDepth 100000 in
/-- C7, as stated, fails: in `(H1024)o` the lowercase letter follows a digit, but
`openMoleculeType` does not return: closing the group it writes past the end of
`retval`. -/
theorem bare_lowercase_after_overrun :
    isLowerCase 'o' = true ∧
      (∃ q d, str "(H1024)" = q ++ [d] ∧ isUpperCase d = false ∧ isLowerCase d = false) ∧
      Machine.openMoleculeType (str "(H1024)o") initStack tableHOMg = some .overrun :=
  ⟨by decide, ⟨str "(H1024", ')', rfl, by decide, by decide⟩, by decide⟩

/-- C7, amended: for every element table, every line and every stack, if the line
holds a lowercase letter that is its first character or follows a character that
is not a letter, `openMoleculeType` does not return success: it returns
`EXIT_FAILURE`, or it writes past the end of one of its 1024 byte arrays before it
reaches the letter. It returns `EXIT_FAILURE` whenever the line is shorter than
1024 characters, no ')' stands before the letter and the entries of the stack
are shorter than 1024 characters. -/
theorem bare_lowercase_never_succeeds (table : PeriodicTable) (pre rest : List Char)
    (c : Char) (stack : Stack) (hl : isLowerCase c = true)
    (hprev : pre = [] ∨
      ∃ q d, pre = q ++ [d] ∧ isUpperCase d = false ∧ isLowerCase d = false) :
    (∃ o, Machine.openMoleculeType (pre ++ c :: rest) stack table = some o ∧
      (o = .overrun ∨ ∃ st, o = .returns (EXIT_FAILURE, st))) ∧
    (strlen (pre ++ c :: rest) < arraySize → (∀ x ∈ pre, x ≠ ')') →
      (∀ e ∈ stack.top, strlen e < arraySize) →
      ∃ st, Machine.openMoleculeType (pre ++ c :: rest) stack table
        = some (.returns (EXIT_FAILURE, st))) := by
  have hdrop : (pre ++ c :: rest).drop pre.length = c :: rest := List.drop_left _ _
  have hc := drop_cons_charAt hdrop
  have hp := drop_cons_lt hdrop
  have hnu : isUpperCase c = false := by
    cases hb : isUpperCase c
    · rfl
    · rw [upper_not_lower hb] at hl; cases hl
  have hnd : isDigitChar c = false := by
    cases hb : isDigitChar c
    · rfl
    · rw [digit_not_lower hb] at hl; cases hl
  have hno : c ≠ '(' := by
    intro he; rw [he] at hl; revert hl; decide
  have hnc : c ≠ ')' := by
    intro he; rw [he] at hl; revert hl; decide
  have hat : ∀ s j t, Machine.loopPass (pre ++ c :: rest) table pre.length s
      ≠ .returns (.inr (j, t)) := by
    intro s j t h
    rcases machine_loopPass_cases (pre ++ c :: rest) table pre.length s with
      ho | ⟨r, hr, -⟩ | ⟨j2, t2, u, hm2, hi, -⟩
    · rw [ho] at h; cases h
    · rw [hr] at h; cases h
    · unfold loopPass at hi
      rw [hc] at hi
      simp [hnu, hno, hnc, hnd, hl] at hi
  obtain ⟨o, hrun, hend⟩ := machine_loop_invariant (pre ++ c :: rest) table
    (fun i s => i ≤ pre.length ∧
      ((∀ e ∈ stack.top, strlen e < arraySize) → ∀ e ∈ s.top, strlen e < arraySize))
    (by
      rintro i s j t hlt ⟨hI, hS⟩ hP
      refine ⟨?_, fun h0 => (machine_loopPass_short (hS h0)).1 j t hP⟩
      by_contra hj
      have hne : i ≠ pre.length := by
        rintro rfl
        exact hat s j t hP
      obtain ⟨-, -, hskip⟩ := machine_loopPass_skips hlt hP
      rcases hskip pre.length (by omega) (by omega) with h1 | ⟨h2, h3⟩
      · rw [hc, hnd] at h1
        cases h1
      · rcases hprev with rfl | ⟨q, d, rfl, hd1, hd2⟩
        · simp at hI hne
          omega
        · have hdq : (q ++ [d] ++ c :: rest).drop q.length = d :: c :: rest := by
            rw [List.append_assoc]; exact List.drop_left _ _
          have hcq := drop_cons_charAt hdq
          have hlen : (q ++ [d]).length = q.length + 1 := by simp
          by_cases hiq : i = q.length
          · rw [hiq, hcq, hd1] at h2
            cases h2
          · have := h3 q.length (by omega) (by omega)
            rw [hcq, hd2] at this
            cases this)
    (strlen (pre ++ c :: rest)) 0 stack (by omega) ⟨Nat.zero_le _, fun h => h⟩
  have hres := machine_openMoleculeType_of_loop hrun
  rcases hend with ⟨rfl, k, u, hk, ⟨hI, hS⟩, hP⟩ | ⟨st, j, rfl, hj1, hj2, -⟩ |
    ⟨e, st, k, u, rfl, -, -, hk⟩
  · refine ⟨⟨_, hres, Or.inl rfl⟩, fun hlen hpre hs => ?_⟩
    exfalso
    refine machine_loopPass_no_overrun hlen hk (hS hs) ?_ hP
    by_cases hkp : k = pre.length
    · rw [hkp, hc]
      exact hnc
    · have hkl : k < pre.length := by omega
      have : charAt (pre ++ c :: rest) k ∈ pre := by
        simp only [charAt, List.getD_eq_getElem?_getD, List.getElem?_append_left hkl,
          List.getElem?_eq_getElem hkl, Option.getD_some]
        exact List.getElem_mem _
      exact hpre _ this
  · omega
  · have hst := machine_loopPass_inl_status hk
    simp only [Outcome.map] at hres
    rw [hst] at hres
    exact ⟨⟨_, hres, Or.inr ⟨st, rfl⟩⟩, fun _ _ _ => ⟨st, hres⟩⟩

/-- Witness of C7, amended: in `H2o` the lowercase letter follows a digit. -/
theorem bare_lowercase_never_succeeds_witness :
    isLowerCase 'o' = true ∧
      (str "H2" = [] ∨
        ∃ q d, str "H2" = q ++ [d] ∧ isUpperCase d = false ∧ isLowerCase d = false) ∧
      Machine.openMoleculeType (str "H2o") initStack tableHOMg
        = some (.returns (EXIT_FAILURE, Stack.ofList [str "H", str "H"])) ∧
      (∃ o, Machine.openMoleculeType (str "H2" ++ 'o' :: []) initStack tableHOMg = some o ∧
        (o = .overrun ∨ ∃ st, o = .returns (EXIT_FAILURE, st))) ∧
      (strlen (str "H2" ++ 'o' :: []) < arraySize → (∀ x ∈ str "H2", x ≠ ')') →
        (∀ e ∈ initStack.top, strlen e < arraySize) →
        ∃ st, Machine.openMoleculeType (str "H2" ++ 'o' :: []) initStack tableHOMg
          = some (.returns (EXIT_FAILURE, st))) :=
  ⟨by decide, Or.inr ⟨['H'], '2', rfl, by decide, by decide⟩, by decide,
    bare_lowercase_never_succeeds tableHOMg (str "H2") [] 'o' initStack (by decide)
      (Or.inr ⟨['H'], '2', rfl, by decide, by decide⟩)⟩

/-! ## Termination -/

theorem charAt_mem {buffer : CString} {k : Nat} (h : k < strlen buffer) :
    charAt buffer k ∈ buffer := by
  have hk : k < buffer.length := h
  simp only [charAt, List.getD_eq_getElem?_getD, List.getElem?_eq_getElem hk,
    Option.getD_some]
  exact List.getElem_mem _

set_option maxRecDepth 100000 in
/-- C28, as stated, fails: on `(H1024)` the call does not return. The scan pushes
1024 copies of `H`; closing the group it appends them to `retval` one after the
other, and the 1024th does not fit the array of 1024 bytes. -/
theorem openMoleculeType_overruns :
    Machine.openMoleculeType (str "(H1024)") initStack tableHOMg = some .overrun ∧
      Machine.openMoleculeType (str "(H3)") initStack tableHOMg
        = some (.returns (EXIT_SUCCESS, Stack.ofList [str "HHH"])) := by
  decide

/-- C28, amended: on every line, every stack and every table the scanning loop of
`openMoleculeType` ends within as many passes as the line has characters: every
pass that goes on, the passes that read a symbol or a digit run and step the
index back by one included, starts the next pass at an index strictly greater
than its own and not beyond the end of the line. So the call returns, unless a
pass writes past the end of one of the 1024 byte arrays. It returns on every
line shorter than 1024 characters that holds no ')' when the entries of the
stack are shorter than 1024 characters. -/
theorem openMoleculeType_passes_advance (buffer : CString) (stack : Stack)
    (table : PeriodicTable) :
    (∃ o, Machine.openMoleculeType buffer stack table = some o ∧
      (o = .overrun ∨ ∃ status st, o = .returns (status, st))) ∧
      (∀ fuel, strlen buffer ≤ fuel →
        Machine.openMoleculeTypeLoop buffer table fuel 0 stack
          = Machine.openMoleculeTypeLoop buffer table (strlen buffer) 0 stack) ∧
      (∀ (i j : Nat) (s t : Stack), i < strlen buffer →
        Machine.loopPass buffer table i s = .returns (.inr (j, t)) →
        i < j ∧ j ≤ strlen buffer) ∧
      (strlen buffer < arraySize → (∀ x ∈ buffer, x ≠ ')') →
        (∀ e ∈ stack.top, strlen e < arraySize) →
        ∃ status st, Machine.openMoleculeType buffer stack table
          = some (.returns (status, st))) := by
  obtain ⟨o, hrun, hend⟩ := machine_loop_invariant buffer table
    (fun _ s => (∀ e ∈ stack.top, strlen e < arraySize) → ∀ e ∈ s.top, strlen e < arraySize)
    (fun i s j t _ hS hP h0 => (machine_loopPass_short (hS h0)).1 j t hP)
    (strlen buffer) 0 stack (by omega) (fun h => h)
  have hres := machine_openMoleculeType_of_loop hrun
  refine ⟨⟨_, hres, ?_⟩, ?_, ?_, ?_⟩
  · cases o with
    | overrun => exact Or.inl rfl
    | returns r => exact Or.inr ⟨_, _, rfl⟩
  · intro fuel hf
    have := machine_loop_mono buffer table (strlen buffer) 0 stack o hrun (fuel - strlen buffer)
    rw [show strlen buffer + (fuel - strlen buffer) = fuel by omega] at this
    rw [this, hrun]
  · intro i j s t hlt hP
    obtain ⟨h1, h2, -⟩ := machine_loopPass_skips hlt hP
    exact ⟨h1, h2⟩
  · intro hlen hnc hs
    rcases hend with ⟨rfl, k, u, hk, hS, hP⟩ | ⟨st, j, rfl, -, -⟩ | ⟨e, st, k, u, rfl, -, -, -⟩
    · exact absurd hP (machine_loopPass_no_overrun hlen hk (hS hs) (hnc _ (charAt_mem hk)))
    · exact ⟨_, _, hres⟩
    · exact ⟨_, _, hres⟩

/-! ## `printStack` within the limits of the machine -/

theorem machine_drainLoop_ofList (l x : List CString)
    (hs : ∀ e ∈ l, strlen e < arraySize) :
    Machine.drainLoop l.length l (Stack.ofList x)
      = .returns (EXIT_SUCCESS, Stack.ofList [], Stack.ofList (l.reverse ++ x)) := by
  induction l generalizing x with
  | nil => simp [Machine.drainLoop, Stack.ofList]
  | cons e es ih =>
    have hp : Machine.pop ⟨e :: es, es.length + 1⟩ []
        = .returns (EXIT_SUCCESS, Stack.ofList es, e) :=
      machine_pop_ofList_cons es e [] (hs e (by simp))
    have := ih (e :: x) (fun y hy => hs y (by simp [hy]))
    simp only [List.length_cons]
    rw [Machine.drainLoop, hp]
    simp [this]

theorem machine_writeLoop_ofList (l : List CString) (out : CString)
    (hs : ∀ e ∈ l, strlen e < arraySize) :
    Machine.writeLoop l.length l out
      = .returns (EXIT_SUCCESS, Stack.ofList [], out ++ l.flatten) := by
  induction l generalizing out with
  | nil => simp [Machine.writeLoop, Stack.ofList]
  | cons e es ih =>
    have hp : Machine.pop ⟨e :: es, es.length + 1⟩ []
        = .returns (EXIT_SUCCESS, Stack.ofList es, e) :=
      machine_pop_ofList_cons es e [] (hs e (by simp))
    have := ih (out ++ e) (fun y hy => hs y (by simp [hy]))
    simp only [List.length_cons]
    rw [Machine.writeLoop, hp]
    simp [this]

/-- For a stack whose entries are shorter than 1024 characters `printStack`
overruns no array and writes the entries from the bottom to the top. -/
theorem machine_printStack_ofList (l : List CString)
    (hs : ∀ e ∈ l, strlen e < arraySize) :
    Machine.printStack (Stack.ofList l)
      = .returns (EXIT_SUCCESS, initStack, l.reverse.flatten ++ ['\n']) := by
  unfold Machine.printStack
  simp only [ofList_size, ofList_top]
  rw [initStack_eq, machine_drainLoop_ofList l [] hs]
  simp only [ofList_size, ofList_top, List.append_nil]
  have := machine_writeLoop_ofList l.reverse [] (fun e he => hs e (List.mem_reverse.1 he))
  rw [List.length_reverse] at this
  rw [List.length_reverse, this]
  simp

theorem machine_exit_of_returns {buffer : CString} {stack st : Stack}
    {table : PeriodicTable} {status : Int}
    (h : Machine.openMoleculeType buffer stack table = some (.returns (status, st))) :
    ∃ e, Machine.openMoleculeTypeExit buffer stack table = some (.returns (e, st)) ∧
      e.status = status := by
  unfold Machine.openMoleculeType at h
  cases hx : Machine.openMoleculeTypeExit buffer stack table with
  | none => rw [hx] at h; cases h
  | some o =>
    rw [hx] at h
    cases o with
    | overrun => cases h
    | returns r =>
      obtain ⟨e, st2⟩ := r
      simp only [Option.map_some', Outcome.map, Option.some.injEq, Outcome.returns.injEq,
        Prod.mk.injEq] at h
      obtain ⟨h1, rfl⟩ := h
      exact ⟨e, rfl, h1⟩

/-- On a line whose digit runs fit an `int`, a call that returns within the
limits of the machine returns what the call with unlimited arrays returns. -/
theorem machine_returns_sim {buffer : CString} {stack st : Stack}
    {table : PeriodicTable} {status : Int} (hR : IntRange buffer)
    (h : Machine.openMoleculeType buffer stack table = some (.returns (status, st))) :
    openMoleculeType buffer stack table = some (status, st) := by
  rcases machine_openMoleculeType_sim table stack hR with h2 | h2
  · rw [h2] at h; cases h
  · rw [h2] at h
    cases hx : openMoleculeType buffer stack table with
    | none => rw [hx] at h; cases h
    | some r =>
      rw [hx] at h
      simp only [Option.map_some', Option.some.injEq, Outcome.returns.injEq] at h
      rw [h]

/-! ## Unbalanced lines given to `openMoleculeType` directly -/

/-- C8, as stated, fails: `(H` has a '(' that is never closed, yet
`openMoleculeType` succeeds and leaves the marker on the stack; when a digit
multiplies a marker even an unmatched ')' goes unnoticed, as in `(3))`; and
so it does in `((H4294967296)3))`, where the digits after `H` are read as the
`int` 0. -/
theorem unbalanced_line_succeeds :
    ¬ Balanced (str "(H") ∧
      Machine.openMoleculeType (str "(H") initStack tableHOMg
        = some (.returns (EXIT_SUCCESS, Stack.ofList [str "H", str "("])) ∧
      ¬ Balanced (str "(3))") ∧
      Machine.openMoleculeType (str "(3))") initStack tableHOMg
        = some (.returns (EXIT_SUCCESS, Stack.ofList [str "("])) ∧
      Proper (str "((H4294967296)3))") ∧ ¬ Balanced (str "((H4294967296)3))") ∧
      Machine.openMoleculeType (str "((H4294967296)3))") initStack tableHOMg
        = some (.returns (EXIT_SUCCESS, Stack.ofList [str "("])) := by
  refine ⟨?_, by decide, ?_, by decide, by unfold Proper; decide, ?_, by decide⟩
  · intro h
    exact absurd h.2 (by decide)
  · intro h
    exact absurd h.2 (by decide)
  · intro h
    exact absurd h.2 (by decide)

/-- C8, amended: for every element table and every line in which some ')' has
no matching '(' before it (some prefix holds more ')' than '('), provided every
'(' of the line is directly followed by an uppercase letter or another '(' and
every run of digits has a value of at least 1 that fits an `int`,
`openMoleculeType` called on the empty stack does not return success: it returns
`EXIT_FAILURE`, or it writes past the end of one of its 1024 byte arrays before
it reaches that ')'. -/
theorem unmatched_close_never_succeeds (table : PeriodicTable) (line : CString) (k : Nat)
    (hP : Proper line) (hR : IntRange line)
    (hk : (line.take k).count '(' < (line.take k).count ')') :
    ∃ o, Machine.openMoleculeType line initStack table = some o ∧
      (o = .overrun ∨ ∃ st, o = .returns (EXIT_FAILURE, st)) := by
  obtain ⟨st, hst⟩ := unmatched_close_fails table line k hP hk
  rcases machine_openMoleculeType_sim table initStack hR with h | h
  · exact ⟨_, h, Or.inl rfl⟩
  · rw [hst] at h
    exact ⟨_, h, Or.inr ⟨st, rfl⟩⟩

/-- Witness of C8, amended: in `Mg(OH)2)3` the last ')' has no '(' to match. -/
theorem unmatched_close_never_succeeds_witness :
    Proper (str "Mg(OH)2)3") ∧ IntRange (str "Mg(OH)2)3") ∧
      ((str "Mg(OH)2)3").take 9).count '(' < ((str "Mg(OH)2)3").take 9).count ')' ∧
      Machine.openMoleculeType (str "Mg(OH)2)3") initStack tableHOMg
        = some (.returns (EXIT_FAILURE, Stack.ofList [])) ∧
      ∃ o, Machine.openMoleculeType (str "Mg(OH)2)3") initStack tableHOMg = some o ∧
        (o = .overrun ∨ ∃ st, o = .returns (EXIT_FAILURE, st)) :=
  ⟨by unfold Proper; decide, by unfold IntRange; decide, by decide, by decide,
    unmatched_close_never_succeeds tableHOMg (str "Mg(OH)2)3") 9 (by unfold Proper; decide)
      (by unfold IntRange; decide) (by decide)⟩

/-! ## After the validity check -/

/-- C9, as stated, fails: `()` followed by its line break is accepted by
`checkValidity` and holds no symbol at all, yet the group closure pops the
marker as content and then fails on the empty stack; `H)` without a line
break is accepted because its last character is not examined; and in
`(H4294967296)` with its line break the digits are read as the `int` 0, so that
the closure finds only the marker. -/
theorem closure_pop_reachable :
    checkValidity (str "()\n") = some EXIT_SUCCESS ∧
      Machine.openMoleculeTypeExit (str "()\n") initStack tableHOMg
        = some (.returns (.closePop, Stack.ofList [])) ∧
      checkValidity (str "H)") = some EXIT_SUCCESS ∧
      Machine.openMoleculeTypeExit (str "H)") initStack tableHOMg
        = some (.returns (.closePop, Stack.ofList [])) ∧
      checkValidity (str "(H4294967296)\n") = some EXIT_SUCCESS ∧
      Proper (str "(H4294967296)\n") ∧
      Machine.openMoleculeTypeExit (str "(H4294967296)\n") initStack tableHOMg
        = some (.returns (.closePop, Stack.ofList [])) :=
  ⟨by decide, by decide, by decide, by decide, by decide, by unfold Proper; decide,
    by decide⟩

/-- C9, amended: for every element table and every line that ends with a line
break, that `checkValidity` accepts, and in which every '(' is directly followed
by an uppercase letter or another '(' and every run of digits has a value of at
least 1 that fits an `int`, the run of `openMoleculeType` ends, and it does not
leave by the failure of a `pop` in the group closure. -/
theorem closure_pop_excluded (table : PeriodicTable) (s : List Char)
    (hP : Proper (s ++ ['\n'])) (hR : IntRange (s ++ ['\n']))
    (hv : checkValidity (s ++ ['\n']) = some EXIT_SUCCESS) :
    ∃ o, Machine.openMoleculeTypeExit (s ++ ['\n']) initStack table = some o ∧
      ∀ st, o ≠ .returns (.closePop, st) := by
  obtain ⟨e, st, hrun, hne⟩ := closure_pop_unreachable table s hP hv
  rcases machine_exit_sim table initStack hR with h | h
  · exact ⟨_, h, fun st2 h2 => by cases h2⟩
  · rw [hrun] at h
    refine ⟨_, h, fun st2 h2 => ?_⟩
    simp only [Outcome.returns.injEq, Prod.mk.injEq] at h2
    exact hne h2.1

/-- Witness of C9, amended: `Mg(OH)2` with its line break. -/
theorem closure_pop_excluded_witness :
    Proper (str "Mg(OH)2" ++ ['\n']) ∧ IntRange (str "Mg(OH)2" ++ ['\n']) ∧
      checkValidity (str "Mg(OH)2" ++ ['\n']) = some EXIT_SUCCESS ∧
      Machine.openMoleculeTypeExit (str "Mg(OH)2" ++ ['\n']) initStack tableHOMg
        = some (.returns (.done, Stack.ofList [str "OH", str "OH", str "Mg"])) ∧
      ∃ o, Machine.openMoleculeTypeExit (str "Mg(OH)2" ++ ['\n']) initStack tableHOMg
          = some o ∧ ∀ st, o ≠ .returns (.closePop, st) :=
  ⟨by unfold Proper; decide, by unfold IntRange; decide, by decide, by decide,
    closure_pop_excluded tableHOMg (str "Mg(OH)2") (by unfold Proper; decide)
      (by unfold IntRange; decide) (by decide)⟩

/-- C10, as stated, fails: `(2)` followed by its line break is accepted by
`checkValidity`, `openMoleculeType` succeeds on it, and the stack it leaves
holds the marker, which `printStack` writes as a parenthesis; on
`(((H4294967296)3))` with its line break, where the digits after `H` are read
as the `int` 0, two markers are left. -/
theorem marker_left_on_stack :
    checkValidity (str "(2)\n") = some EXIT_SUCCESS ∧
      Machine.openMoleculeType (str "(2)\n") initStack tableHOMg
        = some (.returns (EXIT_SUCCESS, Stack.ofList [openMarker])) ∧
      Machine.printStack (Stack.ofList [openMarker])
        = .returns (EXIT_SUCCESS, initStack, str "(\n") ∧
      checkValidity (str "(((H4294967296)3))\n") = some EXIT_SUCCESS ∧
      Proper (str "(((H4294967296)3))\n") ∧
      Machine.openMoleculeType (str "(((H4294967296)3))\n") initStack tableHOMg
        = some (.returns (EXIT_SUCCESS, Stack.ofList [openMarker, openMarker])) :=
  ⟨by decide, by decide, by decide, by decide, by unfold Proper; decide, by decide⟩

/-- C10, amended: for every element table and every line that `checkValidity`
accepts, on which `openMoleculeType` succeeds, and in which every '(' is directly
followed by an uppercase letter or another '(' and every run of digits has a
value of at least 1 that fits an `int`, no entry of the resulting stack is the
marker, `printStack` succeeds on it, and the text it writes, the entries from
the bottom to the top and a line break, holds no parenthesis and no digit. -/
theorem proper_line_leaves_letters (table : PeriodicTable) (line : CString) (st : Stack)
    (hP : Proper line) (hR : IntRange line) (hv : checkValidity line = some EXIT_SUCCESS)
    (ho : Machine.openMoleculeType line initStack table = some (.returns (EXIT_SUCCESS, st))) :
    (∀ e ∈ st.top, e ≠ openMarker) ∧
      Machine.printStack st
        = .returns (EXIT_SUCCESS, initStack, st.top.reverse.flatten ++ ['\n']) ∧
      ∀ c ∈ st.top.reverse.flatten ++ ['\n'], c ≠ '(' ∧ c ≠ ')' ∧ isDigitChar c = false := by
  obtain ⟨hs, hA⟩ := proper_line_stack table line st hP hv (machine_returns_sim hR ho)
  obtain ⟨e, hexit, -⟩ := machine_exit_of_returns ho
  have hshort := machine_run_short (by simp [initStack]) hexit
  refine ⟨fun en hen => atomEntry_ne_marker (hA en hen), ?_, ?_⟩
  · have := machine_printStack_ofList st.top hshort
    rwa [← eq_ofList_of_size hs] at this
  · intro x hx
    rcases List.mem_append.1 hx with h | h
    · obtain ⟨en, hen, hxe⟩ := List.mem_flatten.1 h
      have hat := hA en (List.mem_reverse.1 hen)
      simp only [atomEntry, Bool.and_eq_true, List.all_eq_true] at hat
      have hl := hat.2 x hxe
      simp only [isLetter, Bool.or_eq_true] at hl
      rcases hl with hl | hl
      · refine ⟨?_, ?_, upper_not_digit hl⟩
        · rintro rfl; revert hl; decide
        · rintro rfl; revert hl; decide
      · refine ⟨?_, ?_, ?_⟩
        · rintro rfl; revert hl; decide
        · rintro rfl; revert hl; decide
        · cases hb : isDigitChar x
          · rfl
          · rw [digit_not_lower hb] at hl; cases hl
    · rw [List.mem_singleton.1 h]
      decide

/-- Witness of C10, amended: `Mg(OH)2` with its line break over the table H, O,
Mg. -/
theorem proper_line_leaves_letters_witness :
    Proper (str "Mg(OH)2\n") ∧ IntRange (str "Mg(OH)2\n") ∧
      checkValidity (str "Mg(OH)2\n") = some EXIT_SUCCESS ∧
      Machine.openMoleculeType (str "Mg(OH)2\n") initStack tableHOMg
        = some (.returns (EXIT_SUCCESS, Stack.ofList [str "OH", str "OH", str "Mg"])) ∧
      (∀ e ∈ (Stack.ofList [str "OH", str "OH", str "Mg"]).top, e ≠ openMarker) ∧
      Machine.printStack (Stack.ofList [str "OH", str "OH", str "Mg"])
        = .returns (EXIT_SUCCESS, initStack,
            (Stack.ofList [str "OH", str "OH", str "Mg"]).top.reverse.flatten ++ ['\n']) ∧
      ∀ c ∈ (Stack.ofList [str "OH", str "OH", str "Mg"]).top.reverse.flatten ++ ['\n'],
        c ≠ '(' ∧ c ≠ ')' ∧ isDigitChar c = false :=
  ⟨by unfold Proper; decide, by unfold IntRange; decide, by decide, by decide,
    proper_line_leaves_letters tableHOMg (str "Mg(OH)2\n")
      (Stack.ofList [str "OH", str "OH", str "Mg"]) (by unfold Proper; decide)
      (by unfold IntRange; decide) (by decide) (by decide)⟩

/-! ## The markers during the scan -/

/-- C19, as stated, fails: on the line `(2` the digit multiplies the marker, so
after the second pass the stack holds two markers while one group is open; and
at the end of `((H4294967296)2`, where the digits after `H` are read as the
`int` 0, the stack holds two markers while one group is open. -/
theorem marker_count_exceeds_depth :
    (2, Stack.ofList [openMarker, openMarker])
        ∈ Machine.scanTrace (str "(2") tableHOMg (strlen (str "(2")) 0 initStack ∧
      (Stack.ofList [openMarker, openMarker]).top.count openMarker = 2 ∧
      nestingDepth ((str "(2").take 2) = 1 ∧
      Proper (str "((H4294967296)2") ∧
      (15, Stack.ofList [openMarker, openMarker])
        ∈ Machine.scanTrace (str "((H4294967296)2") tableHOMg
            (strlen (str "((H4294967296)2")) 0 initStack ∧
      nestingDepth ((str "((H4294967296)2").take 15) = 1 :=
  ⟨by decide, by decide, by decide, by unfold Proper; decide, by decide, by decide⟩

/-- C19, amended: on every line in which every '(' is directly followed by an
uppercase letter or another '(' and every run of digits has a value of at least
1 that fits an `int`, at every point of the scan of `openMoleculeType` started
on the empty stack (the head of every pass that is reached), the number of
markers on the stack equals the nesting depth of the part of the line scanned
so far, and that part holds no more ')' than '('. -/
theorem marker_count_equals_depth (table : PeriodicTable) (buffer : CString) (i : Nat)
    (s : Stack) (hP : Proper buffer) (hR : IntRange buffer)
    (hx : (i, s) ∈ Machine.scanTrace buffer table (strlen buffer) 0 initStack) :
    s.top.count openMarker = nestingDepth (buffer.take i) ∧
      (buffer.take i).count ')' ≤ (buffer.take i).count '(' := by
  have hx2 := machine_scanTrace_sim table hR (strlen buffer) 0 initStack (i, s) hx
  have hI := scanTrace_inv hP (strlen buffer) 0 initStack (scanInv_init buffer) (i, s) hx2
  have hB := hI.2.2.1
  simp only at hB
  unfold nestingDepth
  omega

/-- Witness of C19, amended: in `Mg(OH)2` the stack holds one marker after the
`(` and none after the group is closed. -/
theorem marker_count_equals_depth_witness :
    Proper (str "Mg(OH)2") ∧ IntRange (str "Mg(OH)2") ∧
      (3, Stack.ofList [openMarker, str "Mg"])
        ∈ Machine.scanTrace (str "Mg(OH)2") tableHOMg (strlen (str "Mg(OH)2")) 0 initStack ∧
      (Stack.ofList [openMarker, str "Mg"]).top.count openMarker
        = nestingDepth ((str "Mg(OH)2").take 3) ∧
      ((str "Mg(OH)2").take 3).count ')' ≤ ((str "Mg(OH)2").take 3).count '(' :=
  ⟨by unfold Proper; decide, by unfold IntRange; decide, by decide,
    marker_count_equals_depth tableHOMg (str "Mg(OH)2") 3
      (Stack.ofList [openMarker, str "Mg"])
      (by unfold Proper; decide) (by unfold IntRange; decide) (by decide)⟩

/-! ## Group closure within the limits of the machine -/

theorem machine_closeLoop_marker (size : Nat) (top : List CString) (buffer2 : CString) :
    Machine.closeLoop size top openMarker buffer2
      = .returns (EXIT_SUCCESS, ⟨top, size⟩, buffer2) := by
  cases size <;> simp [Machine.closeLoop]

theorem machine_closeLoop_ofList (es l : List CString) (n : Nat) (retval buffer2 : CString)
    (hn : n = es.length + l.length + 1)
    (hes : ∀ e ∈ es, e ≠ openMarker) (hr : retval ≠ openMarker)
    (hfit : strlen (es.reverse.flatten ++ (retval ++ buffer2)) < arraySize) :
    Machine.closeLoop n (es ++ openMarker :: l) retval buffer2
      = .returns (EXIT_SUCCESS, Stack.ofList l,
          es.reverse.flatten ++ (retval ++ buffer2)) := by
  induction es generalizing n retval buffer2 with
  | nil =>
    subst hn
    simp only [List.nil_append, List.length_nil, Nat.zero_add]
    have hcat : ¬ arraySize ≤ strlen retval + strlen buffer2 := by
      simp only [strlen, List.reverse_nil, List.flatten_nil, List.nil_append,
        List.length_append] at hfit ⊢
      omega
    have hp : Machine.pop ⟨openMarker :: l, l.length + 1⟩ (retval ++ buffer2)
        = .returns (EXIT_SUCCESS, Stack.ofList l, openMarker) :=
      machine_pop_ofList_cons l openMarker _ (by simp [strlen, openMarker, arraySize])
    rw [Machine.closeLoop, if_neg hr, if_neg hcat, hp]
    simp [machine_closeLoop_marker, Stack.ofList]
  | cons e es ih =>
    have he : e ≠ openMarker := hes e (by simp)
    have hlen : strlen ((e :: es).reverse.flatten ++ (retval ++ buffer2))
        = strlen (es.reverse.flatten ++ (e ++ (retval ++ buffer2))) := by
      simp [strlen]
    have hcat : ¬ arraySize ≤ strlen retval + strlen buffer2 := by
      simp only [strlen, List.reverse_cons, List.flatten_append, List.length_append] at hfit ⊢
      omega
    have hshort : strlen e < arraySize := by
      rw [hlen] at hfit
      simp only [strlen, List.length_append] at hfit ⊢
      omega
    have := ih (es.length + l.length + 1) e (retval ++ buffer2) rfl
      (fun x hx => hes x (by simp [hx])) he (by rw [← hlen]; exact hfit)
    have hp : Machine.pop ⟨e :: (es ++ openMarker :: l), (es.length + l.length + 1) + 1⟩
        (retval ++ buffer2)
        = .returns (EXIT_SUCCESS, Stack.ofList (es ++ openMarker :: l), e) := by
      have := machine_pop_ofList_cons (es ++ openMarker :: l) e (retval ++ buffer2) hshort
      simp only [Stack.ofList, List.length_cons, List.length_append] at this ⊢
      rw [← this]
      congr 2
    subst hn
    simp only [List.cons_append, List.length_cons]
    rw [show es.length + 1 + l.length + 1 = (es.length + l.length + 1) + 1 by omega,
      Machine.closeLoop, if_neg hr, if_neg hcat, hp]
    simp only [ofList_top]
    rw [if_neg (by decide), this]
    simp

/-- On a stack that holds the entries of a group above a marker, the closure
overruns no array when the content of the group is shorter than 1024
characters: it returns the content and leaves what lies below the marker. -/
theorem machine_closeGroup_ofList (e1 : CString) (es l : List CString)
    (hes : ∀ e ∈ es, e ≠ openMarker)
    (hfit : strlen (e1 :: es).reverse.flatten < arraySize) :
    Machine.closeGroup (Stack.ofList (e1 :: (es ++ openMarker :: l)))
      = .returns (EXIT_SUCCESS, Stack.ofList l, (e1 :: es).reverse.flatten) := by
  have hlen : strlen (e1 :: es).reverse.flatten = strlen (es.reverse.flatten ++ e1) := by
    simp [strlen]
  have h1 : strlen e1 < arraySize := by
    rw [hlen] at hfit
    simp only [strlen, List.length_append] at hfit ⊢
    omega
  unfold Machine.closeGroup
  rw [machine_pop_ofList_cons _ e1 [] h1]
  simp only
  rw [if_neg (by decide)]
  cases es with
  | nil =>
    simp only [List.nil_append]
    rw [machine_pop_ofList_cons l openMarker e1 (by simp [strlen, openMarker, arraySize])]
    simp [machine_closeLoop_marker, Stack.ofList]
  | cons e2 es2 =>
    have he : e2 ≠ openMarker := hes e2 (by simp)
    have hlen2 : strlen (e1 :: e2 :: es2).reverse.flatten
        = strlen (es2.reverse.flatten ++ (e2 ++ e1)) := by
      simp [strlen]
    have h2 : strlen e2 < arraySize := by
      rw [hlen2] at hfit
      simp only [strlen, List.length_append] at hfit ⊢
      omega
    have := machine_closeLoop_ofList es2 l (es2.length + l.length + 1) e2 e1 rfl
      (fun x hx => hes x (by simp [hx])) he (by rw [← hlen2]; exact hfit)
    simp only [List.cons_append]
    rw [machine_pop_ofList_cons _ e2 e1 h2]
    simp only [ofList_size, ofList_top, List.length_append, List.length_cons]
    rw [if_neg (by decide),
      show es2.length + (l.length + 1) = es2.length + l.length + 1 by omega, this]
    simp

/-! ## Single passes within the limits of the machine -/

theorem machine_step_symbol {buffer : CString} (table : PeriodicTable) (fuel : Nat) {i : Nat}
    (stack : Stack) {c : Char} {lows rest : List Char}
    (h : buffer.drop i = (c :: lows) ++ rest) (hu : isUpperCase c = true)
    (hl : ∀ x ∈ lows, isLowerCase x = true) (hr : startsWith isLowerCase rest = false)
    (hfit : strlen (c :: lows) < arraySize)
    (hmol : isMolecule (c :: lows) table = EXIT_SUCCESS) :
    Machine.openMoleculeTypeLoop buffer table (fuel + 1) i stack =
      Machine.openMoleculeTypeLoop buffer table fuel (i + (c :: lows).length)
        (push stack (c :: lows)) := by
  have h1 : buffer.drop i = c :: (lows ++ rest) := by simpa using h
  have hc := drop_cons_charAt h1
  have hlt := drop_cons_lt h1
  rw [Machine.openMoleculeTypeLoop, if_pos hlt]
  unfold Machine.loopPass
  rw [hc, if_pos hu, readSymbol_run h hl hr]
  simp only
  rw [if_neg (by omega), if_pos hmol]
  simp only [List.length_cons]
  rw [show i + lows.length + 1 = i + (lows.length + 1) by omega]

theorem machine_step_open {buffer : CString} (table : PeriodicTable) (fuel : Nat) {i : Nat}
    (stack : Stack) {rest : List Char} (h : buffer.drop i = '(' :: rest) :
    Machine.openMoleculeTypeLoop buffer table (fuel + 1) i stack =
      Machine.openMoleculeTypeLoop buffer table fuel (i + 1) (push stack openMarker) := by
  have hc := drop_cons_charAt h
  have hlt := drop_cons_lt h
  rw [Machine.openMoleculeTypeLoop, if_pos hlt]
  unfold Machine.loopPass
  rw [hc]
  simp [isUpperCase]

theorem machine_step_close {buffer : CString} (table : PeriodicTable) (fuel : Nat) {i : Nat}
    {mult rest : List Char} (e1 : CString) (es l : List CString)
    (h : buffer.drop i = ')' :: (mult ++ rest)) (hd : ∀ x ∈ mult, isDigitChar x = true)
    (hr : startsWith isDigitChar rest = false) (hm : timesOf mult < 2147483648)
    (hes : ∀ e ∈ es, e ≠ openMarker)
    (hfit : strlen (e1 :: es).reverse.flatten < arraySize) :
    Machine.openMoleculeTypeLoop buffer table (fuel + 1) i
        (Stack.ofList (e1 :: (es ++ openMarker :: l))) =
      Machine.openMoleculeTypeLoop buffer table fuel (i + 1 + mult.length)
        (Stack.ofList (List.replicate (timesOf mult) (e1 :: es).reverse.flatten ++ l)) := by
  have hc := drop_cons_charAt h
  have hlt := drop_cons_lt h
  rw [Machine.openMoleculeTypeLoop, if_pos hlt]
  unfold Machine.loopPass
  rw [hc, machine_closeGroup_ofList e1 es l hes hfit, machine_closeTimes,
    closeTimes_run h hd hr]
  simp only [wrapInt_natCast hm, machine_pushTimes, pushTimes_ofList]
  simp [isUpperCase]
  rw [show i + mult.length + 1 = i + 1 + mult.length by omega]

theorem machine_step_digit {buffer : CString} (table : PeriodicTable) (fuel : Nat) {i : Nat}
    {d : Char} {ds rest : List Char} (v : CString) (l : List CString)
    (h : buffer.drop i = (d :: ds) ++ rest) (hd : ∀ x ∈ d :: ds, isDigitChar x = true)
    (hr : startsWith isDigitChar rest = false)
    (hm : decimalValue (d :: ds) < 2147483648) (hv : strlen v < arraySize) :
    Machine.openMoleculeTypeLoop buffer table (fuel + 1) i (Stack.ofList (v :: l)) =
      Machine.openMoleculeTypeLoop buffer table fuel (i + (d :: ds).length)
        (Stack.ofList (List.replicate (decimalValue (d :: ds)) v ++ l)) := by
  have h1 : buffer.drop i = d :: (ds ++ rest) := by simpa using h
  have hc := drop_cons_charAt h1
  have hlt := drop_cons_lt h1
  have hdig : isDigitChar d = true := hd d (by simp)
  have hnu : isUpperCase d = false := by
    cases hb : isUpperCase d
    · rfl
    · rw [upper_not_digit hb] at hdig; cases hdig
  have hno : d ≠ '(' := by
    intro he; rw [he] at hdig; revert hdig; decide
  have hnc : d ≠ ')' := by
    intro he; rw [he] at hdig; revert hdig; decide
  rw [Machine.openMoleculeTypeLoop, if_pos hlt]
  unfold Machine.loopPass
  rw [hc, machine_pop_ofList_cons l v [] hv,
    machine_digitTimes buffer i (by rw [hc]; exact hdig), digitTimes_run h hd hr]
  simp only [hnu, hno, hnc, hdig, if_false, if_true, Bool.false_eq_true]
  rw [if_neg (by decide), wrapInt_natCast hm, machine_pushTimes, pushTimes_ofList]
  simp only [List.length_cons]
  rw [show i + ds.length + 1 = i + (ds.length + 1) by omega]

theorem machine_step_other {buffer : CString} (table : PeriodicTable) (fuel : Nat) {i : Nat}
    (stack : Stack) {c : Char} {rest : List Char} (h : buffer.drop i = c :: rest)
    (hu : isUpperCase c = false) (ho : c ≠ '(') (hcl : c ≠ ')')
    (hd : isDigitChar c = false) (hl : isLowerCase c = false) :
    Machine.openMoleculeTypeLoop buffer table (fuel + 1) i stack =
      Machine.openMoleculeTypeLoop buffer table fuel (i + 1) stack := by
  have hc := drop_cons_charAt h
  have hlt := drop_cons_lt h
  rw [Machine.openMoleculeTypeLoop, if_pos hlt]
  unfold Machine.loopPass
  rw [hc]
  simp [hu, ho, hcl, hd, hl]

/-! ## The run over a well-formed formula within the limits of the machine -/

theorem fits_sym {name : CString} {mult : List Char} {rest : Formula}
    (h : (Formula.sym name mult rest).fits = true) :
    strlen name < arraySize ∧ timesOf mult < 2147483648 ∧ rest.fits = true := by
  simp only [Formula.fits, Bool.and_eq_true, decide_eq_true_eq] at h
  exact ⟨h.1.1, h.1.2, h.2⟩

theorem fits_group {body : Formula} {mult : List Char} {rest : Formula}
    (h : (Formula.group body mult rest).fits = true) :
    body.fits = true ∧ strlen body.expand < arraySize ∧ timesOf mult < 2147483648 ∧
      rest.fits = true := by
  simp only [Formula.fits, Bool.and_eq_true, decide_eq_true_eq] at h
  exact ⟨h.1.1.1, h.1.1.2, h.1.2, h.2⟩

theorem machine_run_formula {table : PeriodicTable} (f : Formula)
    (hwf : f.wellFormed table = true) (hfit : f.fits = true) :
    ∀ (buffer : CString) (i : Nat) (post : List Char) (l : List CString) (fuel : Nat),
      buffer.drop i = f.render ++ post →
      startsWith isLowerCase post = false → startsWith isDigitChar post = false →
      Machine.openMoleculeTypeLoop buffer table (fuel + f.passes) i (Stack.ofList l) =
        Machine.openMoleculeTypeLoop buffer table fuel (i + f.render.length)
          (Stack.ofList (f.entries.reverse ++ l)) := by
  induction f with
  | nil =>
    intro buffer i post l fuel _ _ _
    simp [Formula.passes, Formula.render, Formula.entries]
  | sym name mult rest ih =>
    intro buffer i post l fuel hdrop hl hd
    obtain ⟨hn, hmol, hm, hr⟩ := wellFormed_sym hwf
    obtain ⟨hname, hmult, hfr⟩ := fits_sym hfit
    obtain ⟨c, lows, rfl, hu, hlows⟩ := isSymbolName_cases hn
    obtain ⟨hdig, htimes⟩ := isMultiplier_cases hm
    have hrest := render_startsWith rest hr post hl hd
    cases mult with
    | nil =>
      have h1 : buffer.drop i = (c :: lows) ++ (rest.render ++ post) := by
        simpa [Formula.render] using hdrop
      have hstep := machine_step_symbol table (fuel + rest.passes) (Stack.ofList l) h1 hu
        hlows hrest.1 hname hmol
      rw [push_ofList] at hstep
      have h2 := drop_append_add h1
      have hrun := ih hr hfr buffer _ post ((c :: lows) :: l) fuel h2 hl hd
      simp only [Formula.passes, if_true]
      rw [show fuel + (1 + rest.passes) = fuel + rest.passes + 1 by omega, hstep, hrun]
      congr 1
      · simp [Formula.render]; omega
      · simp [Formula.entries, timesOf]
    | cons d ds =>
      have hd1 : isDigitChar d = true := hdig d (by simp)
      have h1 : buffer.drop i = (c :: lows) ++ ((d :: ds) ++ (rest.render ++ post)) := by
        simpa [Formula.render] using hdrop
      have hstep := machine_step_symbol table (fuel + rest.passes + 1) (Stack.ofList l) h1 hu
        hlows (by simpa [startsWith] using digit_not_lower hd1) hname hmol
      rw [push_ofList] at hstep
      have h2 := drop_append_add h1
      have hval : decimalValue (d :: ds) < 2147483648 := by
        simpa [timesOf] using hmult
      have hstep2 := machine_step_digit table (fuel + rest.passes) (c :: lows) l h2 hdig
        hrest.2 hval hname
      have h3 := drop_append_add h2
      have hrun := ih hr hfr buffer _ post
        (List.replicate (decimalValue (d :: ds)) (c :: lows) ++ l) fuel h3 hl hd
      simp only [Formula.passes, if_false, reduceCtorEq]
      rw [show fuel + (2 + rest.passes) = fuel + rest.passes + 1 + 1 by omega, hstep, hstep2,
        hrun]
      congr 1
      · simp [Formula.render]; omega
      · simp [Formula.entries, timesOf]
  | group body mult rest ihb ih =>
    intro buffer i post l fuel hdrop hl hd
    obtain ⟨hb, hwb, hm, hr⟩ := wellFormed_group hwf
    obtain ⟨hfb, hcontent, hmult, hfr⟩ := fits_group hfit
    obtain ⟨hdig, htimes⟩ := isMultiplier_cases hm
    have hrest := render_startsWith rest hr post hl hd
    have h1 : buffer.drop i = '(' :: (body.render ++ (')' :: (mult ++ (rest.render ++ post)))) := by
      simpa [Formula.render] using hdrop
    have hstep := machine_step_open table (fuel + rest.passes + 1 + body.passes)
      (Stack.ofList l) h1
    rw [push_ofList] at hstep
    have h2 := drop_cons_succ h1
    have hrunb := ihb hwb hfb buffer (i + 1) (')' :: (mult ++ (rest.render ++ post)))
      (openMarker :: l) (fuel + rest.passes + 1) h2 (by simp [startsWith, isLowerCase])
      (by simp [startsWith, isDigitChar])
    have h3 := drop_append_add h2
    obtain ⟨e1, es, hrev⟩ : ∃ e1 es, body.entries.reverse = e1 :: es := by
      cases hE : body.entries.reverse with
      | nil =>
        exact absurd (List.reverse_eq_nil_iff.1 hE) (entries_ne_nil body hwb hb)
      | cons e1 es => exact ⟨e1, es, rfl⟩
    have hes : ∀ e ∈ es, e ≠ openMarker := by
      intro e he
      apply upper_starts_ne_marker
      apply entries_startsWith body hwb
      have : e ∈ body.entries.reverse := by rw [hrev]; simp [he]
      simpa using this
    have hflat : (e1 :: es).reverse.flatten = body.expand := by
      rw [← hrev, List.reverse_reverse, entries_flatten]
    have hstep2 := machine_step_close table (fuel + rest.passes) e1 es l h3 hdig hrest.2
      hmult hes (by rw [hflat]; exact hcontent)
    rw [hflat] at hstep2
    have h4 : buffer.drop (i + 1 + body.render.length + 1 + mult.length)
        = rest.render ++ post := by
      have := drop_append_add (x := ')' :: mult) (y := rest.render ++ post)
        (by simpa using h3)
      rw [List.length_cons] at this
      rw [show i + 1 + body.render.length + 1 + mult.length
          = i + 1 + body.render.length + (mult.length + 1) by omega]
      exact this
    have hrun := ih hr hfr buffer _ post
      (List.replicate (timesOf mult) body.expand ++ l) fuel h4 hl hd
    simp only [Formula.passes]
    rw [show fuel + (2 + body.passes + rest.passes)
        = fuel + rest.passes + 1 + body.passes + 1 by omega, hstep, hrunb]
    rw [hrev, List.cons_append, hstep2, hrun]
    congr 1
    · simp [Formula.render]; omega
    · simp [Formula.entries]

/-- On a well-formed formula that fits the machine, alone or followed by the
line break, the run overruns no array and leaves by the final `return` with the
entries of the formula on the stack. -/
theorem machine_exit_wellFormed (table : PeriodicTable) (f : Formula)
    (tail : List Char) (hwf : f.wellFormed table = true) (hfit : f.fits = true)
    (htail : tail = [] ∨ tail = ['\n']) :
    Machine.openMoleculeTypeExit (f.render ++ tail) initStack table
      = some (.returns (.done, Stack.ofList f.entries.reverse)) := by
  have hlen := passes_le_length f hwf
  unfold Machine.openMoleculeTypeExit
  rcases htail with rfl | rfl
  · have hrun := machine_run_formula f hwf hfit (f.render ++ []) 0 [] []
      (f.render.length - f.passes) (by simp) rfl rfl
    rw [show f.render.length - f.passes + f.passes = strlen (f.render ++ []) by
      simp [strlen]; omega] at hrun
    rw [initStack_eq, hrun, machine_loop_end table _ _ (by simp [strlen])]
    simp
  · have hrun := machine_run_formula f hwf hfit (f.render ++ ['\n']) 0 ['\n'] []
      (f.render.length - f.passes + 1) (by simp) (by decide) (by decide)
    rw [show f.render.length - f.passes + 1 + f.passes = strlen (f.render ++ ['\n']) by
      simp [strlen]; omega] at hrun
    have hdrop : (f.render ++ ['\n']).drop (0 + f.render.length) = ['\n'] := by simp
    obtain ⟨h1, h2, h3, h4, h5⟩ := newline_other
    rw [initStack_eq, hrun, machine_step_other table _ _ hdrop h1 h2 h3 h4 h5,
      machine_loop_end table _ _ (by simp [strlen])]
    simp

theorem machine_openMoleculeType_of_done {buffer : CString} {stack st : Stack}
    {table : PeriodicTable}
    (h : Machine.openMoleculeTypeExit buffer stack table = some (.returns (.done, st))) :
    Machine.openMoleculeType buffer stack table = some (.returns (EXIT_SUCCESS, st)) := by
  simp [Machine.openMoleculeType, h, Outcome.map, Exit.status]

/-- The entries a formula that fits the machine leaves are shorter than 1024
characters. -/
theorem entries_short (f : Formula) (hfit : f.fits = true) :
    ∀ e ∈ f.entries, strlen e < arraySize := by
  induction f with
  | nil => simp [Formula.entries]
  | sym name mult rest ih =>
    obtain ⟨hname, -, hfr⟩ := fits_sym hfit
    intro e he
    simp only [Formula.entries, List.mem_append, List.mem_replicate] at he
    rcases he with ⟨-, rfl⟩ | he
    · exact hname
    · exact ih hfr e he
  | group body mult rest _ ih =>
    obtain ⟨-, hcontent, -, hfr⟩ := fits_group hfit
    intro e he
    simp only [Formula.entries, List.mem_append, List.mem_replicate] at he
    rcases he with ⟨-, rfl⟩ | he
    · exact hcontent
    · exact ih hfr e he

/-! ## Proton summation within the limits of the machine -/

theorem wrapInt_idem (x : Int) : Machine.wrapInt (Machine.wrapInt x) = Machine.wrapInt x := by
  unfold Machine.wrapInt
  omega

theorem wrapInt_add_right (a b : Int) :
    Machine.wrapInt (a + Machine.wrapInt b) = Machine.wrapInt (a + b) := by
  unfold Machine.wrapInt
  omega

theorem readSymbolBounded_length_le {buffer : CString} {i : Nat} (hlt : i < strlen buffer) :
    strlen (readSymbolBounded buffer i).1 ≤ strlen buffer := by
  rw [readSymbolBounded_eq]
  have h1 := (List.takeWhile_prefix isLowerCase (l := buffer.drop (i + 1))).length_le
  rw [List.length_drop] at h1
  simp only [strlen, List.length_cons] at hlt ⊢
  omega

theorem machine_number_loop (buffer : CString) (table : PeriodicTable)
    (hlen : strlen buffer < arraySize) :
    ∀ (fuel i : Nat) (number : Int),
      Machine.getMoleculeNumberLoop buffer table fuel i (Machine.wrapInt number)
        = (getMoleculeNumberLoop buffer table fuel i number).map
            fun n => .returns (Machine.wrapInt n) := by
  intro fuel
  induction fuel with
  | zero =>
    intro i number
    rw [Machine.getMoleculeNumberLoop, getMoleculeNumberLoop]
    split <;> rfl
  | succ n ih =>
    intro i number
    rw [Machine.getMoleculeNumberLoop, getMoleculeNumberLoop]
    by_cases hlt : i < strlen buffer
    · rw [if_pos hlt, if_pos hlt]
      by_cases hu : isUpperCase (charAt buffer i) = true
      · have := readSymbolBounded_length_le hlt
        rw [if_pos hu, if_pos hu, if_neg (by omega), wrapInt_add]
        exact ih _ _
      · rw [if_neg hu, if_neg hu]
        exact ih _ _
    · rw [if_neg hlt, if_neg hlt]
      rfl

/-- For a string shorter than 1024 characters `getMoleculeNumber` overruns no
array and returns the sum of the atomic numbers of its symbols as an `int`. -/
theorem machine_getMoleculeNumber (buffer : CString) (table : PeriodicTable)
    (hlen : strlen buffer < arraySize) :
    Machine.getMoleculeNumber buffer table
      = some (.returns (Machine.wrapInt (symbolSum table buffer))) := by
  unfold Machine.getMoleculeNumber
  have := machine_number_loop buffer table hlen (strlen buffer) 0 0
  rw [show Machine.wrapInt 0 = 0 from rfl] at this
  rw [this]
  have h2 := getMoleculeNumber_eq buffer table
  unfold getMoleculeNumber at h2
  rw [h2]
  rfl

theorem machine_sumLoop_ofList (table : PeriodicTable) (l : List CString)
    (hs : ∀ e ∈ l, strlen e < arraySize) (acc : Int) :
    Machine.sumLoop table l.length l (Machine.wrapInt acc)
      = some (.returns (EXIT_SUCCESS, Stack.ofList [],
          Machine.wrapInt (acc + (l.map (symbolSum table)).sum))) := by
  induction l generalizing acc with
  | nil => simp [Machine.sumLoop, Stack.ofList]
  | cons e es ih =>
    have hp : Machine.pop ⟨e :: es, es.length + 1⟩ []
        = .returns (EXIT_SUCCESS, Stack.ofList es, e) :=
      machine_pop_ofList_cons es e [] (hs e (by simp))
    have := ih (fun y hy => hs y (by simp [hy])) (acc + symbolSum table e)
    simp only [List.length_cons]
    rw [Machine.sumLoop, hp]
    simp only
    rw [if_neg (by decide), machine_getMoleculeNumber e table (hs e (by simp))]
    simp only [ofList_top]
    rw [wrapInt_add_right, wrapInt_add, this]
    simp [Int.add_assoc]

/-- For a stack whose entries are shorter than 1024 characters
`printMoleculeNumber` overruns no array and writes the sum of the atomic numbers
of the symbols in its entries as an `int`. -/
theorem machine_printMoleculeNumber_ofList (table : PeriodicTable) (l : List CString)
    (hs : ∀ e ∈ l, strlen e < arraySize) :
    Machine.printMoleculeNumber (Stack.ofList l) table
      = some (.returns (EXIT_SUCCESS, initStack,
          some (Machine.wrapInt (l.reverse.map (symbolSum table)).sum))) := by
  unfold Machine.printMoleculeNumber
  simp only [ofList_size, ofList_top]
  rw [initStack_eq, machine_drainLoop_ofList l [] hs]
  simp only [ofList_size, ofList_top, List.append_nil]
  have := machine_sumLoop_ofList table l.reverse
    (fun e he => hs e (List.mem_reverse.1 he)) 0
  rw [show Machine.wrapInt 0 = 0 from rfl, List.length_reverse] at this
  rw [List.length_reverse, this]
  simp

theorem entries_symbolSum {table : PeriodicTable} (f : Formula)
    (hwf : f.wellFormed table = true) :
    (f.entries.map (symbolSum table)).sum = f.protons table := by
  obtain ⟨-, h2⟩ := entries_numbers f hwf
  rw [← h2]
  congr 1
  apply List.map_congr_left
  intro e _
  rw [getMoleculeNumber_eq]
  rfl

set_option maxRecDepth 100000 in
/-- C2, as stated, fails: `(H1024)` is a well-formed formula over the table H, O,
Mg with the proton count 1024, but `openMoleculeType` leaves no stack for
`printMoleculeNumber`: closing the group it writes past the end of `retval`. -/
theorem protons_after_overrun :
    (Formula.group (.sym ['H'] (str "1024") .nil) [] .nil).wellFormed tableHOMg = true ∧
      (Formula.group (.sym ['H'] (str "1024") .nil) [] .nil).render = str "(H1024)" ∧
      (Formula.group (.sym ['H'] (str "1024") .nil) [] .nil).protons tableHOMg = 1024 ∧
      Machine.openMoleculeType (str "(H1024)") initStack tableHOMg = some .overrun := by
  decide

/-- C2, amended: for every element table and every well-formed formula line in
which every symbol and the expanded content of every group are shorter than
1024 characters and every multiplier fits an `int`, alone or followed by its
line break, `openMoleculeType` succeeds and the integer that
`printMoleculeNumber` computes from the stack it leaves is the arithmetic proton
count of the formula as an `int`: the count itself when it lies in the range of
`int`. -/
theorem printMoleculeNumber_counts_protons (table : PeriodicTable) (f : Formula)
    (tail : List Char) (hwf : f.wellFormed table = true) (hfit : f.fits = true)
    (htail : tail = [] ∨ tail = ['\n']) :
    ∃ st, Machine.openMoleculeType (f.render ++ tail) initStack table
        = some (.returns (EXIT_SUCCESS, st)) ∧
      Machine.printMoleculeNumber st table
        = some (.returns (EXIT_SUCCESS, initStack, some (Machine.wrapInt (f.protons table)))) ∧
      (-2147483648 ≤ f.protons table → f.protons table < 2147483648 →
        Machine.printMoleculeNumber st table
          = some (.returns (EXIT_SUCCESS, initStack, some (f.protons table)))) := by
  have hnum : Machine.printMoleculeNumber (Stack.ofList f.entries.reverse) table
      = some (.returns (EXIT_SUCCESS, initStack,
          some (Machine.wrapInt (f.protons table)))) := by
    rw [machine_printMoleculeNumber_ofList table f.entries.reverse
      (fun e he => entries_short f hfit e (List.mem_reverse.1 he)),
      List.reverse_reverse, entries_symbolSum f hwf]
  refine ⟨Stack.ofList f.entries.reverse,
    machine_openMoleculeType_of_done (machine_exit_wellFormed table f tail hwf hfit htail),
    hnum, fun h1 h2 => ?_⟩
  rw [hnum, wrapInt_of_range h1 h2]

/-- Witness of C2, amended: `Mg(OH)2` followed by its line break over the table
H 1, O 8, Mg 12 has the proton count 12 + 2 * (8 + 1) = 30. -/
theorem printMoleculeNumber_counts_protons_witness :
    formulaMgOH2.wellFormed tableHOMg = true ∧ formulaMgOH2.fits = true ∧
      Machine.openMoleculeType (str "Mg(OH)2\n") initStack tableHOMg
        = some (.returns (EXIT_SUCCESS, Stack.ofList [str "OH", str "OH", str "Mg"])) ∧
      Machine.printMoleculeNumber (Stack.ofList [str "OH", str "OH", str "Mg"]) tableHOMg
        = some (.returns (EXIT_SUCCESS, initStack, some 30)) ∧
      ∃ st, Machine.openMoleculeType (formulaMgOH2.render ++ ['\n']) initStack tableHOMg
          = some (.returns (EXIT_SUCCESS, st)) ∧
        Machine.printMoleculeNumber st tableHOMg
          = some (.returns (EXIT_SUCCESS, initStack,
              some (Machine.wrapInt (formulaMgOH2.protons tableHOMg)))) ∧
        (-2147483648 ≤ formulaMgOH2.protons tableHOMg →
          formulaMgOH2.protons tableHOMg < 2147483648 →
          Machine.printMoleculeNumber st tableHOMg
            = some (.returns (EXIT_SUCCESS, initStack,
                some (formulaMgOH2.protons tableHOMg)))) :=
  ⟨by decide, by decide, by decide, by decide,
    printMoleculeNumber_counts_protons tableHOMg formulaMgOH2 ['\n'] (by decide) (by decide)
      (Or.inr rfl)⟩

/-! ## Multipliers across nesting levels -/

set_option maxRecDepth 100000 in
/-- C11, as stated, fails: on `((H)1024)1` the inner group leaves 1024 copies of
`H`, and closing the outer group `openMoleculeType` writes past the end of
`retval`; on `((H)2)4294967297` the outer multiplier is read as the `int` 1, so
that the stack renders as `HH`, not as H written 2 * 4294967297 times. -/
theorem nested_multipliers_overrun :
    isSymbolName (str "H") = true ∧ inTable tableSample (str "H") = true ∧
      Nat.toDigits 10 1024 = str "1024" ∧ Nat.toDigits 10 4294967297 = str "4294967297" ∧
      Machine.openMoleculeType (str "((H)1024)1") initStack tableSample = some .overrun ∧
      Machine.openMoleculeType (str "((H)2)4294967297") initStack tableSample
        = some (.returns (EXIT_SUCCESS, Stack.ofList [str "HH"])) ∧
      Machine.printStack (Stack.ofList [str "HH"])
        = .returns (EXIT_SUCCESS, initStack, str "HH\n") ∧
      (str "HH\n").length ≠ 2 * 4294967297 * (str "H").length + 1 := by
  decide

/-- C11, amended: repetition multiplies across nesting levels. For every symbol X
of the table and all multipliers m and n of at least 1 that fit an `int`, with
X written m times shorter than 1024 characters, `openMoleculeType` on `((X)m)n`
with the multipliers written in decimal, with or without the line break,
succeeds, and `printStack` writes X exactly m * n times for the stack it
leaves. -/
theorem nested_multipliers_fit (table : PeriodicTable) (x : CString) (m n : Nat)
    (tail : List Char) (hx : isSymbolName x = true) (ht : inTable table x = true)
    (hm : 1 ≤ m) (hn : 1 ≤ n) (hm2 : m < 2147483648) (hn2 : n < 2147483648)
    (hcap : m * strlen x < arraySize) (htail : tail = [] ∨ tail = ['\n']) :
    ∃ st,
      Machine.openMoleculeType
          (['(', '('] ++ x ++ [')'] ++ Nat.toDigits 10 m ++ [')'] ++ Nat.toDigits 10 n ++ tail)
          initStack table = some (.returns (EXIT_SUCCESS, st)) ∧
        Machine.printStack st
          = .returns (EXIT_SUCCESS, initStack,
              (List.replicate (m * n) x).flatten ++ ['\n']) := by
  obtain ⟨hne1, hd1, hv1⟩ := toDigits_spec m
  obtain ⟨hne2, hd2, hv2⟩ := toDigits_spec n
  have ht1 : timesOf (Nat.toDigits 10 m) = m := by simp [timesOf, hne1, hv1]
  have ht2 : timesOf (Nat.toDigits 10 n) = n := by simp [timesOf, hne2, hv2]
  have hwf : (Formula.group (.group (.sym x [] .nil) (Nat.toDigits 10 m) .nil)
      (Nat.toDigits 10 n) .nil).wellFormed table = true := by
    simp only [Formula.wellFormed, isMultiplier, Bool.and_eq_true, List.all_eq_true,
      decide_eq_true_eq, ht1, ht2, hx, ht]
    refine ⟨⟨⟨by simp, ⟨⟨⟨by simp, ?_⟩, ?_⟩, trivial⟩⟩, ?_⟩, trivial⟩
    · exact ⟨⟨⟨trivial, trivial⟩, by simp [timesOf]⟩, trivial⟩
    · exact ⟨hd1, hm⟩
    · exact ⟨hd2, hn⟩
  have hxlen : strlen x < arraySize := by
    have : 1 * strlen x ≤ m * strlen x := Nat.mul_le_mul_right _ hm
    omega
  have hfit : (Formula.group (.group (.sym x [] .nil) (Nat.toDigits 10 m) .nil)
      (Nat.toDigits 10 n) .nil).fits = true := by
    have h1 : timesOf ([] : List Char) = 1 := rfl
    have hc2 : (List.replicate m x).flatten.length < arraySize := by
      rw [length_flatten_replicate]; exact hcap
    simp only [strlen] at hxlen
    simp [Formula.fits, Formula.expand, ht1, ht2, h1, strlen, hm2, hn2, hxlen, hc2]
    exact hcap
  have hrun := machine_exit_wellFormed table _ tail hwf hfit htail
  have hbuf : (Formula.group (.group (.sym x [] .nil) (Nat.toDigits 10 m) .nil)
      (Nat.toDigits 10 n) .nil).render ++ tail
      = ['(', '('] ++ x ++ [')'] ++ Nat.toDigits 10 m ++ [')'] ++ Nat.toDigits 10 n ++ tail := by
    simp [Formula.render]
  rw [hbuf] at hrun
  refine ⟨_, machine_openMoleculeType_of_done hrun, ?_⟩
  rw [machine_printStack_ofList _
    (fun e he => entries_short _ hfit e (List.mem_reverse.1 he)),
    List.reverse_reverse, entries_flatten]
  simp only [Formula.expand, ht1, ht2, List.append_nil]
  rw [show timesOf [] = 1 from rfl, List.replicate_one, List.flatten_singleton,
    flatten_replicate_mul]

/-- Witness of C11, amended: `((H)2)3` writes H six times, and `K4(ON(SO3)2)2`
writes `KKKK` followed by `ONSOOOSOOO` twice. -/
theorem nested_multipliers_fit_witness :
    isSymbolName (str "H") = true ∧ inTable tableSample (str "H") = true ∧
      (∃ st,
        Machine.openMoleculeType (str "((H)2)3") initStack tableSample
            = some (.returns (EXIT_SUCCESS, st)) ∧
          Machine.printStack st = .returns (EXIT_SUCCESS, initStack, str "HHHHHH\n")) ∧
      Machine.openMoleculeType (str "K4(ON(SO3)2)2") initStack tableSample
        = some (.returns (EXIT_SUCCESS, Stack.ofList [str "ONSOOOSOOO", str "ONSOOOSOOO",
            str "K", str "K", str "K", str "K"])) ∧
      Machine.printStack (Stack.ofList [str "ONSOOOSOOO", str "ONSOOOSOOO",
            str "K", str "K", str "K", str "K"])
        = .returns (EXIT_SUCCESS, initStack, str "KKKKONSOOOSOOOONSOOOSOOO\n") :=
  ⟨by decide, by decide,
    nested_multipliers_fit tableSample (str "H") 2 3 [] (by decide) (by decide) (by decide)
      (by decide) (by decide) (by decide) (by decide) (Or.inl rfl),
    by decide, by decide⟩

/-! ## Stack entries and atoms within the limits of the machine -/

/-- C20, as stated, fails: after `Mg(OH)2` the stack holds three entries for
five atoms, and the entry `OH` is no symbol of the table; and after
`H4294967297`, whose multiplier is read as the `int` 1, it holds one entry for
4294967297 atoms. -/
theorem entries_fewer_than_atoms :
    formulaMgOH2.wellFormed tableHOMg = true ∧
      Machine.openMoleculeType (str "Mg(OH)2") initStack tableHOMg
        = some (.returns (EXIT_SUCCESS, Stack.ofList [str "OH", str "OH", str "Mg"])) ∧
      (Stack.ofList [str "OH", str "OH", str "Mg"]).top.length = 3 ∧
      formulaMgOH2.atoms = 5 ∧
      inTable tableHOMg (str "OH") = false ∧
      (Formula.sym ['H'] (str "4294967297") .nil).wellFormed tableHOMg = true ∧
      (Formula.sym ['H'] (str "4294967297") .nil).render = str "H4294967297" ∧
      (Formula.sym ['H'] (str "4294967297") .nil).atoms = 4294967297 ∧
      Machine.openMoleculeType (str "H4294967297") initStack tableHOMg
        = some (.returns (EXIT_SUCCESS, Stack.ofList [str "H"])) := by
  decide

/-- C20, amended: after `openMoleculeType` on a well-formed formula in which
every symbol and the expanded content of every group are shorter than 1024
characters and every multiplier fits an `int`, the call succeeds and the stack
holds one entry per copy of a top-level symbol or group. The entries, bottom to
top, are the concatenations of consecutive non-empty chunks of the atoms of the
expanded formula, every atom being a symbol of the table, so that together the
entries hold as many symbols as the expanded formula has atoms; and for a
formula without groups every entry is a single symbol of the table and the
number of entries is the number of atoms. -/
theorem entries_are_atom_chunks (table : PeriodicTable) (f : Formula) (tail : List Char)
    (hwf : f.wellFormed table = true) (hfit : f.fits = true)
    (htail : tail = [] ∨ tail = ['\n']) :
    ∃ st, Machine.openMoleculeType (f.render ++ tail) initStack table
        = some (.returns (EXIT_SUCCESS, st)) ∧
      st.top.reverse = f.chunks.map List.flatten ∧
      f.chunks.flatten = f.atomList ∧
      (∀ ch ∈ f.chunks, ch ≠ []) ∧
      (∀ a ∈ f.atomList, isSymbolName a = true ∧ inTable table a = true) ∧
      f.atomList.flatten = f.expand ∧
      f.atomList.length = f.atoms ∧
      (f.flat = true → st.top.reverse = f.atomList ∧ st.top.length = f.atoms) := by
  refine ⟨Stack.ofList f.entries.reverse,
    machine_openMoleculeType_of_done (machine_exit_wellFormed table f tail hwf hfit htail),
    ?_, chunks_flatten f, chunks_ne_nil f hwf, atomList_symbols f hwf, atomList_flatten f,
    atomList_length f, ?_⟩
  · rw [ofList_top, List.reverse_reverse, chunks_entries]
  · intro hf
    rw [ofList_top, List.reverse_reverse, List.length_reverse, flat_entries f hf]
    exact ⟨rfl, atomList_length f⟩

/-- Witness of C20, amended: `Mg(OH)2` leaves the entries Mg, OH, OH for the
chunks [Mg], [O, H], [O, H] of its five atoms. -/
theorem entries_are_atom_chunks_witness :
    formulaMgOH2.wellFormed tableHOMg = true ∧ formulaMgOH2.fits = true ∧
      ∃ st, Machine.openMoleculeType (str "Mg(OH)2") initStack tableHOMg
          = some (.returns (EXIT_SUCCESS, st)) ∧
        st.top.reverse = [str "Mg", str "OH", str "OH"] ∧
        formulaMgOH2.chunks.flatten = formulaMgOH2.atomList ∧
        (∀ ch ∈ formulaMgOH2.chunks, ch ≠ []) ∧
        (∀ a ∈ formulaMgOH2.atomList,
          isSymbolName a = true ∧ inTable tableHOMg a = true) ∧
        formulaMgOH2.atomList.flatten = str "MgOHOH" ∧
        formulaMgOH2.atomList.length = 5 ∧
        (formulaMgOH2.flat = true →
          st.top.reverse = formulaMgOH2.atomList ∧ st.top.length = 5) :=
  ⟨by decide, by decide,
    entries_are_atom_chunks tableHOMg formulaMgOH2 [] (by decide) (by decide) (Or.inl rfl)⟩

end ParseFormula
